import Mathlib

/-!
# DFCompressor: the job model and the job queue

A shallow embedding of `src/core/Job.{h,cpp}` and `src/core/JobQueue.{h,cpp}`, of
`VideoProcessor::buildFFmpegArgs` in `src/processors/VideoProcessor.cpp`, and of
the format tokens that `src/ui/SettingsDialog.cpp` stores.

* A `QString` is the list of its characters. `QString::toUpper` and
  `QString::toLower` are modelled character by character on the ASCII
  letters; Qt maps other letters too, so the theorems that depend on the case
  of a text assume that the text is ASCII (`QString.isAscii`).
* `QFileInfo` and `QDir` are Qt library classes; the functions below model
  them on clean absolute paths with `/` as separator, which is what the file
  dialog and the drop zone hand to `JobQueue::addJob`. The theorems that
  depend on the directory of a path assume that the path is clean and
  absolute (`QFileInfo.isCleanAbsolute`).
* A `QDateTime` is `Option Int`: `none` is the invalid (default constructed)
  value, `some t` a time stamp in milliseconds.
  `QDateTime::currentDateTime()` is an input `now` of the operations that
  read the clock.
* C++ `int` and `qint64` are modelled by `Int`; the sums this file
  computes stay far from the machine bounds for any collection that fits in
  memory.
* The calls of the control surface run one after the other on the queue's
  thread. The pool threads and the event loop of the queue's thread are
  modelled by events of their own (`Event`), and an execution is a list of
  events; an event that cannot happen in a state leaves the state unchanged.
-/

namespace DFCompressor

/-! ## Qt strings and paths -/

abbrev QString := List Char

/-- Model of `QString::toUpper` on ASCII text: the letters `a`..`z` are
mapped to `A`..`Z` and every other character is kept (Qt also maps the
letters outside ASCII). -/
def QString.toUpper (s : QString) : QString := s.map Char.toUpper

/-- Model of `QString::toLower` on ASCII text: the letters `A`..`Z` are
mapped to `a`..`z` and every other character is kept (Qt also maps the
letters outside ASCII). -/
def QString.toLower (s : QString) : QString := s.map Char.toLower

/-- Split `s` at the last occurrence of `sep`: `some (before, after)`, or
`none` when `sep` does not occur. -/
def splitLast (sep : Char) : List Char → Option (List Char × List Char)
  | [] => none
  | c :: cs =>
    match splitLast sep cs with
    | some (a, b) => some (c :: a, b)
    | none => if c = sep then some ([], cs) else none

/-- Model of `QFileInfo::fileName`: the text after the last `/`. -/
def QFileInfo.fileName (path : QString) : QString :=
  match splitLast '/' path with
  | some (_, name) => name
  | none => path

/-- Model of `QFileInfo::suffix`: the text of the file name after its last
dot, empty when the file name has no dot. -/
def QFileInfo.suffix (path : QString) : QString :=
  match splitLast '.' (QFileInfo.fileName path) with
  | some (_, ext) => ext
  | none => []

/-- Model of `QFileInfo::completeBaseName`: the file name up to, not
including, its last dot; the whole file name when it has no dot. -/
def QFileInfo.completeBaseName (path : QString) : QString :=
  match splitLast '.' (QFileInfo.fileName path) with
  | some (base, _) => base
  | none => QFileInfo.fileName path

/-- Model of `QFileInfo::absolutePath` on a clean absolute path: the text
before the last `/`, and the root `/` for a file directly under the root
(Qt resolves a relative path against the working directory and removes `.`
and `..` first). -/
def QFileInfo.absolutePath (path : QString) : QString :=
  match splitLast '/' path with
  | some ([], _) => ['/']
  | some (dir, _) => dir
  | none => ['/']

/-- Model of `QDir(dir).filePath(fileName)`: the constructor drops one
trailing `/` of a path longer than one character; an absolute `fileName`
is returned as it is; otherwise the two are joined with exactly one `/`. -/
def QDir.filePath (dir fileName : QString) : QString :=
  let d := if 1 < dir.length ∧ dir.getLast? = some '/' then dir.dropLast else dir
  if fileName.head? = some '/' then fileName
  else if fileName = [] then d
  else if d = [] ∨ d.getLast? = some '/' then d ++ fileName
  else d ++ '/' :: fileName

/-! ## Settings (the part of the configuration the job model reads) -/

structure Settings where
  outputFolder : QString
  overwriteOriginal : Bool
  threadCount : Nat
  imageOutputFormat : QString
  videoOutputFormat : QString
  deriving DecidableEq, Repr

/-! ## Job -/

inductive JobStatus where
  | Pending
  | Processing
  | Paused
  | Completed
  | Failed
  | Cancelled
  deriving DecidableEq, Repr

inductive JobType where
  | Image
  | Video
  | Unknown
  deriving DecidableEq, Repr

abbrev QDateTime := Option Int

/-- A job identifier. `Job::generateJobId` returns a fresh UUID string, of
which the program only ever tests equality; the model draws identifiers from
a counter. -/
abbrev JobId := Nat

structure Job where
  m_id : JobId
  m_inputPath : QString
  m_outputPath : QString := []
  m_inputFormat : QString := []
  m_outputFormat : QString := []
  m_type : JobType := JobType.Unknown
  m_status : JobStatus := JobStatus.Pending
  m_progress : Int := 0
  m_errorMessage : QString := []
  m_inputSize : Int := 0
  m_outputSize : Int := 0
  m_startTime : QDateTime := none
  m_endTime : QDateTime := none
  deriving DecidableEq, Repr

def imageExts : List QString :=
  ["png", "jpg", "jpeg", "webp", "avif", "heic", "heif",
   "tiff", "tif", "bmp", "jxl", "gif"].map String.toList

def videoExts : List QString :=
  ["mp4", "mkv", "avi", "mov", "webm", "wmv", "flv", "m4v"].map String.toList

/-- `Job::determineJobType`. -/
def Job.determineJobType (j : Job) : Job :=
  let ext := (QFileInfo.suffix j.m_inputPath).toLower
  if imageExts.contains ext then { j with m_type := JobType.Image }
  else if videoExts.contains ext then { j with m_type := JobType.Video }
  else { j with m_type := JobType.Unknown }

/-- The output directory chosen at the top of `Job::generateOutputPath`. -/
def Job.outputDir (j : Job) (settings : Settings) : QString :=
  if settings.overwriteOriginal then QFileInfo.absolutePath j.m_inputPath
  else if ¬ settings.outputFolder.isEmpty then settings.outputFolder
  else QFileInfo.absolutePath j.m_inputPath

/-- The output format chosen in the middle of `Job::generateOutputPath`; a
job of unknown type keeps the format it has. -/
def Job.chooseOutputFormat (j : Job) (settings : Settings) : QString :=
  if j.m_type = JobType.Image then
    let format := settings.imageOutputFormat
    if format = "keep".toList then j.m_inputFormat else format.toUpper
  else if j.m_type = JobType.Video then
    let container := settings.videoOutputFormat
    if container = "keep".toList then j.m_inputFormat else container.toUpper
  else j.m_outputFormat

/-- The local `extension` of `Job::generateOutputPath`. -/
def Job.extensionOf (outputFormat : QString) : QString :=
  let extension := outputFormat.toLower
  if extension = "jpeg".toList then "jpg".toList else extension

/-- `Job::generateOutputPath`. -/
def Job.generateOutputPath (j : Job) (settings : Settings) : Job :=
  let baseName := QFileInfo.completeBaseName j.m_inputPath
  let outputDir := j.outputDir settings
  let j1 := { j with m_outputFormat := j.chooseOutputFormat settings }
  let extension := Job.extensionOf j1.m_outputFormat
  let j2 := { j1 with
    m_outputPath := QDir.filePath outputDir (baseName ++ "_converted.".toList ++ extension) }
  if settings.overwriteOriginal ∧ j2.m_outputFormat = j2.m_inputFormat then
    { j2 with m_outputPath := j2.m_inputPath }
  else j2

/-- The member initialisers and the first lines of the constructor
`Job::Job`, up to the call of `determineJobType`. -/
def Job.init (id : JobId) (inputPath : QString) (inputSize : Int) : Job :=
  { m_id := id, m_inputPath := inputPath, m_inputSize := inputSize,
    m_inputFormat := (QFileInfo.suffix inputPath).toUpper }

/-- The constructor `Job::Job`. The fresh identifier of `generateJobId` and
the file size read from the file system are inputs. -/
def Job.new (id : JobId) (inputPath : QString) (inputSize : Int)
    (settings : Settings) : Job :=
  ((Job.init id inputPath inputSize).determineJobType).generateOutputPath settings

/-- `Job::setStatus`. -/
def Job.setStatus (j : Job) (status : JobStatus) (now : Int) : Job :=
  let j1 := { j with m_status := status }
  if status = JobStatus.Processing ∧ j1.m_startTime.isNone then
    { j1 with m_startTime := some now }
  else if status = JobStatus.Completed ∨ status = JobStatus.Failed ∨
      status = JobStatus.Cancelled then
    { j1 with m_endTime := some now }
  else j1

/-- `qBound(min, value, max)`. -/
def qBound (min value max : Int) : Int :=
  if value < min then min else if max < value then max else value

/-- `Job::setProgress`. -/
def Job.setProgress (j : Job) (progress : Int) : Job :=
  { j with m_progress := qBound 0 progress 100 }

/-- `Job::setError`. -/
def Job.setError (j : Job) (error : QString) (now : Int) : Job :=
  { j with m_errorMessage := error, m_status := JobStatus.Failed, m_endTime := some now }

/-- `Job::processingTimeMs`. -/
def Job.processingTimeMs (j : Job) (now : Int) : Int :=
  match j.m_startTime, j.m_endTime with
  | none, _ => 0
  | some s, some e => e - s
  | some s, none => now - s

/-- `Job::setOutputSize`. -/
def Job.setOutputSize (j : Job) (size : Int) : Job :=
  { j with m_outputSize := size }

/-! ## The processing strategies, seen from `JobRunner::run`

`ImageProcessor::process` and `VideoProcessor::process` call external tools.
What `JobRunner::run` sees of them is one of three results; on success they
have stored the size of the produced file with `job->setOutputSize`. -/

inductive StrategyResult where
  | success (outputSize : Int)
  | failure (lastError : QString)
  | exception (what : QString)
  deriving DecidableEq, Repr

/-- The `try` block of `JobRunner::run`: the job as the strategy leaves it,
and the values of `success` and `error` passed to the finished callback. -/
def JobRunner.process (job : Job) (result : StrategyResult) : Job × Bool × QString :=
  if job.m_type = JobType.Image then
    match result with
    | StrategyResult.success size => (job.setOutputSize size, true, [])
    | StrategyResult.failure lastError => (job, false, lastError)
    | StrategyResult.exception what => (job, false, what)
  else if job.m_type = JobType.Video then
    match result with
    | StrategyResult.success size => (job.setOutputSize size, true, [])
    | StrategyResult.failure lastError => (job, false, lastError)
    | StrategyResult.exception what => (job, false, what)
  else (job, false, "Unsupported file type".toList)

/-! ## The thread pool

Model of `QThreadPool` for a pool of at least one thread. A runnable given to
`start` is handed to a thread when fewer than `maxThreadCount` threads are
active and waits in `queue` otherwise; a thread that has been handed a
runnable begins its `run()` at some later moment; a thread whose runnable
has returned takes the next queued runnable. A `JobRunner` is represented by
the identifier of the job it holds. -/

structure QThreadPool where
  maxThreadCount : Nat
  queue : List JobId := []
  starting : List JobId := []
  running : List JobId := []
  deriving DecidableEq, Repr

def QThreadPool.activeThreadCount (p : QThreadPool) : Nat :=
  p.starting.length + p.running.length

/-- `QThreadPool::start(runnable)`. -/
def QThreadPool.start (p : QThreadPool) (runner : JobId) : QThreadPool :=
  if p.activeThreadCount < p.maxThreadCount then
    { p with starting := p.starting ++ [runner] }
  else { p with queue := p.queue ++ [runner] }

/-- `QThreadPool::setMaxThreadCount(n)`: stores the bound and hands queued
runnables to threads as far as the new bound allows. -/
def QThreadPool.setMaxThreadCount (p : QThreadPool) (n : Nat) : QThreadPool :=
  let free := n - p.activeThreadCount
  { p with maxThreadCount := n,
           starting := p.starting ++ p.queue.take free,
           queue := p.queue.drop free }

/-- `QThreadPool::clear()`: drops the runnables that are still queued. -/
def QThreadPool.clear (p : QThreadPool) : QThreadPool :=
  { p with queue := [] }

/-- The `i`-th thread that was handed a runnable begins its `run()`. -/
def QThreadPool.beginRun (p : QThreadPool) (i : Nat) : Option (JobId × QThreadPool) :=
  match p.starting.get? i with
  | none => none
  | some runner =>
    some (runner, { p with starting := p.starting.eraseIdx i,
                           running := p.running ++ [runner] })

/-- The `run()` of the `i`-th running runnable returns; its thread takes the
next queued runnable unless too many threads are active. -/
def QThreadPool.endRun (p : QThreadPool) (i : Nat) : Option (JobId × QThreadPool) :=
  match p.running.get? i with
  | none => none
  | some runner =>
    let p1 := { p with running := p.running.eraseIdx i }
    match p1.queue with
    | [] => some (runner, p1)
    | next :: rest =>
      if p1.activeThreadCount < p1.maxThreadCount then
        some (runner, { p1 with queue := rest, starting := p1.starting ++ [next] })
      else some (runner, p1)

/-! ## JobQueue -/

structure JobStatistics where
  total : Int := 0
  completed : Int := 0
  failed : Int := 0
  pending : Int := 0
  processing : Int := 0
  totalInputSize : Int := 0
  totalOutputSize : Int := 0
  totalTimeMs : Int := 0
  deriving DecidableEq, Repr

inductive Signal where
  | jobAdded (jobId : JobId)
  | jobStarted (jobId : JobId)
  | jobProgress (jobId : JobId) (progress : Int)
  | jobCompleted (jobId : JobId)
  | jobFailed (jobId : JobId) (error : QString)
  | allJobsCompleted
  | progressChanged (totalProgress : Int)
  deriving DecidableEq, Repr

/-- A call posted to the queue's thread with `QMetaObject::invokeMethod(...,
Qt::QueuedConnection)` by one of the two callbacks built in
`JobQueue::processNextJob`. -/
inductive QueuedCall where
  | progress (jobId : JobId) (progress : Int)
  | finished (jobId : JobId) (success : Bool) (error : QString)
  deriving DecidableEq, Repr

/-- The members of `JobQueue`, followed by the surroundings of the object:
the calls posted to its thread and not yet executed, the signals emitted so
far, the jobs whose `run()` has begun so far (in order), and the counter the
job identifiers are drawn from. -/
structure JobQueue where
  m_jobs : List Job := []
  m_threadPool : QThreadPool := { maxThreadCount := 4 }
  m_isProcessing : Bool := false
  m_isPaused : Bool := false
  m_currentJobIndex : Int := 0
  m_maxConcurrentJobs : Int := 4
  posted : List QueuedCall := []
  emitted : List Signal := []
  runLog : List JobId := []
  uuidCounter : Nat := 0
  deriving DecidableEq, Repr

/-- The loop `for (auto& job : jobs) if (p job) { f job; break; }`. -/
def updateFirst (p : Job → Bool) (f : Job → Job) : List Job → List Job
  | [] => []
  | job :: rest => if p job then f job :: rest else job :: updateFirst p f rest

/-- `JobQueue::addJob`. -/
def JobQueue.addJob (q : JobQueue) (filePath : QString) (inputSize : Int)
    (settings : Settings) : JobQueue :=
  let job := Job.new q.uuidCounter filePath inputSize settings
  { q with m_jobs := q.m_jobs ++ [job],
           uuidCounter := q.uuidCounter + 1,
           emitted := q.emitted ++ [Signal.jobAdded job.m_id] }

/-- `JobQueue::addJobs`; each file comes with the size the file system
reports for it. -/
def JobQueue.addJobs (q : JobQueue) (files : List (QString × Int))
    (settings : Settings) : JobQueue :=
  files.foldl (fun acc file => acc.addJob file.1 file.2 settings) q

/-- `JobQueue::totalProgress`. The local `completedCount` of the source is
counted but never read, and is left out. -/
def JobQueue.totalProgress (q : JobQueue) : Int :=
  if q.m_jobs.isEmpty then 0
  else
    let totalProgress := q.m_jobs.foldl
      (fun acc job =>
        if job.m_status = JobStatus.Completed then acc + 100
        else if job.m_status = JobStatus.Processing then acc + job.m_progress
        else acc) 0
    Int.tdiv totalProgress q.m_jobs.length

/-- The body of the loop of `JobQueue::statistics`. -/
def JobStatistics.add (stats : JobStatistics) (job : Job) (now : Int) : JobStatistics :=
  let stats := { stats with totalInputSize := stats.totalInputSize + job.m_inputSize }
  match job.m_status with
  | JobStatus.Completed =>
    { stats with completed := stats.completed + 1,
                 totalOutputSize := stats.totalOutputSize + job.m_outputSize,
                 totalTimeMs := stats.totalTimeMs + job.processingTimeMs now }
  | JobStatus.Failed => { stats with failed := stats.failed + 1 }
  | JobStatus.Pending => { stats with pending := stats.pending + 1 }
  | JobStatus.Processing => { stats with processing := stats.processing + 1 }
  | _ => stats

/-- `JobQueue::statistics`. -/
def JobQueue.statistics (q : JobQueue) (now : Int) : JobStatistics :=
  q.m_jobs.foldl (fun stats job => stats.add job now) { total := q.m_jobs.length }

/-- `JobQueue::processNextJob`. -/
def JobQueue.processNextJob (q : JobQueue) : JobQueue :=
  if q.m_isPaused ∨ ¬ q.m_isProcessing then q
  else
    match q.m_jobs.find? (fun job => job.m_status = JobStatus.Pending) with
    | none =>
      let allDone := q.m_jobs.all (fun job =>
        ¬ (job.m_status = JobStatus.Processing ∨ job.m_status = JobStatus.Pending))
      if allDone then
        { q with m_isProcessing := false,
                 emitted := q.emitted ++ [Signal.allJobsCompleted] }
      else q
    | some nextJob =>
      { q with emitted := q.emitted ++ [Signal.jobStarted nextJob.m_id],
               m_threadPool := q.m_threadPool.start nextJob.m_id }

/-- `JobQueue::start`; `threadCount` is the value of
`Settings::instance().threadCount()` at the call. -/
def JobQueue.start (q : JobQueue) (threadCount : Nat) : JobQueue :=
  if q.m_isProcessing then q
  else if q.m_jobs.isEmpty then q
  else
    let q1 := { q with m_isProcessing := true, m_isPaused := false, m_currentJobIndex := 0,
                       m_threadPool := q.m_threadPool.setMaxThreadCount threadCount }
    q1.processNextJob

/-- `JobQueue::pause`. -/
def JobQueue.pause (q : JobQueue) : JobQueue :=
  { q with m_isPaused := true }

/-- `JobQueue::resume`. -/
def JobQueue.resume (q : JobQueue) : JobQueue :=
  JobQueue.processNextJob { q with m_isPaused := false }

/-- `JobQueue::cancel`. -/
def JobQueue.cancel (q : JobQueue) (jobId : JobId) (now : Int) : JobQueue :=
  let jobs := updateFirst (fun job => job.m_id = jobId)
    (fun job =>
      if job.m_status = JobStatus.Pending then job.setStatus JobStatus.Cancelled now
      else job) q.m_jobs
  { q with m_jobs := jobs }

/-- `JobQueue::onJobFinished`. -/
def JobQueue.onJobFinished (q : JobQueue) (jobId : JobId) (success : Bool)
    (error : QString) (now : Int) : JobQueue :=
  let jobs := updateFirst (fun job => job.m_id = jobId)
    (fun job =>
      if success then (job.setStatus JobStatus.Completed now).setProgress 100
      else job.setError error now) q.m_jobs
  let q1 := { q with m_jobs := jobs }
  let signal := if success then Signal.jobCompleted jobId else Signal.jobFailed jobId error
  let q2 := { q1 with emitted := q1.emitted ++ [signal] }
  let q3 := { q2 with emitted := q2.emitted ++ [Signal.progressChanged q2.totalProgress] }
  q3.processNextJob

/-- A pool thread begins `JobRunner::run` for the `i`-th runnable it was
handed: the job is set to Processing. -/
def JobQueue.workerStart (q : JobQueue) (i : Nat) (now : Int) : JobQueue :=
  match q.m_threadPool.beginRun i with
  | none => q
  | some (runner, pool) =>
    let jobs := updateFirst (fun job => job.m_id = runner)
      (fun job => job.setStatus JobStatus.Processing now) q.m_jobs
    { q with m_threadPool := pool, m_jobs := jobs, runLog := q.runLog ++ [runner] }

/-- The strategy run by the `i`-th running `JobRunner` reports a progress
value: the progress callback posts a call to the queue's thread. -/
def JobQueue.workerProgress (q : JobQueue) (i : Nat) (progress : Int) : JobQueue :=
  match q.m_threadPool.running.get? i with
  | none => q
  | some runner => { q with posted := q.posted ++ [QueuedCall.progress runner progress] }

/-- The rest of `JobRunner::run` for the `i`-th running runnable: the
strategy ends with `result`, and the finished callback posts the call of
`onJobFinished` to the queue's thread. The job the runnable holds is looked
up by its identifier: the collection only grows and identifiers are never
reused. -/
def JobQueue.workerFinish (q : JobQueue) (i : Nat) (result : StrategyResult) : JobQueue :=
  match q.m_threadPool.endRun i with
  | none => q
  | some (runner, pool) =>
    match q.m_jobs.find? (fun job => job.m_id = runner) with
    | none => { q with m_threadPool := pool }
    | some job =>
      let jobs := updateFirst (fun job => job.m_id = runner)
        (fun job => (JobRunner.process job result).1) q.m_jobs
      let call := QueuedCall.finished runner (JobRunner.process job result).2.1
        (JobRunner.process job result).2.2
      { q with m_threadPool := pool, m_jobs := jobs, posted := q.posted ++ [call] }

/-- The queue's thread executes the oldest posted call. -/
def JobQueue.deliver (q : JobQueue) (now : Int) : JobQueue :=
  match q.posted with
  | [] => q
  | QueuedCall.progress jobId progress :: rest =>
    let q1 := { q with posted := rest }
    let signals := [Signal.jobProgress jobId progress, Signal.progressChanged q1.totalProgress]
    { q1 with emitted := q1.emitted ++ signals }
  | QueuedCall.finished jobId success error :: rest =>
    JobQueue.onJobFinished { q with posted := rest } jobId success error now

/-- The wait of `JobQueue::stopAll` in `waitForDone()`: every runnable a
thread holds runs to its end, the strategies ending with `results`. -/
def JobQueue.drain (q : JobQueue) (now : Int) : List StrategyResult → Nat → JobQueue
  | _, 0 => q
  | results, fuel + 1 =>
    match q.m_threadPool.starting, q.m_threadPool.running with
    | _ :: _, _ => JobQueue.drain (q.workerStart 0 now) now results fuel
    | [], _ :: _ =>
      JobQueue.drain (q.workerFinish 0 (results.headD (StrategyResult.failure [])))
        now results.tail fuel
    | [], [] => q

/-- `JobQueue::stopAll`; `results` are the results with which the strategies
still at work end while the call waits for them. -/
def JobQueue.stopAll (q : JobQueue) (results : List StrategyResult) (now : Int) : JobQueue :=
  let q1 := { q with m_isProcessing := false, m_isPaused := false,
                     m_threadPool := q.m_threadPool.clear }
  let q2 := q1.drain now results (2 * q1.m_threadPool.activeThreadCount)
  let jobs := q2.m_jobs.map (fun job =>
    if job.m_status = JobStatus.Processing then job.setStatus JobStatus.Cancelled now
    else job)
  { q2 with m_jobs := jobs }

/-! ## Executions -/

/-- What can happen to a queue: the calls of its control surface, and the
steps of the pool threads and of the event loop of its thread. -/
inductive Event where
  | addJob (filePath : QString) (inputSize : Int) (settings : Settings)
  | start (threadCount : Nat)
  | pause
  | resume
  | stopAll (results : List StrategyResult)
  | cancel (jobId : JobId)
  | workerStart (i : Nat)
  | workerProgress (i : Nat) (progress : Int)
  | workerFinish (i : Nat) (result : StrategyResult)
  | deliver
  deriving DecidableEq, Repr

/-- One event, happening at time `now`. -/
def JobQueue.step (q : JobQueue) (now : Int) : Event → JobQueue
  | Event.addJob filePath inputSize settings => q.addJob filePath inputSize settings
  | Event.start threadCount => q.start threadCount
  | Event.pause => q.pause
  | Event.resume => q.resume
  | Event.stopAll results => q.stopAll results now
  | Event.cancel jobId => q.cancel jobId now
  | Event.workerStart i => q.workerStart i now
  | Event.workerProgress i progress => q.workerProgress i progress
  | Event.workerFinish i result => q.workerFinish i result
  | Event.deliver => q.deliver now

/-- An execution: the events in order, each with the time it happens at. -/
def JobQueue.exec (q : JobQueue) : List (Int × Event) → JobQueue
  | [] => q
  | (now, e) :: rest => JobQueue.exec (q.step now e) rest

/-- The number of jobs whose status is Processing. -/
def JobQueue.processingCount (q : JobQueue) : Nat :=
  q.m_jobs.countP (fun job => job.m_status = JobStatus.Processing)

/-! ## Vocabulary for executions -/

/-- A posted call that only carries a progress value. -/
def QueuedCall.isProgress : QueuedCall → Bool
  | QueuedCall.progress _ _ => true
  | QueuedCall.finished _ _ _ => false

/-- The steps of the pool threads and of the event loop, as opposed to the
calls of the control surface. -/
def Event.isWorkerEvent : Event → Bool
  | Event.workerStart _ => true
  | Event.workerProgress _ _ => true
  | Event.workerFinish _ _ => true
  | Event.deliver => true
  | _ => false

/-- No strategy fails in this event. -/
def Event.strategySucceeds : Event → Bool
  | Event.workerFinish _ (StrategyResult.success _) => true
  | Event.workerFinish _ _ => false
  | _ => true

/-- Every `start` in this event reads the thread count `K`. -/
def Event.readsThreadCount (K : Nat) : Event → Bool
  | Event.start threadCount => threadCount = K
  | _ => true

/-- The number of `onJobFinished` calls posted and not yet executed. -/
def JobQueue.postedCompletions (q : JobQueue) : Nat :=
  q.posted.countP (fun call => ¬ call.isProgress)

/-- The queue a batch of files is submitted to in a fresh `JobQueue` and
started with thread count `K`. -/
def JobQueue.startedBatch (files : List (QString × Int)) (settings : Settings)
    (K : Nat) : JobQueue :=
  (JobQueue.addJobs {} files settings).start K

/-- One worker cycle of a run with a single job in flight: the worker begins
the job, the strategy ends with `result`, the completion is recorded. -/
def workerCycle (result : StrategyResult) : List (Int × Event) :=
  [(0, Event.workerStart 0), (0, Event.workerFinish 0 result), (0, Event.deliver)]

/-- The schedule made of `n` worker cycles in which every strategy succeeds. -/
def successRun : Nat → List (Int × Event)
  | 0 => []
  | n + 1 => workerCycle (StrategyResult.success 0) ++ successRun n

/-- The jobs `addJobs` creates, the first with identifier `counter`. -/
def newJobs (settings : Settings) : Nat → List (QString × Int) → List Job
  | _, [] => []
  | counter, file :: files =>
    Job.new counter file.1 file.2 settings :: newJobs settings (counter + 1) files

/-- The identifiers and types of the jobs of a batch. -/
def batchSig (settings : Settings) (files : List (QString × Int)) : List (JobId × JobType) :=
  (newJobs settings 0 files).map (fun j => (j.m_id, j.m_type))

/-- Two jobs, pool size 1: the first job's worker returns while its
completion is still waiting to be recorded, and the pool begins the second
job, which a `resume` had handed to it. -/
def lingeringRun : List (Int × Event) :=
  [(0, Event.addJob "/d/a.png".toList 10 (Settings.mk [] false 1 "keep".toList "keep".toList)),
   (1, Event.addJob "/d/b.jpg".toList 20 (Settings.mk [] false 1 "keep".toList "keep".toList)),
   (2, Event.start 1),
   (3, Event.workerStart 0),
   (4, Event.pause),
   (5, Event.resume),
   (6, Event.workerFinish 0 (StrategyResult.success 7)),
   (7, Event.workerStart 0)]

/-- A job that has run to its end: Completed or Failed; with `strict` (every
strategy succeeds) it is Completed exactly when its type is known. -/
def Job.settled (strict : Bool) (j : Job) : Prop :=
  (j.m_status = JobStatus.Completed ∨ j.m_status = JobStatus.Failed) ∧
  (strict = true → (j.m_status = JobStatus.Completed ↔ j.m_type ≠ JobType.Unknown))

/-- What holds throughout a run in which only `start` dispatches: the jobs
`done` have run, the jobs `rest` wait. -/
structure RunFrame (strict : Bool) (sig : List (JobId × JobType)) (q : JobQueue)
    (done rest : List Job) : Prop where
  paused : q.m_isPaused = false
  queue : q.m_threadPool.queue = []
  cap : 1 ≤ q.m_threadPool.maxThreadCount
  sig_eq : q.m_jobs.map (fun j => (j.m_id, j.m_type)) = sig
  nodup : (sig.map Prod.fst).Nodup
  done_ok : ∀ j ∈ done, j.settled strict
  rest_ok : ∀ j ∈ rest, j.m_status = JobStatus.Pending

/-- The job `cur` has been handed to a thread that has not begun it. -/
def PhaseStarting (strict : Bool) (sig : List (JobId × JobType)) (m : Nat)
    (q : JobQueue) : Prop :=
  ∃ done cur rest, RunFrame strict sig q done rest ∧ rest.length = m ∧
    q.m_jobs = done ++ cur :: rest ∧ q.m_isProcessing = true ∧
    Signal.allJobsCompleted ∉ q.emitted ∧
    cur.m_status = JobStatus.Pending ∧
    q.m_threadPool.starting = [cur.m_id] ∧ q.m_threadPool.running = [] ∧
    q.posted = [] ∧ q.runLog = done.map Job.m_id

/-- The job `cur` is inside `run()`. -/
def PhaseRunning (strict : Bool) (sig : List (JobId × JobType)) (m : Nat)
    (q : JobQueue) : Prop :=
  ∃ done cur rest, RunFrame strict sig q done rest ∧ rest.length = m ∧
    q.m_jobs = done ++ cur :: rest ∧ q.m_isProcessing = true ∧
    Signal.allJobsCompleted ∉ q.emitted ∧
    cur.m_status = JobStatus.Processing ∧
    q.m_threadPool.starting = [] ∧ q.m_threadPool.running = [cur.m_id] ∧
    (∀ c ∈ q.posted, c.isProgress = true) ∧ q.runLog = done.map Job.m_id ++ [cur.m_id]

/-- The `run()` of `cur` has returned and its completion waits among the
posted calls, behind `k` progress calls. -/
def PhasePosted (strict : Bool) (sig : List (JobId × JobType)) (m k : Nat)
    (q : JobQueue) : Prop :=
  ∃ done cur rest, RunFrame strict sig q done rest ∧ rest.length = m ∧
    q.m_jobs = done ++ cur :: rest ∧ q.m_isProcessing = true ∧
    Signal.allJobsCompleted ∉ q.emitted ∧
    cur.m_status = JobStatus.Processing ∧
    q.m_threadPool.starting = [] ∧ q.m_threadPool.running = [] ∧
    (∃ ps success error, q.posted = ps ++ [QueuedCall.finished cur.m_id success error] ∧
      ps.length = k ∧ (∀ c ∈ ps, c.isProgress = true) ∧
      (strict = true → (success = true ↔ cur.m_type ≠ JobType.Unknown))) ∧
    q.runLog = done.map Job.m_id ++ [cur.m_id]

/-- Every job has run and the queue has signalled it. -/
def PhaseDone (strict : Bool) (sig : List (JobId × JobType)) (q : JobQueue) : Prop :=
  RunFrame strict sig q q.m_jobs [] ∧ q.m_isProcessing = false ∧
    Signal.allJobsCompleted ∈ q.emitted ∧
    q.m_threadPool.starting = [] ∧ q.m_threadPool.running = [] ∧
    q.posted = [] ∧ q.runLog = q.m_jobs.map Job.m_id

/-- The invariant of a run driven by `start` and the workers alone. -/
def RunInv (strict : Bool) (sig : List (JobId × JobType)) (q : JobQueue) : Prop :=
  (∃ m, PhaseStarting strict sig m q) ∨ (∃ m, PhaseRunning strict sig m q) ∨
  (∃ m k, PhasePosted strict sig m k q) ∨ PhaseDone strict sig q

/-- The job a posted completion refers to. -/
def QueuedCall.finishedId : QueuedCall → Option JobId
  | QueuedCall.finished jobId _ _ => some jobId
  | QueuedCall.progress _ _ => none

/-- The jobs whose completion is posted and not yet recorded. -/
def JobQueue.postedFinishedIds (q : JobQueue) : List JobId :=
  q.posted.filterMap QueuedCall.finishedId

/-- What holds in every state a new queue can reach when every `start`
reads the thread count `K`: either the pool has the bound `K` and respects
it, or the queue is idle and the pool has never been given a runnable (or
has been drained); job identifiers are distinct; and a job whose status is
Processing has a worker inside `run()` or a completion that is posted and
not yet recorded. -/
structure QueueInv (K : Nat) (q : JobQueue) : Prop where
  pool : (q.m_threadPool.maxThreadCount = K ∧ q.m_threadPool.activeThreadCount ≤ K) ∨
    (q.m_isProcessing = false ∧ q.m_threadPool.queue = [] ∧
      q.m_threadPool.starting = [] ∧ q.m_threadPool.running = [])
  nodup : (q.m_jobs.map Job.m_id).Nodup
  fresh : ∀ j ∈ q.m_jobs, j.m_id < q.uuidCounter
  processing : ∀ j ∈ q.m_jobs, j.m_status = JobStatus.Processing →
    j.m_id ∈ q.m_threadPool.running ∨ j.m_id ∈ q.postedFinishedIds

/-- A property of single jobs that the constructor establishes and every
write to a job made by the queue or by a worker keeps. -/
structure JobwiseInv (P : Job → Prop) : Prop where
  created : ∀ (id : JobId) (path : QString) (size : Int) (settings : Settings),
    P (Job.new id path size settings)
  begun : ∀ (j : Job) (now : Int), P j → P (j.setStatus JobStatus.Processing now)
  cancelled : ∀ (j : Job) (now : Int), P j → j.m_status = JobStatus.Pending →
    P (j.setStatus JobStatus.Cancelled now)
  stopped : ∀ (j : Job) (now : Int), P j → j.m_status = JobStatus.Processing →
    P (j.setStatus JobStatus.Cancelled now)
  completed : ∀ (j : Job) (now : Int), P j →
    P ((j.setStatus JobStatus.Completed now).setProgress 100)
  failed : ∀ (j : Job) (error : QString) (now : Int), P j → P (j.setError error now)
  processed : ∀ (j : Job) (result : StrategyResult), P j → P (JobRunner.process j result).1

/-! ## The mutex and `clear`

`m_mutex` is a default-constructed `QMutex`, which is not recursive: a
thread that locks it while holding it waits for itself and never returns.
Every operation above takes the mutex on entry and is called by a thread
that does not hold it; `clear` is the one operation that calls another
operation of the queue while it holds the mutex. -/

/-- `QMutexLocker locker(&m_mutex)` executed by a thread that holds the
mutex already (`held`) or not: `none` when the call never returns, else the
fact that the thread now holds the mutex. -/
def QMutexLocker.lock (held : Bool) : Option Bool :=
  if held then none else some true

/-- `JobQueue::stopAll` with its locker, called by a thread that holds the
mutex already (`held`) or not. -/
def JobQueue.stopAllLocked (q : JobQueue) (held : Bool) (results : List StrategyResult)
    (now : Int) : Option JobQueue :=
  match QMutexLocker.lock held with
  | none => none
  | some _ => some (q.stopAll results now)

/-- `JobQueue::clear`: `none` when the call never returns. -/
def JobQueue.clear (q : JobQueue) (results : List StrategyResult) (now : Int) :
    Option JobQueue :=
  match QMutexLocker.lock false with
  | none => none
  | some held =>
    match q.stopAllLocked held results now with
    | none => none
    | some q1 => some { q1 with m_jobs := [], m_currentJobIndex := 0 }

/-- One job is handed to the pool by `start` and cancelled before the
worker begins it; the worker then runs it to a recorded success. -/
def cancelledRun : List (Int × Event) :=
  [(0, Event.addJob "/d/a.png".toList 10 (Settings.mk [] false 1 "keep".toList "keep".toList)),
   (1, Event.start 1),
   (2, Event.cancel 0),
   (3, Event.workerStart 0),
   (4, Event.workerFinish 0 (StrategyResult.success 7)),
   (5, Event.deliver)]

/-- How a job may differ after the wait of `stopAll` from what it was
before: apart from the jobs held by a pool thread (`held`) nothing changes,
the identifier never changes, and a Processing job stays Processing. -/
def DrainRel (held : JobId → Prop) (before after : Job) : Prop :=
  after.m_id = before.m_id ∧
  (before.m_status = JobStatus.Processing → after.m_status = JobStatus.Processing) ∧
  (¬ held before.m_id → after = before)

/-- One job is handed to the pool by `start`; `stopAll` is called before
the worker has begun it. -/
def stoppedEarlyRun : List (Int × Event) :=
  [(0, Event.addJob "/d/a.png".toList 10 (Settings.mk [] false 1 "keep".toList "keep".toList)),
   (1, Event.start 1)]

/-- Completed, Failed and Cancelled are the terminal statuses. -/
def JobStatus.isTerminal : JobStatus → Bool
  | JobStatus.Completed => true
  | JobStatus.Failed => true
  | JobStatus.Cancelled => true
  | _ => false

/-- The status of the job with the given identifier, as `getJob` finds it. -/
def JobQueue.statusOf (q : JobQueue) (jobId : JobId) : Option JobStatus :=
  (q.m_jobs.find? (fun job => job.m_id = jobId)).map Job.m_status

/-- The events other than `resume`, `cancel` and `stopAll`. -/
def Event.isPlainEvent : Event → Bool
  | Event.resume => false
  | Event.cancel _ => false
  | Event.stopAll _ => false
  | _ => true

/-- The number of jobs handed to the pool whose completion is not recorded
yet: runnables queued in the pool, held by a thread or inside `run()`, and
completions posted to the queue's thread. -/
def JobQueue.inFlight (q : JobQueue) : Nat :=
  q.m_threadPool.queue.length + q.m_threadPool.starting.length +
    q.m_threadPool.running.length + q.postedFinishedIds.length

/-- What holds in every state a new queue reaches without `resume`, `cancel`
and `stopAll`: at most one job is in flight, and then the queue is Running;
a job that waits in the pool is Pending; a job inside `run()` or with a
posted completion is Processing. -/
structure SoloInv (q : JobQueue) : Prop where
  nodup : (q.m_jobs.map Job.m_id).Nodup
  fresh : ∀ j ∈ q.m_jobs, j.m_id < q.uuidCounter
  single : q.inFlight ≤ 1
  busy : q.inFlight = 1 → q.m_isProcessing = true
  waiting : ∀ r, r ∈ q.m_threadPool.queue ∨ r ∈ q.m_threadPool.starting →
    q.statusOf r = some JobStatus.Pending
  running : ∀ r ∈ q.m_threadPool.running, q.statusOf r = some JobStatus.Processing
  posted : ∀ r ∈ q.postedFinishedIds, q.statusOf r = some JobStatus.Processing

/-- Every job that has a terminal status in `before` has the same status in
`after`. -/
def TerminalKept (before after : JobQueue) : Prop :=
  ∀ (r : JobId) (s : JobStatus), before.statusOf r = some s → s.isTerminal = true →
    after.statusOf r = some s

/-- A worker returns with a success, `stopAll` is called before the
completion is recorded, and the completion is recorded afterwards. -/
def lateCompletionRun : List (Int × Event) :=
  [(0, Event.addJob "/d/a.png".toList 10 (Settings.mk [] false 1 "keep".toList "keep".toList)),
   (1, Event.start 1),
   (2, Event.workerStart 0),
   (3, Event.workerFinish 0 (StrategyResult.success 7)),
   (4, Event.stopAll []),
   (5, Event.deliver)]

/-- A `resume` right after `start` hands the one job to the pool a second
time; the first worker's failure is recorded, then the second worker
begins the job again. -/
def doubleDispatchRun : List (Int × Event) :=
  [(0, Event.addJob "/d/a.png".toList 10 (Settings.mk [] false 2 "keep".toList "keep".toList)),
   (1, Event.start 2),
   (2, Event.resume),
   (3, Event.workerStart 0),
   (4, Event.workerFinish 0 (StrategyResult.failure "no codec".toList)),
   (5, Event.deliver),
   (6, Event.workerStart 0)]

/-- One job is added, started and run to a recorded success. -/
def completedRun : List (Int × Event) :=
  [(0, Event.addJob "/d/a.png".toList 10 (Settings.mk [] false 1 "keep".toList "keep".toList)),
   (1, Event.start 1),
   (2, Event.workerStart 0),
   (3, Event.workerFinish 0 (StrategyResult.success 7)),
   (4, Event.deliver)]

/-- What follows `completedRun`: a second job is added, the queue is started
again, the job fails, and the queue is paused. -/
def followUpRun : List (Int × Event) :=
  [(5, Event.addJob "/d/b.jpg".toList 20 (Settings.mk [] false 1 "keep".toList "keep".toList)),
   (6, Event.start 1),
   (7, Event.workerStart 0),
   (8, Event.workerFinish 0 (StrategyResult.failure "no codec".toList)),
   (9, Event.deliver),
   (10, Event.pause)]

/-- The runnables the pool holds: queued, handed to a thread, or inside
`run()`. -/
def QThreadPool.runners (p : QThreadPool) : List JobId :=
  p.queue ++ p.starting ++ p.running

/-- The jobs for which the pool holds a runnable or a completion is posted
and not yet recorded. -/
def JobQueue.inFlightIds (q : JobQueue) : List JobId :=
  q.m_threadPool.runners ++ q.postedFinishedIds

/-- Job identifiers are distinct and below the next identifier. -/
structure IdsInv (q : JobQueue) : Prop where
  nodup : (q.m_jobs.map Job.m_id).Nodup
  fresh : ∀ j ∈ q.m_jobs, j.m_id < q.uuidCounter

/-- Job `r` has status `s`, the pool holds no runnable for it and no
completion of it waits to be recorded. -/
structure Settled (r : JobId) (s : JobStatus) (q : JobQueue) : Prop where
  status : q.statusOf r = some s
  free : r ∉ q.inFlightIds

/-- Two jobs are added and the second is cancelled before the queue is
started: no runnable was ever created for it. -/
def settledRun : List (Int × Event) :=
  [(0, Event.addJob "/d/a.png".toList 10 (Settings.mk [] false 1 "keep".toList "keep".toList)),
   (1, Event.addJob "/d/b.jpg".toList 20 (Settings.mk [] false 1 "keep".toList "keep".toList)),
   (2, Event.cancel 1)]

/-- What follows `settledRun`: the queue is started and resumed, the first
job runs, `stopAll` is called while it runs, a completion is recorded, the
second job is cancelled once more, and the queue is started again. -/
def restartRun : List (Int × Event) :=
  [(3, Event.start 2),
   (4, Event.resume),
   (5, Event.workerStart 0),
   (6, Event.stopAll [StrategyResult.success 7]),
   (7, Event.deliver),
   (8, Event.cancel 1),
   (9, Event.start 2),
   (10, Event.workerStart 0)]

/-! ## Sequences of writes to one job -/

/-- The writes a job receives after its construction. -/
inductive JobOp where
  | setStatus (status : JobStatus) (now : Int)
  | setProgress (progress : Int)
  | setError (error : QString) (now : Int)
  | setOutputSize (size : Int)
  deriving DecidableEq, Repr

/-- One write. -/
def Job.applyOp (j : Job) : JobOp → Job
  | JobOp.setStatus status now => j.setStatus status now
  | JobOp.setProgress progress => j.setProgress progress
  | JobOp.setError error now => j.setError error now
  | JobOp.setOutputSize size => j.setOutputSize size

/-- The writes of `ops`, in order. -/
def Job.applyOps (j : Job) (ops : List JobOp) : Job :=
  ops.foldl Job.applyOp j

/-- The writes that give the job a terminal status: `setStatus` with
Completed, Failed or Cancelled, and `setError`. -/
def JobOp.writesTerminal : JobOp → Bool
  | JobOp.setStatus status _ => status.isTerminal
  | JobOp.setError _ _ => true
  | _ => false

/-- The write `setStatus(Processing)`. -/
def JobOp.isBegin : JobOp → Bool
  | JobOp.setStatus JobStatus.Processing _ => true
  | _ => false

/-- The writes that set the status: `setStatus` and `setError`. -/
def JobOp.writesStatus : JobOp → Bool
  | JobOp.setStatus _ _ => true
  | JobOp.setError _ _ => true
  | _ => false

/-- Two jobs and a pool of one thread: while the first job runs, two
`pause`/`resume` pairs hand the second job, still Pending, to the pool
twice; the one pool thread then runs it twice. -/
def requeuedRun : List (Int × Event) :=
  [(0, Event.addJob "/d/a.png".toList 10 (Settings.mk [] false 1 "keep".toList "keep".toList)),
   (1, Event.addJob "/d/b.jpg".toList 20 (Settings.mk [] false 1 "keep".toList "keep".toList)),
   (2, Event.start 1),
   (3, Event.workerStart 0),
   (4, Event.pause),
   (5, Event.resume),
   (6, Event.pause),
   (7, Event.resume),
   (8, Event.workerFinish 0 (StrategyResult.success 7)),
   (9, Event.workerStart 0),
   (10, Event.workerFinish 0 (StrategyResult.success 8)),
   (11, Event.workerStart 0)]

/-! ## The FFmpeg command line

`VideoProcessor::buildFFmpegArgs` reads the job, the video settings of
`Settings::instance()` and the two GPU flags the constructor of
`VideoProcessor` has stored. -/

/-- The settings `VideoProcessor::buildFFmpegArgs` reads. -/
structure VideoSettings where
  videoCodec : QString
  videoCompressionMode : QString
  videoCrf : Int
  videoPreset : QString
  preserveAudio : Bool
  audioCodec : QString
  audioBitrate : Int
  deriving DecidableEq, Repr

/-- The values `Settings` returns when nothing has been stored. -/
def VideoSettings.defaults : VideoSettings :=
  { videoCodec := "av1".toList, videoCompressionMode := "visually_lossless".toList,
    videoCrf := 18, videoPreset := "medium".toList, preserveAudio := true,
    audioCodec := "opus".toList, audioBitrate := 192 }

/-- The members of `VideoProcessor` that `buildFFmpegArgs` reads. -/
structure VideoProcessor where
  m_hasNvenc : Bool := false
  m_hasNvdec : Bool := false
  deriving DecidableEq, Repr

/-- Model of `QString::number(int)`: the decimal digits. -/
def QString.number (n : Int) : QString := (toString n).toList

/-- The codec and the NVENC decision after the container test of
`buildFFmpegArgs`. -/
def VideoProcessor.chooseCodec (vp : VideoProcessor) (settings : VideoSettings)
    (job : Job) : QString × Bool :=
  let outputExt := (QFileInfo.suffix job.m_outputPath).toLower
  let codec := settings.videoCodec
  if outputExt = "webm".toList then
    let codec := if codec ≠ "vp9".toList ∧ codec ≠ "av1".toList then "vp9".toList else codec
    (codec, false)
  else
    (codec, vp.m_hasNvenc && (decide (codec = "h264".toList) || decide (codec = "hevc".toList)))

/-- The local `encoder` of `buildFFmpegArgs`. -/
def VideoProcessor.chooseEncoder (codec : QString) (useNvencEncoder : Bool) : QString :=
  if codec = "hevc".toList then
    if useNvencEncoder then "hevc_nvenc".toList else "libx265".toList
  else if codec = "h264".toList then
    if useNvencEncoder then "h264_nvenc".toList else "libx264".toList
  else if codec = "vp9".toList then "libvpx-vp9".toList
  else "libx264".toList

/-- The local `crf` of `buildFFmpegArgs`. -/
def VideoProcessor.chooseCrf (settings : VideoSettings) : Int :=
  let compressionMode := settings.videoCompressionMode
  if compressionMode = "lossless".toList then 0
  else if compressionMode = "visually_lossless".toList then 18
  else if compressionMode = "high".toList then 23
  else if compressionMode = "medium".toList then 28
  else if compressionMode = "web".toList then 32
  else settings.videoCrf

/-- The arguments of the section "Video encoding" of `buildFFmpegArgs`. -/
def VideoProcessor.videoArgs (settings : VideoSettings) (codec : QString)
    (useNvencEncoder : Bool) : List QString :=
  if codec = "copy".toList then ["-c:v".toList, "copy".toList]
  else
    let encoder := VideoProcessor.chooseEncoder codec useNvencEncoder
    let crf := VideoProcessor.chooseCrf settings
    let quality :=
      if useNvencEncoder then
        ["-cq".toList, QString.number crf, "-preset".toList, "p4".toList]
      else if codec = "vp9".toList then
        ["-crf".toList, QString.number crf, "-b:v".toList, "0".toList]
      else ["-crf".toList, QString.number crf, "-preset".toList, settings.videoPreset]
    let pixel := if ¬ useNvencEncoder then ["-pix_fmt".toList, "yuv420p".toList] else []
    ["-c:v".toList, encoder] ++ quality ++ pixel

/-- The arguments of the section "Audio encoding" of `buildFFmpegArgs`. -/
def VideoProcessor.audioArgs (settings : VideoSettings) : List QString :=
  if settings.preserveAudio then
    let audioCodec := settings.audioCodec
    if audioCodec = "copy".toList then ["-c:a".toList, "copy".toList]
    else if audioCodec = "opus".toList then
      ["-c:a".toList, "libopus".toList, "-b:a".toList,
       QString.number settings.audioBitrate ++ "k".toList]
    else if audioCodec = "aac".toList then
      ["-c:a".toList, "aac".toList, "-b:a".toList,
       QString.number settings.audioBitrate ++ "k".toList]
    else if audioCodec = "flac".toList then ["-c:a".toList, "flac".toList]
    else []
  else ["-an".toList]

/-- `VideoProcessor::buildFFmpegArgs`. -/
def VideoProcessor.buildFFmpegArgs (vp : VideoProcessor) (settings : VideoSettings)
    (job : Job) : List QString :=
  let args : List QString :=
    ["-y".toList, "-hide_banner".toList, "-loglevel".toList, "info".toList, "-stats".toList]
  let (codec, useNvencEncoder) := vp.chooseCodec settings job
  let args :=
    if vp.m_hasNvdec ∧ useNvencEncoder then args ++ ["-hwaccel".toList, "cuda".toList]
    else args
  let args := args ++ ["-i".toList, job.m_inputPath]
  let args := args ++ VideoProcessor.videoArgs settings codec useNvencEncoder
  let args := args ++ VideoProcessor.audioArgs settings
  args ++ [job.m_outputPath]

/-- A video job whose container is WebM, as the constructor builds it. -/
def webmJob : Job :=
  Job.new 0 "/d/clip.mp4".toList 10 (Settings.mk [] false 1 "keep".toList "webm".toList)

/-- The events other than `resume` and `stopAll`. -/
def Event.isOrderly : Event → Bool
  | Event.resume => false
  | Event.stopAll _ => false
  | _ => true

/-- The number of runnables the pool holds. -/
def QThreadPool.load (p : QThreadPool) : Nat :=
  p.queue.length + p.starting.length + p.running.length

/-- What holds in every state a new queue reaches without `resume` and
`stopAll`: the invariant of all executions for some thread count, at most
one job in flight, and the queue Running when a job is in flight. -/
structure LoneInv (q : JobQueue) : Prop where
  queue : ∃ K, QueueInv K q
  single : q.inFlight ≤ 1
  busy : q.inFlight = 1 → q.m_isProcessing = true

/-- Two jobs, the second cancelled while it waits; the first runs and its
completion is recorded, which brings no other job into the pool. -/
def orderlyRun : List (Int × Event) :=
  [(0, Event.addJob "/d/a.png".toList 10 (Settings.mk [] false 4 "keep".toList "keep".toList)),
   (1, Event.addJob "/d/b.jpg".toList 20 (Settings.mk [] false 4 "keep".toList "keep".toList)),
   (2, Event.start 4),
   (3, Event.cancel 1),
   (4, Event.workerStart 0),
   (5, Event.pause),
   (6, Event.workerProgress 0 50),
   (7, Event.workerFinish 0 (StrategyResult.success 7))]

/-- A job in flight has no error text, and a job with an error text is
Failed. -/
structure ErrInv (q : JobQueue) : Prop where
  clean : ∀ j ∈ q.m_jobs, j.m_id ∈ q.inFlightIds → j.m_errorMessage = []
  failed : ∀ j ∈ q.m_jobs, j.m_errorMessage ≠ [] → j.m_status = JobStatus.Failed

/-- Two jobs run one after the other; the first fails, the second is
cancelled after it was handed to the pool and runs to a recorded success. -/
def failingRun : List (Int × Event) :=
  [(0, Event.addJob "/d/a.png".toList 10 (Settings.mk [] false 1 "keep".toList "keep".toList)),
   (1, Event.addJob "/d/b.jpg".toList 20 (Settings.mk [] false 1 "keep".toList "keep".toList)),
   (2, Event.start 1),
   (3, Event.workerStart 0),
   (4, Event.workerFinish 0 (StrategyResult.failure "no codec".toList)),
   (5, Event.deliver),
   (6, Event.cancel 1),
   (7, Event.workerStart 0),
   (8, Event.workerFinish 0 (StrategyResult.success 7)),
   (9, Event.deliver)]
/-- The write `setError`. -/
def JobOp.isSetError : JobOp → Bool
  | JobOp.setError _ _ => true
  | _ => false

/-- The stored progress of every job is 0 or 100, and it is 100 only if
`jobCompleted` has been emitted for the job. -/
structure ProgressInv (q : JobQueue) : Prop where
  values : ∀ j ∈ q.m_jobs, j.m_progress = 0 ∨ j.m_progress = 100
  recorded : ∀ j ∈ q.m_jobs, j.m_progress = 100 → Signal.jobCompleted j.m_id ∈ q.emitted

/-! ## Where the Qt models apply

`QString::toUpper` and `QString::toLower` are Unicode-aware, and
`QFileInfo::absolutePath` resolves a relative path against the working
directory and removes `.` and `..`. The models above agree with them on
ASCII text and on clean absolute paths; the theorems that depend on them
carry these restrictions as hypotheses. -/

/-- Every character of the text is an ASCII character. On such text
`QString::toUpper` and `QString::toLower` change the letters `a`..`z` and
`A`..`Z` only, as the models do. -/
def QString.isAscii (s : QString) : Bool :=
  s.all (fun c => decide (c.toNat < 128))

/-- The format tokens the settings dialog stores for images
(`SettingsDialog.cpp`, the items of the image format combo box). -/
def SettingsDialog.imageFormats : List QString :=
  ["avif", "webp", "png", "keep"].map String.toList

/-- The container tokens the settings dialog stores for videos
(`SettingsDialog.cpp`, the items of the video container combo box). -/
def SettingsDialog.videoFormats : List QString :=
  ["mp4", "mkv", "webm", "keep"].map String.toList

/-! ## Facts about the string and path models -/

theorem splitLast_some {sep : Char} {s a b : List Char}
    (h : splitLast sep s = some (a, b)) : s = a ++ sep :: b ∧ sep ∉ b := by
  induction s generalizing a b with
  | nil => simp [splitLast] at h
  | cons c cs ih =>
    unfold splitLast at h
    cases hr : splitLast sep cs with
    | some p =>
      obtain ⟨a1, b1⟩ := p
      rw [hr] at h
      simp only [Option.some.injEq, Prod.mk.injEq] at h
      obtain ⟨rfl, rfl⟩ := h
      obtain ⟨h1, h2⟩ := ih hr
      exact ⟨by rw [h1]; rfl, h2⟩
    | none =>
      rw [hr] at h
      by_cases hc : c = sep
      · simp only [hc, if_true, Option.some.injEq, Prod.mk.injEq] at h
        obtain ⟨rfl, rfl⟩ := h
        refine ⟨by rw [hc]; rfl, ?_⟩
        clear ih
        induction cs with
        | nil => simp
        | cons d ds ihd =>
          unfold splitLast at hr
          cases hd : splitLast sep ds with
          | some q => rw [hd] at hr; simp at hr
          | none =>
            rw [hd] at hr
            by_cases hds : d = sep
            · simp [hds] at hr
            · simp only [List.mem_cons, not_or]
              exact ⟨fun e => hds e.symm, ihd hd⟩
      · simp [hc] at h

theorem splitLast_none {sep : Char} {s : List Char}
    (h : splitLast sep s = none) : sep ∉ s := by
  induction s with
  | nil => simp
  | cons c cs ih =>
    unfold splitLast at h
    cases hr : splitLast sep cs with
    | some p => rw [hr] at h; simp at h
    | none =>
      rw [hr] at h
      by_cases hc : c = sep
      · simp [hc] at h
      · simp only [List.mem_cons, not_or]
        exact ⟨fun e => hc e.symm, ih hr⟩

theorem Char.toUpper_idem (c : Char) : c.toUpper.toUpper = c.toUpper := by
  by_cases h : c.toNat ≥ 97 ∧ c.toNat ≤ 122
  · obtain ⟨h1, h2⟩ := h
    have hc : c = Char.ofNat c.toNat := (Char.ofNat_toNat c).symm
    generalize c.toNat = n at hc h1 h2
    subst hc
    interval_cases n <;> decide
  · have : c.toUpper = c := by
      unfold Char.toUpper
      simp only [h, if_false]
    rw [this, this]

theorem QString.toUpper_toUpper (s : QString) : s.toUpper.toUpper = s.toUpper := by
  unfold QString.toUpper
  rw [List.map_map]
  apply List.map_congr_left
  intro c _
  exact Char.toUpper_idem c

theorem QDir.filePath_suffix (dir name : QString) : name <:+ QDir.filePath dir name := by
  unfold QDir.filePath
  simp only
  split_ifs <;>
    first
    | exact List.suffix_refl _
    | (subst_vars; exact List.nil_suffix)
    | exact List.suffix_append _ _
    | exact (List.suffix_cons _ _).trans (List.suffix_append _ _)

/-! ## Facts about clean absolute paths -/

theorem Job.determineJobType_type (j : Job) :
    j.determineJobType.m_type =
      if imageExts.contains (QFileInfo.suffix j.m_inputPath).toLower then JobType.Image
      else if videoExts.contains (QFileInfo.suffix j.m_inputPath).toLower then JobType.Video
      else JobType.Unknown := by
  unfold Job.determineJobType
  simp only
  split_ifs <;> rfl

theorem Job.determineJobType_fields (j : Job) :
    j.determineJobType.m_id = j.m_id ∧
    j.determineJobType.m_inputPath = j.m_inputPath ∧
    j.determineJobType.m_inputFormat = j.m_inputFormat ∧
    j.determineJobType.m_outputFormat = j.m_outputFormat ∧
    j.determineJobType.m_status = j.m_status ∧
    j.determineJobType.m_progress = j.m_progress ∧
    j.determineJobType.m_inputSize = j.m_inputSize := by
  unfold Job.determineJobType
  simp only
  split_ifs <;> exact ⟨rfl, rfl, rfl, rfl, rfl, rfl, rfl⟩

theorem Job.generateOutputPath_fields (j : Job) (settings : Settings) :
    (j.generateOutputPath settings).m_id = j.m_id ∧
    (j.generateOutputPath settings).m_inputPath = j.m_inputPath ∧
    (j.generateOutputPath settings).m_inputFormat = j.m_inputFormat ∧
    (j.generateOutputPath settings).m_type = j.m_type ∧
    (j.generateOutputPath settings).m_status = j.m_status ∧
    (j.generateOutputPath settings).m_progress = j.m_progress ∧
    (j.generateOutputPath settings).m_inputSize = j.m_inputSize := by
  unfold Job.generateOutputPath
  simp only
  split_ifs <;> exact ⟨rfl, rfl, rfl, rfl, rfl, rfl, rfl⟩

theorem Job.generateOutputPath_format (j : Job) (settings : Settings) :
    (j.generateOutputPath settings).m_outputFormat = j.chooseOutputFormat settings := by
  unfold Job.generateOutputPath
  simp only
  split_ifs <;> rfl

theorem Job.generateOutputPath_path (j : Job) (settings : Settings) :
    (j.generateOutputPath settings).m_outputPath =
      if settings.overwriteOriginal = true ∧ j.chooseOutputFormat settings = j.m_inputFormat
      then j.m_inputPath
      else QDir.filePath (j.outputDir settings)
        (QFileInfo.completeBaseName j.m_inputPath ++ "_converted.".toList ++
          Job.extensionOf (j.chooseOutputFormat settings)) := by
  unfold Job.generateOutputPath
  simp only
  split_ifs <;> rfl

theorem Job.new_id (id : JobId) (path : QString) (size : Int) (settings : Settings) :
    (Job.new id path size settings).m_id = id := by
  unfold Job.new
  rw [(Job.generateOutputPath_fields _ _).1, (Job.determineJobType_fields _).1]
  rfl

theorem Job.new_inputPath (id : JobId) (path : QString) (size : Int) (settings : Settings) :
    (Job.new id path size settings).m_inputPath = path := by
  unfold Job.new
  rw [(Job.generateOutputPath_fields _ _).2.1, (Job.determineJobType_fields _).2.1]
  rfl

theorem Job.new_inputFormat (id : JobId) (path : QString) (size : Int) (settings : Settings) :
    (Job.new id path size settings).m_inputFormat = (QFileInfo.suffix path).toUpper := by
  unfold Job.new
  rw [(Job.generateOutputPath_fields _ _).2.2.1, (Job.determineJobType_fields _).2.2.1]
  rfl

theorem Job.new_status (id : JobId) (path : QString) (size : Int) (settings : Settings) :
    (Job.new id path size settings).m_status = JobStatus.Pending := by
  unfold Job.new
  rw [(Job.generateOutputPath_fields _ _).2.2.2.2.1, (Job.determineJobType_fields _).2.2.2.2.1]
  rfl

theorem Job.new_progress (id : JobId) (path : QString) (size : Int) (settings : Settings) :
    (Job.new id path size settings).m_progress = 0 := by
  unfold Job.new
  rw [(Job.generateOutputPath_fields _ _).2.2.2.2.2.1,
    (Job.determineJobType_fields _).2.2.2.2.2.1]
  rfl

theorem Job.new_inputSize (id : JobId) (path : QString) (size : Int) (settings : Settings) :
    (Job.new id path size settings).m_inputSize = size := by
  unfold Job.new
  rw [(Job.generateOutputPath_fields _ _).2.2.2.2.2.2,
    (Job.determineJobType_fields _).2.2.2.2.2.2]
  rfl

theorem Job.new_type (id : JobId) (path : QString) (size : Int) (settings : Settings) :
    (Job.new id path size settings).m_type =
      if imageExts.contains (QFileInfo.suffix path).toLower then JobType.Image
      else if videoExts.contains (QFileInfo.suffix path).toLower then JobType.Video
      else JobType.Unknown := by
  unfold Job.new
  rw [(Job.generateOutputPath_fields _ _).2.2.2.1, Job.determineJobType_type]
  rfl

theorem Job.new_outputFormat (id : JobId) (path : QString) (size : Int) (settings : Settings) :
    (Job.new id path size settings).m_outputFormat =
      if (Job.new id path size settings).m_type = JobType.Image then
        (if settings.imageOutputFormat = "keep".toList then (QFileInfo.suffix path).toUpper
         else settings.imageOutputFormat.toUpper)
      else if (Job.new id path size settings).m_type = JobType.Video then
        (if settings.videoOutputFormat = "keep".toList then (QFileInfo.suffix path).toUpper
         else settings.videoOutputFormat.toUpper)
      else [] := by
  have ht : (Job.new id path size settings).m_type =
      (Job.init id path size).determineJobType.m_type := by
    unfold Job.new
    rw [(Job.generateOutputPath_fields _ _).2.2.2.1]
  rw [ht]
  unfold Job.new
  rw [Job.generateOutputPath_format]
  unfold Job.chooseOutputFormat
  simp only
  rw [(Job.determineJobType_fields _).2.2.1, (Job.determineJobType_fields _).2.2.2.1]
  rfl

theorem Job.new_outputPath (id : JobId) (path : QString) (size : Int) (settings : Settings) :
    (Job.new id path size settings).m_outputPath =
      if settings.overwriteOriginal = true ∧
          (Job.new id path size settings).m_outputFormat = (QFileInfo.suffix path).toUpper
      then path
      else QDir.filePath
        (Job.outputDir (Job.init id path size) settings)
        (QFileInfo.completeBaseName path ++ "_converted.".toList ++
          Job.extensionOf (Job.new id path size settings).m_outputFormat) := by
  have hf : (Job.new id path size settings).m_outputFormat =
      Job.chooseOutputFormat (Job.init id path size).determineJobType settings := by
    unfold Job.new
    rw [Job.generateOutputPath_format]
  rw [hf]
  unfold Job.new
  rw [Job.generateOutputPath_path]
  have hd : Job.outputDir (Job.init id path size).determineJobType settings =
      Job.outputDir (Job.init id path size) settings := by
    unfold Job.outputDir
    rw [(Job.determineJobType_fields _).2.1]
  rw [hd, (Job.determineJobType_fields _).2.1, (Job.determineJobType_fields _).2.2.1]
  rfl

/-! ## Facts about ASCII text -/

theorem Char.toUpper_ascii (c : Char) (h : c.toNat < 128) : c.toUpper.toNat < 128 := by
  by_cases hr : c.toNat ≥ 97 ∧ c.toNat ≤ 122
  · obtain ⟨h1, h2⟩ := hr
    have hc : c = Char.ofNat c.toNat := (Char.ofNat_toNat c).symm
    generalize c.toNat = n at hc h1 h2
    subst hc
    interval_cases n <;> decide
  · have : c.toUpper = c := by
      unfold Char.toUpper
      simp only [hr, if_false]
    rw [this]
    exact h

theorem Char.toLower_ascii (c : Char) (h : c.toNat < 128) : c.toLower.toNat < 128 := by
  by_cases hr : c.toNat ≥ 65 ∧ c.toNat ≤ 90
  · obtain ⟨h1, h2⟩ := hr
    have hc : c = Char.ofNat c.toNat := (Char.ofNat_toNat c).symm
    generalize c.toNat = n at hc h1 h2
    subst hc
    interval_cases n <;> decide
  · have : c.toLower = c := by
      unfold Char.toLower
      simp only [hr, if_false]
    rw [this]
    exact h

theorem QString.isAscii_iff (s : QString) : s.isAscii = true ↔ ∀ c ∈ s, c.toNat < 128 := by
  unfold QString.isAscii
  simp [List.all_eq_true]

theorem QString.toUpper_isAscii (s : QString) (h : s.isAscii = true) :
    s.toUpper.isAscii = true := by
  rw [QString.isAscii_iff] at h ⊢
  intro c hc
  unfold QString.toUpper at hc
  obtain ⟨c0, hc0, he⟩ := List.mem_map.mp hc
  rw [← he]
  exact Char.toUpper_ascii c0 (h c0 hc0)

theorem QString.toLower_isAscii (s : QString) (h : s.isAscii = true) :
    s.toLower.isAscii = true := by
  rw [QString.isAscii_iff] at h ⊢
  intro c hc
  unfold QString.toLower at hc
  obtain ⟨c0, hc0, he⟩ := List.mem_map.mp hc
  rw [← he]
  exact Char.toLower_ascii c0 (h c0 hc0)

/-- With an ASCII source extension and ASCII format tokens the two formats
and the destination extension are ASCII. -/
theorem Job.new_ascii (id : JobId) (path : QString) (size : Int) (settings : Settings)
    (hsuf : (QFileInfo.suffix path).isAscii = true)
    (himg : settings.imageOutputFormat.isAscii = true)
    (hvid : settings.videoOutputFormat.isAscii = true) :
    (Job.new id path size settings).m_inputFormat.isAscii = true ∧
    (Job.new id path size settings).m_outputFormat.isAscii = true ∧
    (Job.extensionOf (Job.new id path size settings).m_outputFormat).isAscii = true := by
  have hin : (Job.new id path size settings).m_inputFormat.isAscii = true := by
    rw [Job.new_inputFormat]
    exact QString.toUpper_isAscii _ hsuf
  have hout : (Job.new id path size settings).m_outputFormat.isAscii = true := by
    rw [Job.new_outputFormat]
    split_ifs
    · exact QString.toUpper_isAscii _ hsuf
    · exact QString.toUpper_isAscii _ himg
    · exact QString.toUpper_isAscii _ hsuf
    · exact QString.toUpper_isAscii _ hvid
    · rfl
  refine ⟨hin, hout, ?_⟩
  unfold Job.extensionOf
  simp only
  split_ifs
  · decide
  · exact QString.toLower_isAscii _ hout

/-! ## Facts about the aggregates -/

theorem totalProgress_fold (jobs : List Job) (acc : Int) :
    jobs.foldl
      (fun acc job =>
        if job.m_status = JobStatus.Completed then acc + 100
        else if job.m_status = JobStatus.Processing then acc + job.m_progress
        else acc) acc =
    acc + (jobs.map (fun job =>
      match job.m_status with
      | JobStatus.Completed => 100
      | JobStatus.Processing => job.m_progress
      | _ => 0)).sum := by
  induction jobs generalizing acc with
  | nil => simp
  | cons job rest ih =>
    simp only [List.foldl_cons, List.map_cons, List.sum_cons]
    rw [ih]
    cases job.m_status <;> simp <;> ring

theorem statistics_fold (jobs : List Job) (now : Int) (s : JobStatistics) :
    jobs.foldl (fun stats job => stats.add job now) s =
      { total := s.total,
        completed := s.completed + (jobs.countP (fun job => job.m_status = JobStatus.Completed) : Nat),
        failed := s.failed + (jobs.countP (fun job => job.m_status = JobStatus.Failed) : Nat),
        pending := s.pending + (jobs.countP (fun job => job.m_status = JobStatus.Pending) : Nat),
        processing := s.processing +
          (jobs.countP (fun job => job.m_status = JobStatus.Processing) : Nat),
        totalInputSize := s.totalInputSize + (jobs.map (fun job => job.m_inputSize)).sum,
        totalOutputSize := s.totalOutputSize +
          ((jobs.filter (fun job => job.m_status = JobStatus.Completed)).map
            (fun job => job.m_outputSize)).sum,
        totalTimeMs := s.totalTimeMs +
          ((jobs.filter (fun job => job.m_status = JobStatus.Completed)).map
            (fun job => job.processingTimeMs now)).sum } := by
  induction jobs generalizing s with
  | nil => simp
  | cons job rest ih =>
    rw [List.foldl_cons, ih]
    unfold JobStatistics.add
    cases hs : job.m_status <;>
      simp only [hs, List.countP_cons, List.filter_cons, List.map_cons, List.sum_cons,
        decide_True, decide_False, if_true, if_false, JobStatistics.mk.injEq, Nat.cast_add,
        Nat.cast_one, Nat.cast_zero, reduceCtorEq, Bool.false_eq_true, add_zero] <;>
      (repeat' constructor) <;> ring

/-! ## Claims about the job model -/

/-- C2: when overwrite-original is set and the destination format equals the
source format (the uppercased source extension), the destination path is the
source path exactly as submitted. -/
theorem C2_overwrite_in_place (id : JobId) (path : QString) (size : Int) (settings : Settings)
    (ho : settings.overwriteOriginal = true)
    (hf : (Job.new id path size settings).m_outputFormat =
      (Job.new id path size settings).m_inputFormat) :
    (Job.new id path size settings).m_outputPath = path ∧
    (Job.new id path size settings).m_inputPath = path ∧
    (Job.new id path size settings).m_inputFormat = (QFileInfo.suffix path).toUpper := by
  refine ⟨?_, Job.new_inputPath _ _ _ _, Job.new_inputFormat _ _ _ _⟩
  rw [Job.new_inputFormat] at hf
  rw [Job.new_outputPath, if_pos ⟨ho, hf⟩]

/-- C2, witness: source `a.png`, overwrite on, image target format "PNG". -/
theorem C2_overwrite_in_place_witness :
    (Settings.mk [] true 2 "PNG".toList "mp4".toList).overwriteOriginal = true ∧
    (Job.new 1 "/d/a.png".toList 10
        (Settings.mk [] true 2 "PNG".toList "mp4".toList)).m_outputFormat =
      (Job.new 1 "/d/a.png".toList 10
        (Settings.mk [] true 2 "PNG".toList "mp4".toList)).m_inputFormat ∧
    (Job.new 1 "/d/a.png".toList 10
        (Settings.mk [] true 2 "PNG".toList "mp4".toList)).m_outputPath = "/d/a.png".toList :=
  ⟨by decide, by decide,
   (C2_overwrite_in_place 1 "/d/a.png".toList 10
      (Settings.mk [] true 2 "PNG".toList "mp4".toList) (by decide) (by decide)).1⟩

/-- C3 as stated fails: for source `a.jpeg` with overwrite on and image format
"keep" the destination format is `JPEG`, whose extension is `jpg`, yet the
destination path is the source path `a.jpeg`: its extension is `jpeg` and it
does not end in `.jpg`. -/
theorem C3_counterexample :
    (Job.new 1 "/d/a.jpeg".toList 10
        (Settings.mk [] true 2 "keep".toList "mp4".toList)).m_outputFormat = "JPEG".toList ∧
    Job.extensionOf (Job.new 1 "/d/a.jpeg".toList 10
        (Settings.mk [] true 2 "keep".toList "mp4".toList)).m_outputFormat = "jpg".toList ∧
    QFileInfo.suffix (Job.new 1 "/d/a.jpeg".toList 10
        (Settings.mk [] true 2 "keep".toList "mp4".toList)).m_outputPath = "jpeg".toList ∧
    ¬ (('.' :: Job.extensionOf (Job.new 1 "/d/a.jpeg".toList 10
        (Settings.mk [] true 2 "keep".toList "mp4".toList)).m_outputFormat) <:+
      (Job.new 1 "/d/a.jpeg".toList 10
        (Settings.mk [] true 2 "keep".toList "mp4".toList)).m_outputPath) := by
  refine ⟨by decide, by decide, by decide, ?_⟩
  have hp : (Job.new 1 "/d/a.jpeg".toList 10
      (Settings.mk [] true 2 "keep".toList "mp4".toList)).m_outputPath = "/d/a.jpeg".toList := by
    decide
  have he : Job.extensionOf (Job.new 1 "/d/a.jpeg".toList 10
      (Settings.mk [] true 2 "keep".toList "mp4".toList)).m_outputFormat = "jpg".toList := by
    decide
  rw [hp, he]
  decide

/-- C3, amended: for a source path with an ASCII extension and ASCII format
tokens, unless the in-place exception applies, the destination path ends in
`_converted.` followed by the extension, and the extension is `jpg` when the
lowercased destination format is `jpeg` and the lowercased destination
format itself otherwise; the extension is ASCII. -/
theorem C3_extension (id : JobId) (path : QString) (size : Int) (settings : Settings)
    (hsuf : (QFileInfo.suffix path).isAscii = true)
    (himg : settings.imageOutputFormat.isAscii = true)
    (hvid : settings.videoOutputFormat.isAscii = true)
    (h : ¬ (settings.overwriteOriginal = true ∧
        (Job.new id path size settings).m_outputFormat =
          (Job.new id path size settings).m_inputFormat)) :
    ((Job.new id path size settings).m_outputFormat.toLower = "jpeg".toList →
      (QFileInfo.completeBaseName path ++ "_converted.jpg".toList) <:+
        (Job.new id path size settings).m_outputPath) ∧
    ((Job.new id path size settings).m_outputFormat.toLower ≠ "jpeg".toList →
      (QFileInfo.completeBaseName path ++ "_converted.".toList ++
          (Job.new id path size settings).m_outputFormat.toLower) <:+
        (Job.new id path size settings).m_outputPath) ∧
    Job.extensionOf "JPEG".toList = "jpg".toList ∧
    Job.extensionOf "Jpeg".toList = "jpg".toList ∧
    Job.extensionOf "jpeg".toList = "jpg".toList ∧
    (Job.extensionOf (Job.new id path size settings).m_outputFormat).isAscii = true := by
  rw [Job.new_inputFormat] at h
  have hp := Job.new_outputPath id path size settings
  rw [if_neg h] at hp
  refine ⟨?_, ?_, by decide, by decide, by decide,
    (Job.new_ascii id path size settings hsuf himg hvid).2.2⟩
  · intro hj
    rw [hp]
    have he : Job.extensionOf (Job.new id path size settings).m_outputFormat = "jpg".toList := by
      unfold Job.extensionOf
      simp only [hj, if_true]
    rw [he]
    have := QDir.filePath_suffix (Job.outputDir (Job.init id path size) settings)
      (QFileInfo.completeBaseName path ++ "_converted.".toList ++ "jpg".toList)
    simpa [List.append_assoc] using this
  · intro hj
    rw [hp]
    have he : Job.extensionOf (Job.new id path size settings).m_outputFormat =
        (Job.new id path size settings).m_outputFormat.toLower := by
      unfold Job.extensionOf
      simp only [hj, if_false]
    rw [he]
    exact QDir.filePath_suffix _ _

/-- C3, witness: source `a.png` with image target format "WEBP" gives the
destination file name `a_converted.webp`. -/
theorem C3_extension_witness :
    ((QFileInfo.suffix "/d/a.png".toList).isAscii = true ∧
      (Settings.mk [] false 2 "WEBP".toList "mp4".toList).imageOutputFormat.isAscii = true ∧
      (Settings.mk [] false 2 "WEBP".toList "mp4".toList).videoOutputFormat.isAscii = true) ∧
    ("a_converted.webp".toList <:+
      (Job.new 1 "/d/a.png".toList 10
        (Settings.mk [] false 2 "WEBP".toList "mp4".toList)).m_outputPath) ∧
    (Job.new 1 "/d/a.png".toList 10
        (Settings.mk [] false 2 "WEBP".toList "mp4".toList)).m_outputPath =
      "/d/a_converted.webp".toList :=
  ⟨by decide,
   (C3_extension 1 "/d/a.png".toList 10
      (Settings.mk [] false 2 "WEBP".toList "mp4".toList) (by decide) (by decide) (by decide)
      (by decide)).2.1 (by decide),
   by decide⟩

/-- C4: for a source path with an ASCII extension and ASCII format tokens, a
job of category Image (respectively Video) has as destination format its
source format when the image (respectively video) output-format selection is
"keep", and the configured token uppercased otherwise; the source format is
the uppercased source extension, and both formats are equal to their own
uppercasing and are ASCII. -/
theorem C4_formats (id : JobId) (path : QString) (size : Int) (settings : Settings)
    (hsuf : (QFileInfo.suffix path).isAscii = true)
    (himg : settings.imageOutputFormat.isAscii = true)
    (hvid : settings.videoOutputFormat.isAscii = true) :
    ((Job.new id path size settings).m_type = JobType.Image →
      (Job.new id path size settings).m_outputFormat =
        if settings.imageOutputFormat = "keep".toList
        then (Job.new id path size settings).m_inputFormat
        else settings.imageOutputFormat.toUpper) ∧
    ((Job.new id path size settings).m_type = JobType.Video →
      (Job.new id path size settings).m_outputFormat =
        if settings.videoOutputFormat = "keep".toList
        then (Job.new id path size settings).m_inputFormat
        else settings.videoOutputFormat.toUpper) ∧
    (Job.new id path size settings).m_inputFormat = (QFileInfo.suffix path).toUpper ∧
    (Job.new id path size settings).m_inputFormat.toUpper =
      (Job.new id path size settings).m_inputFormat ∧
    (Job.new id path size settings).m_outputFormat.toUpper =
      (Job.new id path size settings).m_outputFormat ∧
    (Job.new id path size settings).m_inputFormat.isAscii = true ∧
    (Job.new id path size settings).m_outputFormat.isAscii = true := by
  have hf := Job.new_outputFormat id path size settings
  have hi := Job.new_inputFormat id path size settings
  have ha := Job.new_ascii id path size settings hsuf himg hvid
  refine ⟨?_, ?_, hi, ?_, ?_, ha.1, ha.2.1⟩
  · intro ht
    rw [hf, if_pos ht, hi]
  · intro ht
    have hn : (Job.new id path size settings).m_type ≠ JobType.Image := by
      rw [ht]; decide
    rw [hf, if_neg hn, if_pos ht, hi]
  · rw [hi, QString.toUpper_toUpper]
  · rw [hf]
    split_ifs <;> first | exact QString.toUpper_toUpper _ | rfl

/-- C4, witness: an image `a.jpeg` converted to "webp" and a video `b.MkV`
whose container is kept. -/
theorem C4_formats_witness :
    (Job.new 1 "/d/a.jpeg".toList 10
        (Settings.mk [] false 2 "webp".toList "keep".toList)).m_outputFormat = "WEBP".toList ∧
    (Job.new 2 "/d/b.MkV".toList 10
        (Settings.mk [] false 2 "webp".toList "keep".toList)).m_outputFormat = "MKV".toList :=
  ⟨((C4_formats 1 "/d/a.jpeg".toList 10
      (Settings.mk [] false 2 "webp".toList "keep".toList) (by decide) (by decide)
      (by decide)).1 (by decide)).trans (by decide),
   ((C4_formats 2 "/d/b.MkV".toList 10
      (Settings.mk [] false 2 "webp".toList "keep".toList) (by decide) (by decide)
      (by decide)).2.1 (by decide)).trans (by decide)⟩

/-- C5: the constructor always yields a job with status Pending and progress
0; for a source path with an ASCII extension its category is Image exactly
when the lowercased extension is one of the twelve image extensions, Video
exactly when it is one of the eight video extensions, and Unknown otherwise;
no extension is in both sets; two paths with ASCII extensions that agree up
to letter case get the same category; and the lowercased extension is
ASCII. -/
theorem C5_category (id : JobId) (path : QString) (size : Int) (settings : Settings)
    (hsuf : (QFileInfo.suffix path).isAscii = true) :
    (Job.new id path size settings).m_status = JobStatus.Pending ∧
    (Job.new id path size settings).m_progress = 0 ∧
    ((Job.new id path size settings).m_type = JobType.Image ↔
      (QFileInfo.suffix path).toLower ∈
        ["png".toList, "jpg".toList, "jpeg".toList, "webp".toList, "avif".toList,
         "heic".toList, "heif".toList, "tiff".toList, "tif".toList, "bmp".toList,
         "jxl".toList, "gif".toList]) ∧
    ((Job.new id path size settings).m_type = JobType.Video ↔
      (QFileInfo.suffix path).toLower ∈
        ["mp4".toList, "mkv".toList, "avi".toList, "mov".toList, "webm".toList,
         "wmv".toList, "flv".toList, "m4v".toList]) ∧
    ((Job.new id path size settings).m_type = JobType.Unknown ↔
      ((QFileInfo.suffix path).toLower ∉
        ["png".toList, "jpg".toList, "jpeg".toList, "webp".toList, "avif".toList,
         "heic".toList, "heif".toList, "tiff".toList, "tif".toList, "bmp".toList,
         "jxl".toList, "gif".toList] ∧
       (QFileInfo.suffix path).toLower ∉
        ["mp4".toList, "mkv".toList, "avi".toList, "mov".toList, "webm".toList,
         "wmv".toList, "flv".toList, "m4v".toList])) ∧
    (∀ e : QString,
      ¬ (e ∈ ["png".toList, "jpg".toList, "jpeg".toList, "webp".toList, "avif".toList,
               "heic".toList, "heif".toList, "tiff".toList, "tif".toList, "bmp".toList,
               "jxl".toList, "gif".toList] ∧
         e ∈ ["mp4".toList, "mkv".toList, "avi".toList, "mov".toList, "webm".toList,
               "wmv".toList, "flv".toList, "m4v".toList])) ∧
    (∀ (id2 : JobId) (path2 : QString) (size2 : Int) (settings2 : Settings),
      (QFileInfo.suffix path2).isAscii = true →
      (QFileInfo.suffix path2).toLower = (QFileInfo.suffix path).toLower →
      (Job.new id2 path2 size2 settings2).m_type = (Job.new id path size settings).m_type) ∧
    (QFileInfo.suffix path).toLower.isAscii = true := by
  have hdis : ∀ e : QString, e ∈ imageExts → e ∈ videoExts → False := by
    intro e h1 h2
    have h1l : e.length = 3 ∨ e.length = 4 := by
      simp only [imageExts, List.map, List.mem_cons, List.mem_singleton, List.not_mem_nil,
        or_false] at h1
      rcases h1 with h | h | h | h | h | h | h | h | h | h | h | h <;> subst h <;> decide
    simp only [videoExts, List.map, List.mem_cons, List.mem_singleton, List.not_mem_nil,
      or_false] at h2
    simp only [imageExts, List.map, List.mem_cons, List.mem_singleton, List.not_mem_nil,
      or_false] at h1
    rcases h2 with h | h | h | h | h | h | h | h <;> subst h <;> revert h1 <;> decide
  have ht := Job.new_type id path size settings
  have hI : imageExts.contains (QFileInfo.suffix path).toLower = true ↔
      (QFileInfo.suffix path).toLower ∈ imageExts := by simp
  have hV : videoExts.contains (QFileInfo.suffix path).toLower = true ↔
      (QFileInfo.suffix path).toLower ∈ videoExts := by simp
  refine ⟨Job.new_status _ _ _ _, Job.new_progress _ _ _ _, ?_, ?_, ?_, ?_, ?_,
    QString.toLower_isAscii _ hsuf⟩
  · show _ ↔ (QFileInfo.suffix path).toLower ∈ imageExts
    rw [ht, ← hI]
    split_ifs <;> simp_all
  · show _ ↔ (QFileInfo.suffix path).toLower ∈ videoExts
    rw [ht, ← hV]
    split_ifs with h1 h2
    · have := hdis _ (hI.mp h1)
      constructor
      · intro h; cases h
      · intro h; exact (this (hV.mp h)).elim
    · simpa using hV.mp h2
    · simpa using fun h => h2 (hV.mpr h)
  · show _ ↔ ((QFileInfo.suffix path).toLower ∉ imageExts ∧
        (QFileInfo.suffix path).toLower ∉ videoExts)
    rw [ht, ← hI, ← hV]
    split_ifs <;> simp_all
  · intro e h
    exact hdis e h.1 h.2
  · intro id2 path2 size2 settings2 _ he
    rw [ht, Job.new_type, he]

/-- C5, witness: `a.PNG` and `a.png` are both images, `b.Mp4` is a video and
`c.txt` is unknown. An extension written with the Kelvin sign (U+212A) is not
ASCII. -/
theorem C5_category_witness :
    (QFileInfo.suffix ("/d/b.m".toList ++ [Char.ofNat 8490, 'v'])).isAscii = false ∧
    (QFileInfo.suffix "/d/a.PNG".toList).isAscii = true ∧
    (Job.new 1 "/d/a.PNG".toList 10
        (Settings.mk [] false 2 "keep".toList "keep".toList)).m_type = JobType.Image ∧
    (Job.new 2 "/d/b.Mp4".toList 10
        (Settings.mk [] false 2 "keep".toList "keep".toList)).m_type = JobType.Video ∧
    (Job.new 3 "/d/c.txt".toList 10
        (Settings.mk [] false 2 "keep".toList "keep".toList)).m_type = JobType.Unknown ∧
    (Job.new 4 "/d/a.png".toList 10
        (Settings.mk [] false 2 "keep".toList "keep".toList)).m_type =
      (Job.new 1 "/d/a.PNG".toList 10
        (Settings.mk [] false 2 "keep".toList "keep".toList)).m_type :=
  ⟨by decide, by decide,
   (C5_category 1 "/d/a.PNG".toList 10
      (Settings.mk [] false 2 "keep".toList "keep".toList) (by decide)).2.2.1.mpr (by decide),
   (C5_category 2 "/d/b.Mp4".toList 10
      (Settings.mk [] false 2 "keep".toList "keep".toList) (by decide)).2.2.2.1.mpr
      (by decide),
   (C5_category 3 "/d/c.txt".toList 10
      (Settings.mk [] false 2 "keep".toList "keep".toList) (by decide)).2.2.2.2.1.mpr
      (by decide),
   (C5_category 1 "/d/a.PNG".toList 10
      (Settings.mk [] false 2 "keep".toList "keep".toList) (by decide)).2.2.2.2.2.2.1
      4 "/d/a.png".toList 10 _ (by decide) (by decide)⟩

/-! ## Claims about the aggregates -/

/-- C6: for a non-empty collection `totalProgress()` is the truncated integer
quotient of the sum of the per-job weights (100 for Completed, the stored
progress for Processing, 0 for every other status) by the number of jobs; it
is 0 when every job is Pending and 100 when every job is Completed; for the
empty collection it is 0. -/
theorem C6_totalProgress (q : JobQueue) :
    (q.m_jobs ≠ [] →
      q.totalProgress =
        Int.tdiv
          (q.m_jobs.map (fun job =>
            match job.m_status with
            | JobStatus.Completed => 100
            | JobStatus.Processing => job.m_progress
            | JobStatus.Pending => 0
            | JobStatus.Paused => 0
            | JobStatus.Failed => 0
            | JobStatus.Cancelled => 0)).sum
          q.m_jobs.length) ∧
    (q.m_jobs ≠ [] → (∀ job ∈ q.m_jobs, job.m_status = JobStatus.Pending) →
      q.totalProgress = 0) ∧
    (q.m_jobs ≠ [] → (∀ job ∈ q.m_jobs, job.m_status = JobStatus.Completed) →
      q.totalProgress = 100) ∧
    (q.m_jobs = [] → q.totalProgress = 0) := by
  have hmain : q.m_jobs ≠ [] →
      q.totalProgress =
        Int.tdiv
          (q.m_jobs.map (fun job =>
            match job.m_status with
            | JobStatus.Completed => 100
            | JobStatus.Processing => job.m_progress
            | _ => 0)).sum
          q.m_jobs.length := by
    intro hne
    unfold JobQueue.totalProgress
    have : q.m_jobs.isEmpty = false := by
      cases hq : q.m_jobs with
      | nil => exact absurd hq hne
      | cons a l => rfl
    simp only [this, Bool.false_eq_true, if_false]
    rw [totalProgress_fold, zero_add]
  have hsame : (fun job : Job =>
      match job.m_status with
      | JobStatus.Completed => (100 : Int)
      | JobStatus.Processing => job.m_progress
      | JobStatus.Pending => 0
      | JobStatus.Paused => 0
      | JobStatus.Failed => 0
      | JobStatus.Cancelled => 0) =
      (fun job : Job =>
      match job.m_status with
      | JobStatus.Completed => (100 : Int)
      | JobStatus.Processing => job.m_progress
      | _ => 0) := by
    funext job
    cases job.m_status <;> rfl
  refine ⟨?_, ?_, ?_, ?_⟩
  · intro hne
    rw [hsame]
    exact hmain hne
  · intro hne hall
    rw [hmain hne]
    have : (q.m_jobs.map (fun job =>
        match job.m_status with
        | JobStatus.Completed => (100 : Int)
        | JobStatus.Processing => job.m_progress
        | _ => 0)) = q.m_jobs.map (fun _ => (0 : Int)) := by
      apply List.map_congr_left
      intro job hj
      simp only [hall job hj]
    rw [this]
    simp
  · intro hne hall
    rw [hmain hne]
    have : (q.m_jobs.map (fun job =>
        match job.m_status with
        | JobStatus.Completed => (100 : Int)
        | JobStatus.Processing => job.m_progress
        | _ => 0)) = q.m_jobs.map (fun _ => (100 : Int)) := by
      apply List.map_congr_left
      intro job hj
      simp only [hall job hj]
    rw [this]
    have hlen : (q.m_jobs.length : Int) ≠ 0 := by
      have : q.m_jobs.length ≠ 0 := fun h => hne (List.length_eq_zero.mp h)
      exact_mod_cast this
    simp only [List.map_const', List.sum_replicate, smul_eq_mul]
    exact Int.mul_tdiv_cancel_left _ hlen
  · intro he
    unfold JobQueue.totalProgress
    simp [he]


/-- C6, witness: a Completed job, a Processing job at 40 and a Failed job
with a stale progress of 70 give (100 + 40 + 0) / 3 = 46. -/
theorem C6_totalProgress_witness :
    JobQueue.totalProgress
      { m_jobs := [{ m_id := 0, m_inputPath := [], m_status := JobStatus.Completed,
                     m_progress := 100 },
                   { m_id := 1, m_inputPath := [], m_status := JobStatus.Processing,
                     m_progress := 40 },
                   { m_id := 2, m_inputPath := [], m_status := JobStatus.Failed,
                     m_progress := 70 }] } = 46 :=
  ((C6_totalProgress
      { m_jobs := [{ m_id := 0, m_inputPath := [], m_status := JobStatus.Completed,
                     m_progress := 100 },
                   { m_id := 1, m_inputPath := [], m_status := JobStatus.Processing,
                     m_progress := 40 },
                   { m_id := 2, m_inputPath := [], m_status := JobStatus.Failed,
                     m_progress := 70 }] }).1 (by decide)).trans (by decide)

/-- C7: `statistics()` returns the number of jobs as `total`, the numbers of
jobs whose status is exactly Completed, Failed, Pending and Processing, the
sum of the source sizes of all jobs, and the sums of the destination sizes
and of the elapsed times of the Completed jobs only. The elapsed time of a
job is 0 when it has no startedAt, finishedAt minus startedAt when both are
set, and the current time minus startedAt when only startedAt is set. It is
a function of the queue alone and returns nothing but the statistics, so no
job and no flag changes. -/
theorem C7_statistics (q : JobQueue) (now : Int) :
    (q.statistics now).total = q.m_jobs.length ∧
    (q.statistics now).completed =
      q.m_jobs.countP (fun job => job.m_status = JobStatus.Completed) ∧
    (q.statistics now).failed =
      q.m_jobs.countP (fun job => job.m_status = JobStatus.Failed) ∧
    (q.statistics now).pending =
      q.m_jobs.countP (fun job => job.m_status = JobStatus.Pending) ∧
    (q.statistics now).processing =
      q.m_jobs.countP (fun job => job.m_status = JobStatus.Processing) ∧
    (q.statistics now).totalInputSize = (q.m_jobs.map (fun job => job.m_inputSize)).sum ∧
    (q.statistics now).totalOutputSize =
      ((q.m_jobs.filter (fun job => job.m_status = JobStatus.Completed)).map
        (fun job => job.m_outputSize)).sum ∧
    (q.statistics now).totalTimeMs =
      ((q.m_jobs.filter (fun job => job.m_status = JobStatus.Completed)).map
        (fun job => job.processingTimeMs now)).sum ∧
    (∀ job : Job,
      (job.m_startTime = none → job.processingTimeMs now = 0) ∧
      (∀ s e : Int, job.m_startTime = some s → job.m_endTime = some e →
        job.processingTimeMs now = e - s) ∧
      (∀ s : Int, job.m_startTime = some s → job.m_endTime = none →
        job.processingTimeMs now = now - s)) := by
  have htime : ∀ job : Job,
      (job.m_startTime = none → job.processingTimeMs now = 0) ∧
      (∀ s e : Int, job.m_startTime = some s → job.m_endTime = some e →
        job.processingTimeMs now = e - s) ∧
      (∀ s : Int, job.m_startTime = some s → job.m_endTime = none →
        job.processingTimeMs now = now - s) := by
    intro job
    refine ⟨?_, ?_, ?_⟩
    · intro h
      unfold Job.processingTimeMs
      rw [h]
    · intro s e h1 h2
      unfold Job.processingTimeMs
      rw [h1, h2]
    · intro s h1 h2
      unfold Job.processingTimeMs
      rw [h1, h2]
  refine ⟨?_, ?_, ?_, ?_, ?_, ?_, ?_, ?_, htime⟩
  all_goals
    unfold JobQueue.statistics
    simp [statistics_fold]

/-- C7, witness: two Completed jobs that ran from 3 to 10 and from 1 to 4, a
Failed job that ran from 2 to 9 and a Processing job started at 5, seen at
time 20: the total time is 7 + 3 = 10 and the destination sizes add up to
5 + 6 = 11. -/
theorem C7_statistics_witness :
    (JobQueue.statistics
      { m_jobs := [{ m_id := 0, m_inputPath := [], m_status := JobStatus.Completed,
                     m_outputSize := 5, m_startTime := some 3, m_endTime := some 10 },
                   { m_id := 1, m_inputPath := [], m_status := JobStatus.Completed,
                     m_outputSize := 6, m_startTime := some 1, m_endTime := some 4 },
                   { m_id := 2, m_inputPath := [], m_status := JobStatus.Failed,
                     m_outputSize := 9, m_startTime := some 2, m_endTime := some 9 },
                   { m_id := 3, m_inputPath := [], m_status := JobStatus.Processing,
                     m_startTime := some 5 }] } 20).totalTimeMs = 10 ∧
    Job.processingTimeMs
      { m_id := 0, m_inputPath := [], m_startTime := some 3, m_endTime := some 10 } 20 = 7 ∧
    Job.processingTimeMs { m_id := 3, m_inputPath := [], m_startTime := some 5 } 20 = 15 ∧
    Job.processingTimeMs { m_id := 4, m_inputPath := [] } 20 = 0 :=
  ⟨(C7_statistics
      { m_jobs := [{ m_id := 0, m_inputPath := [], m_status := JobStatus.Completed,
                     m_outputSize := 5, m_startTime := some 3, m_endTime := some 10 },
                   { m_id := 1, m_inputPath := [], m_status := JobStatus.Completed,
                     m_outputSize := 6, m_startTime := some 1, m_endTime := some 4 },
                   { m_id := 2, m_inputPath := [], m_status := JobStatus.Failed,
                     m_outputSize := 9, m_startTime := some 2, m_endTime := some 9 },
                   { m_id := 3, m_inputPath := [], m_status := JobStatus.Processing,
                     m_startTime := some 5 }] } 20).2.2.2.2.2.2.2.1.trans (by decide),
   (((C7_statistics {} 20).2.2.2.2.2.2.2.2
      { m_id := 0, m_inputPath := [], m_startTime := some 3, m_endTime := some 10 }).2.1
      3 10 rfl rfl).trans (by decide),
   (((C7_statistics {} 20).2.2.2.2.2.2.2.2
      { m_id := 3, m_inputPath := [], m_startTime := some 5 }).2.2 5 rfl rfl).trans
      (by decide),
   ((C7_statistics {} 20).2.2.2.2.2.2.2.2 { m_id := 4, m_inputPath := [] }).1 rfl⟩

/-! ## Facts about the job operations -/

theorem Job.setStatus_fields (j : Job) (status : JobStatus) (now : Int) :
    (j.setStatus status now).m_id = j.m_id ∧
    (j.setStatus status now).m_type = j.m_type ∧
    (j.setStatus status now).m_status = status ∧
    (j.setStatus status now).m_progress = j.m_progress := by
  unfold Job.setStatus
  simp only
  split_ifs <;> exact ⟨rfl, rfl, rfl, rfl⟩

theorem JobRunner.process_fields (j : Job) (result : StrategyResult) :
    (JobRunner.process j result).1.m_id = j.m_id ∧
    (JobRunner.process j result).1.m_type = j.m_type ∧
    (JobRunner.process j result).1.m_status = j.m_status ∧
    (JobRunner.process j result).1.m_progress = j.m_progress := by
  unfold JobRunner.process
  split_ifs <;> cases result <;> exact ⟨rfl, rfl, rfl, rfl⟩

theorem JobRunner.process_success (j : Job) (size : Int) :
    (JobRunner.process j (StrategyResult.success size)).2.1 = true ↔
      j.m_type ≠ JobType.Unknown := by
  unfold JobRunner.process
  cases h : j.m_type <;> simp

theorem updateFirst_append (p : Job → Bool) (f : Job → Job) (pre : List Job) (cur : Job)
    (post : List Job) (hpre : ∀ j ∈ pre, p j = false) (hcur : p cur = true) :
    updateFirst p f (pre ++ cur :: post) = pre ++ f cur :: post := by
  induction pre with
  | nil => simp [updateFirst, hcur]
  | cons a l ih =>
    have ha : p a = false := hpre a (List.mem_cons_self _ _)
    have := ih (fun j hj => hpre j (List.mem_cons_of_mem _ hj))
    show updateFirst p f (a :: (l ++ cur :: post)) = a :: (l ++ f cur :: post)
    rw [updateFirst, if_neg (by simp [ha]), this]

theorem find_append (p : Job → Bool) (pre : List Job) (cur : Job)
    (post : List Job) (hpre : ∀ j ∈ pre, p j = false) (hcur : p cur = true) :
    (pre ++ cur :: post).find? p = some cur := by
  induction pre with
  | nil => simp [List.find?, hcur]
  | cons a l ih =>
    have ha : p a = false := hpre a (List.mem_cons_self _ _)
    simp only [List.cons_append, List.find?, ha]
    exact ih (fun j hj => hpre j (List.mem_cons_of_mem _ hj))

theorem find_none (p : Job → Bool) (l : List Job) (h : ∀ j ∈ l, p j = false) :
    l.find? p = none := by
  simpa using h

/-- In a collection with distinct identifiers, the jobs before `cur` do not
carry the identifier of `cur`. -/
theorem ids_before_ne (sig : List (JobId × JobType)) (done : List Job) (cur : Job)
    (rest : List Job)
    (hsig : (done ++ cur :: rest).map (fun j => (j.m_id, j.m_type)) = sig)
    (hnd : (sig.map Prod.fst).Nodup) :
    ∀ j ∈ done, decide (j.m_id = cur.m_id) = false := by
  intro j hj
  rw [← hsig] at hnd
  simp only [List.map_append, List.map_cons, List.map_map] at hnd
  have h1 := (List.nodup_append.mp hnd).2.2
  have hne : j.m_id ≠ cur.m_id := by
    intro he
    refine h1 (a := j.m_id) (List.mem_map.mpr ⟨j, hj, rfl⟩) ?_
    rw [he]
    exact List.mem_cons_self _ _
  simpa using hne

/-! ## The phases of a run with a single job in flight -/

theorem PhaseStarting.workerStart_zero {strict : Bool} {sig : List (JobId × JobType)}
    {m : Nat} {q : JobQueue} (h : PhaseStarting strict sig m q) (now : Int) :
    PhaseRunning strict sig m (q.workerStart 0 now) := by
  obtain ⟨done, cur, rest, hF, hlen, hjobs, hproc, hsig, hcur, hst, hrun, hposted, hlog⟩ := h
  have hne := ids_before_ne sig done cur rest (hjobs ▸ hF.sig_eq) hF.nodup
  have hupd : updateFirst (fun job => decide (job.m_id = cur.m_id))
      (fun job => job.setStatus JobStatus.Processing now) q.m_jobs =
      done ++ cur.setStatus JobStatus.Processing now :: rest := by
    rw [hjobs]
    exact updateFirst_append _ _ _ _ _ hne (by simp)
  have hf := Job.setStatus_fields cur JobStatus.Processing now
  have hq : q.workerStart 0 now =
      { q with m_threadPool := { q.m_threadPool with starting := [], running := [cur.m_id] },
               m_jobs := done ++ cur.setStatus JobStatus.Processing now :: rest,
               runLog := q.runLog ++ [cur.m_id] } := by
    unfold JobQueue.workerStart QThreadPool.beginRun
    simp [hst, hrun, hupd]
  rw [hq]
  refine ⟨done, cur.setStatus JobStatus.Processing now, rest, ?_, hlen, rfl, hproc, hsig,
    hf.2.2.1, rfl, ?_, ?_, ?_⟩
  · refine ⟨hF.paused, hF.queue, hF.cap, ?_, hF.nodup, hF.done_ok, hF.rest_ok⟩
    have := hF.sig_eq
    rw [hjobs] at this
    simpa [hf.1, hf.2.1] using this
  · simp [hf.1]
  · simp [hposted]
  · simp [hlog, hf.1]

theorem PhaseStarting.starting_step_eq {strict : Bool} {sig : List (JobId × JobType)}
    {m : Nat} {q : JobQueue} (h : PhaseStarting strict sig m q) (now : Int) (e : Event)
    (he : e.isWorkerEvent = true) (hne : e ≠ Event.workerStart 0) :
    q.step now e = q := by
  obtain ⟨done, cur, rest, hF, hlen, hjobs, hproc, hsig, hcur, hst, hrun, hposted, hlog⟩ := h
  cases e with
  | workerStart i =>
    cases i with
    | zero => exact absurd rfl hne
    | succ i =>
      simp [JobQueue.step, JobQueue.workerStart, QThreadPool.beginRun, hst]
  | workerProgress i p => simp [JobQueue.step, JobQueue.workerProgress, hrun]
  | workerFinish i r => simp [JobQueue.step, JobQueue.workerFinish, QThreadPool.endRun, hrun]
  | deliver => simp [JobQueue.step, JobQueue.deliver, hposted]
  | _ => simp [Event.isWorkerEvent] at he

theorem PhaseRunning.workerProgress_zero {strict : Bool} {sig : List (JobId × JobType)}
    {m : Nat} {q : JobQueue} (h : PhaseRunning strict sig m q) (p : Int) :
    PhaseRunning strict sig m (q.workerProgress 0 p) := by
  obtain ⟨done, cur, rest, hF, hlen, hjobs, hproc, hsig, hcur, hst, hrun, hposted, hlog⟩ := h
  have hq : q.workerProgress 0 p =
      { q with posted := q.posted ++ [QueuedCall.progress cur.m_id p] } := by
    unfold JobQueue.workerProgress
    simp [hrun]
  rw [hq]
  refine ⟨done, cur, rest, ?_, hlen, hjobs, hproc, hsig, hcur, hst, hrun, ?_, hlog⟩
  · exact ⟨hF.paused, hF.queue, hF.cap, hF.sig_eq, hF.nodup, hF.done_ok, hF.rest_ok⟩
  · intro c hc
    simp only [List.mem_append, List.mem_singleton] at hc
    rcases hc with hc | hc
    · exact hposted c hc
    · subst hc; rfl

theorem PhaseRunning.workerFinish_zero {strict : Bool} {sig : List (JobId × JobType)}
    {m : Nat} {q : JobQueue} (h : PhaseRunning strict sig m q) (result : StrategyResult)
    (hs : strict = true → (Event.workerFinish 0 result).strategySucceeds = true) :
    PhasePosted strict sig m q.posted.length (q.workerFinish 0 result) := by
  obtain ⟨done, cur, rest, hF, hlen, hjobs, hproc, hsig, hcur, hst, hrun, hposted, hlog⟩ := h
  have hne := ids_before_ne sig done cur rest (hjobs ▸ hF.sig_eq) hF.nodup
  have hupd : updateFirst (fun job => decide (job.m_id = cur.m_id))
      (fun job => (JobRunner.process job result).1) q.m_jobs =
      done ++ (JobRunner.process cur result).1 :: rest := by
    rw [hjobs]
    exact updateFirst_append _ _ _ _ _ hne (by simp)
  have hfind : q.m_jobs.find? (fun job => decide (job.m_id = cur.m_id)) = some cur := by
    rw [hjobs]
    exact find_append _ _ _ _ hne (by simp)
  have hf := JobRunner.process_fields cur result
  have hq : q.workerFinish 0 result =
      { q with m_threadPool := { q.m_threadPool with running := [] },
               m_jobs := done ++ (JobRunner.process cur result).1 :: rest,
               posted := q.posted ++ [QueuedCall.finished cur.m_id
                 (JobRunner.process cur result).2.1 (JobRunner.process cur result).2.2] } := by
    unfold JobQueue.workerFinish QThreadPool.endRun
    simp [hst, hrun, hupd, hfind, hF.queue]
  rw [hq]
  refine ⟨done, (JobRunner.process cur result).1, rest, ?_, hlen, rfl, hproc, hsig,
    hf.2.2.1.trans hcur, hst, rfl, ?_, ?_⟩
  · refine ⟨hF.paused, hF.queue, hF.cap, ?_, hF.nodup, hF.done_ok, hF.rest_ok⟩
    have := hF.sig_eq
    rw [hjobs] at this
    simpa [hf.1, hf.2.1] using this
  · refine ⟨q.posted, (JobRunner.process cur result).2.1, (JobRunner.process cur result).2.2,
      by simp [hf.1], rfl, hposted, ?_⟩
    intro hstrict
    have := hs hstrict
    cases result with
    | success size => rw [hf.2.1]; exact JobRunner.process_success cur size
    | failure e => simp [Event.strategySucceeds] at this
    | exception e => simp [Event.strategySucceeds] at this
  · simp [hlog, hf.1]

theorem PhaseRunning.running_deliver {strict : Bool} {sig : List (JobId × JobType)}
    {m : Nat} {q : JobQueue} (h : PhaseRunning strict sig m q) (now : Int) :
    PhaseRunning strict sig m (q.deliver now) := by
  obtain ⟨done, cur, rest, hF, hlen, hjobs, hproc, hsig, hcur, hst, hrun, hposted, hlog⟩ := h
  cases hp : q.posted with
  | nil =>
    have hq : q.deliver now = q := by simp [JobQueue.deliver, hp]
    rw [hq]
    exact ⟨done, cur, rest, hF, hlen, hjobs, hproc, hsig, hcur, hst, hrun, hposted, hlog⟩
  | cons c cs =>
    have hc := hposted c (by rw [hp]; exact List.mem_cons_self _ _)
    cases c with
    | finished id s e => simp [QueuedCall.isProgress] at hc
    | progress id p =>
      simp only [JobQueue.deliver, hp]
      refine ⟨done, cur, rest, ?_, hlen, hjobs, hproc, ?_, hcur, hst, hrun, ?_, hlog⟩
      · exact ⟨hF.paused, hF.queue, hF.cap, hF.sig_eq, hF.nodup, hF.done_ok, hF.rest_ok⟩
      · simpa using hsig
      · intro c hc
        exact hposted c (by rw [hp]; exact List.mem_cons_of_mem _ hc)

theorem PhaseRunning.running_step_eq {strict : Bool} {sig : List (JobId × JobType)}
    {m : Nat} {q : JobQueue} (h : PhaseRunning strict sig m q) (now : Int) (e : Event)
    (he : e.isWorkerEvent = true) (h1 : ∀ p, e ≠ Event.workerProgress 0 p)
    (h2 : ∀ r, e ≠ Event.workerFinish 0 r) (h3 : e ≠ Event.deliver) :
    q.step now e = q := by
  obtain ⟨done, cur, rest, hF, hlen, hjobs, hproc, hsig, hcur, hst, hrun, hposted, hlog⟩ := h
  cases e with
  | workerStart i => simp [JobQueue.step, JobQueue.workerStart, QThreadPool.beginRun, hst]
  | workerProgress i p =>
    cases i with
    | zero => exact absurd rfl (h1 p)
    | succ i => simp [JobQueue.step, JobQueue.workerProgress, hrun]
  | workerFinish i r =>
    cases i with
    | zero => exact absurd rfl (h2 r)
    | succ i => simp [JobQueue.step, JobQueue.workerFinish, QThreadPool.endRun, hrun]
  | deliver => exact absurd rfl h3
  | _ => simp [Event.isWorkerEvent] at he

theorem PhasePosted.posted_step_eq {strict : Bool} {sig : List (JobId × JobType)}
    {m k : Nat} {q : JobQueue} (h : PhasePosted strict sig m k q) (now : Int) (e : Event)
    (he : e.isWorkerEvent = true) (h3 : e ≠ Event.deliver) :
    q.step now e = q := by
  obtain ⟨done, cur, rest, hF, hlen, hjobs, hproc, hsig, hcur, hst, hrun, hposted, hlog⟩ := h
  cases e with
  | workerStart i => simp [JobQueue.step, JobQueue.workerStart, QThreadPool.beginRun, hst]
  | workerProgress i p => simp [JobQueue.step, JobQueue.workerProgress, hrun]
  | workerFinish i r => simp [JobQueue.step, JobQueue.workerFinish, QThreadPool.endRun, hrun]
  | deliver => exact absurd rfl h3
  | _ => simp [Event.isWorkerEvent] at he

theorem PhasePosted.deliver_progress {strict : Bool} {sig : List (JobId × JobType)}
    {m k : Nat} {q : JobQueue} (h : PhasePosted strict sig m (k + 1) q) (now : Int) :
    PhasePosted strict sig m k (q.deliver now) := by
  obtain ⟨done, cur, rest, hF, hlen, hjobs, hproc, hsig, hcur, hst, hrun,
    ⟨ps, success, error, hp, hk, hps, hsucc⟩, hlog⟩ := h
  cases ps with
  | nil => simp at hk
  | cons c cs =>
    have hc := hps c (List.mem_cons_self _ _)
    cases c with
    | finished id s e => simp [QueuedCall.isProgress] at hc
    | progress id p =>
      rw [List.cons_append] at hp
      simp only [JobQueue.deliver, hp]
      refine ⟨done, cur, rest, ?_, hlen, hjobs, hproc, ?_, hcur, hst, hrun, ?_, hlog⟩
      · exact ⟨hF.paused, hF.queue, hF.cap, hF.sig_eq, hF.nodup, hF.done_ok, hF.rest_ok⟩
      · simpa using hsig
      · exact ⟨cs, success, error, rfl, by simpa using hk,
          fun c hc => hps c (List.mem_cons_of_mem _ hc), hsucc⟩

/-- The job as `onJobFinished` leaves it. -/
theorem onJobFinished_job (cur : Job) (success : Bool) (error : QString) (now : Int) :
    (if success = true then (cur.setStatus JobStatus.Completed now).setProgress 100
      else cur.setError error now).m_id = cur.m_id ∧
    (if success = true then (cur.setStatus JobStatus.Completed now).setProgress 100
      else cur.setError error now).m_type = cur.m_type ∧
    (if success = true then (cur.setStatus JobStatus.Completed now).setProgress 100
      else cur.setError error now).m_status =
        (if success = true then JobStatus.Completed else JobStatus.Failed) := by
  have hf := Job.setStatus_fields cur JobStatus.Completed now
  cases success
  · exact ⟨rfl, rfl, rfl⟩
  · exact ⟨hf.1, hf.2.1, hf.2.2.1⟩

theorem PhasePosted.deliver_finished {strict : Bool} {sig : List (JobId × JobType)}
    {m : Nat} {q : JobQueue} (h : PhasePosted strict sig m 0 q) (now : Int) :
    (m = 0 → PhaseDone strict sig (q.deliver now)) ∧
    (∀ m2, m = m2 + 1 → PhaseStarting strict sig m2 (q.deliver now)) := by
  obtain ⟨done, cur, rest, hF, hlen, hjobs, hproc, hsig, hcur, hst, hrun,
    ⟨ps, success, error, hp, hk, hps, hsucc⟩, hlog⟩ := h
  have hps0 : ps = [] := List.length_eq_zero.mp hk
  subst hps0
  rw [List.nil_append] at hp
  have hne := ids_before_ne sig done cur rest (hjobs ▸ hF.sig_eq) hF.nodup
  have hupd : updateFirst (fun job => decide (job.m_id = cur.m_id))
      (fun job => if success = true then
          (job.setStatus JobStatus.Completed now).setProgress 100
        else job.setError error now) q.m_jobs =
      done ++ (if success = true then (cur.setStatus JobStatus.Completed now).setProgress 100
        else cur.setError error now) :: rest := by
    rw [hjobs]
    exact updateFirst_append _ _ _ _ _ hne (by simp)
  have hf := onJobFinished_job cur success error now
  generalize hcur2 : (if success = true then
      (cur.setStatus JobStatus.Completed now).setProgress 100
    else cur.setError error now) = cur2 at hupd hf
  have hsettled : cur2.settled strict := by
    refine ⟨?_, ?_⟩
    · rw [hf.2.2]; cases success <;> simp
    · intro hstrict
      rw [hf.2.2, hf.2.1, ← hsucc hstrict]
      cases success <;> simp
  have hnp : cur2.m_status ≠ JobStatus.Pending := by
    rcases hsettled.1 with h | h <;> rw [h] <;> decide
  have hnr : cur2.m_status ≠ JobStatus.Processing := by
    rcases hsettled.1 with h | h <;> rw [h] <;> decide
  have hdone_np : ∀ j ∈ done ++ [cur2],
      decide (j.m_status = JobStatus.Pending) = false := by
    intro j hj
    simp only [List.mem_append, List.mem_singleton] at hj
    have : j.m_status ≠ JobStatus.Pending := by
      rcases hj with hj | hj
      · rcases (hF.done_ok j hj).1 with h | h <;> rw [h] <;> decide
      · rw [hj]; exact hnp
    simpa using this
  have hsig2 : (done ++ cur2 :: rest).map (fun j => (j.m_id, j.m_type)) = sig := by
    have := hF.sig_eq
    rw [hjobs] at this
    simpa [hf.1, hf.2.1] using this
  have hdone2 : ∀ j ∈ done ++ [cur2], j.settled strict := by
    intro j hj
    simp only [List.mem_append, List.mem_singleton] at hj
    rcases hj with hj | hj
    · exact hF.done_ok j hj
    · rw [hj]; exact hsettled
  constructor
  · intro hm
    have hrest : rest = [] := List.length_eq_zero.mp (hlen.trans hm)
    subst hrest
    have hfind : (done ++ [cur2]).find? (fun job => decide (job.m_status = JobStatus.Pending))
        = none := find_none _ _ hdone_np
    have hall : (done ++ [cur2]).all (fun job =>
        decide ¬ (job.m_status = JobStatus.Processing ∨ job.m_status = JobStatus.Pending))
        = true := by
      rw [List.all_eq_true]
      intro j hj
      have hs := (hdone2 j hj).1
      rcases hs with h | h <;> simp [h]
    have hq : q.deliver now =
        { q with posted := [], m_jobs := done ++ [cur2], m_isProcessing := false,
                 emitted := q.emitted ++
                   [if success = true then Signal.jobCompleted cur.m_id
                    else Signal.jobFailed cur.m_id error] ++
                   [Signal.progressChanged (JobQueue.totalProgress
                     { q with posted := [], m_jobs := done ++ [cur2],
                              emitted := q.emitted ++
                                [if success = true then Signal.jobCompleted cur.m_id
                                 else Signal.jobFailed cur.m_id error] })] ++
                   [Signal.allJobsCompleted] } := by
      simp only [JobQueue.deliver, hp, JobQueue.onJobFinished, hupd, JobQueue.processNextJob,
        hF.paused, hproc, hfind, hall]
      simp
    rw [hq]
    refine ⟨⟨hF.paused, hF.queue, hF.cap, hsig2, hF.nodup, hdone2, by simp⟩, rfl, by simp,
      hst, hrun, rfl, ?_⟩
    simp [hlog, hf.1]
  · intro m2 hm
    cases rest with
    | nil => simp [hm] at hlen
    | cons next rest2 =>
      have hnext : next.m_status = JobStatus.Pending := hF.rest_ok next (List.mem_cons_self _ _)
      have hfind : (done ++ cur2 :: next :: rest2).find?
          (fun job => decide (job.m_status = JobStatus.Pending)) = some next := by
        have : done ++ cur2 :: next :: rest2 = (done ++ [cur2]) ++ next :: rest2 := by simp
        rw [this]
        exact find_append _ _ _ _ hdone_np (by simp [hnext])
      have hstart : QThreadPool.start q.m_threadPool next.m_id =
          { q.m_threadPool with starting := [next.m_id] } := by
        unfold QThreadPool.start QThreadPool.activeThreadCount
        have := hF.cap
        simp [hst, hrun]
        omega
      have hq : q.deliver now =
          { q with posted := [], m_jobs := done ++ cur2 :: next :: rest2,
                   m_threadPool := { q.m_threadPool with starting := [next.m_id] },
                   emitted := q.emitted ++
                     [if success = true then Signal.jobCompleted cur.m_id
                      else Signal.jobFailed cur.m_id error] ++
                     [Signal.progressChanged (JobQueue.totalProgress
                       { q with posted := [], m_jobs := done ++ cur2 :: next :: rest2,
                                emitted := q.emitted ++
                                  [if success = true then Signal.jobCompleted cur.m_id
                                   else Signal.jobFailed cur.m_id error] })] ++
                     [Signal.jobStarted next.m_id] } := by
        simp only [JobQueue.deliver, hp, JobQueue.onJobFinished, hupd, JobQueue.processNextJob,
          hF.paused, hproc, hfind, hstart]
        simp
      rw [hq]
      refine ⟨done ++ [cur2], next, rest2, ?_, by simpa [hm] using hlen, by simp, hproc, ?_,
        hnext, rfl, hrun, rfl, ?_⟩
      · exact ⟨hF.paused, hF.queue, hF.cap, hsig2, hF.nodup, hdone2,
          fun j hj => hF.rest_ok j (List.mem_cons_of_mem _ hj)⟩
      · cases success <;> simpa using hsig
      · simp [hlog, hf.1]

theorem PhaseDone.done_step_eq {strict : Bool} {sig : List (JobId × JobType)}
    {q : JobQueue} (h : PhaseDone strict sig q) (now : Int) (e : Event)
    (he : e.isWorkerEvent = true) :
    q.step now e = q := by
  obtain ⟨hF, hproc, hsig, hst, hrun, hposted, hlog⟩ := h
  cases e with
  | workerStart i => simp [JobQueue.step, JobQueue.workerStart, QThreadPool.beginRun, hst]
  | workerProgress i p => simp [JobQueue.step, JobQueue.workerProgress, hrun]
  | workerFinish i r => simp [JobQueue.step, JobQueue.workerFinish, QThreadPool.endRun, hrun]
  | deliver => simp [JobQueue.step, JobQueue.deliver, hposted]
  | _ => simp [Event.isWorkerEvent] at he

theorem RunInv.run_step {strict : Bool} {sig : List (JobId × JobType)} {q : JobQueue}
    (h : RunInv strict sig q) (now : Int) (e : Event) (he : e.isWorkerEvent = true)
    (hs : strict = true → e.strategySucceeds = true) :
    RunInv strict sig (q.step now e) := by
  rcases h with ⟨m, h⟩ | ⟨m, h⟩ | ⟨m, k, h⟩ | h
  · by_cases hz : e = Event.workerStart 0
    · subst hz
      exact Or.inr (Or.inl ⟨m, h.workerStart_zero now⟩)
    · rw [h.starting_step_eq now e he hz]
      exact Or.inl ⟨m, h⟩
  · cases e with
    | workerProgress i p =>
      cases i with
      | zero => exact Or.inr (Or.inl ⟨m, h.workerProgress_zero p⟩)
      | succ i =>
        rw [h.running_step_eq now _ he (by simp) (by simp) (by simp)]
        exact Or.inr (Or.inl ⟨m, h⟩)
    | workerFinish i r =>
      cases i with
      | zero => exact Or.inr (Or.inr (Or.inl ⟨m, _, h.workerFinish_zero r hs⟩))
      | succ i =>
        rw [h.running_step_eq now _ he (by simp) (by simp) (by simp)]
        exact Or.inr (Or.inl ⟨m, h⟩)
    | deliver => exact Or.inr (Or.inl ⟨m, h.running_deliver now⟩)
    | workerStart i =>
      rw [h.running_step_eq now _ he (by simp) (by simp) (by simp)]
      exact Or.inr (Or.inl ⟨m, h⟩)
    | _ => simp [Event.isWorkerEvent] at he
  · by_cases hz : e = Event.deliver
    · subst hz
      cases k with
      | succ k => exact Or.inr (Or.inr (Or.inl ⟨m, k, h.deliver_progress now⟩))
      | zero =>
        cases m with
        | zero => exact Or.inr (Or.inr (Or.inr ((h.deliver_finished now).1 rfl)))
        | succ m => exact Or.inl ⟨m, (h.deliver_finished now).2 m rfl⟩
    · rw [h.posted_step_eq now e he hz]
      exact Or.inr (Or.inr (Or.inl ⟨m, k, h⟩))
  · rw [h.done_step_eq now e he]
    exact Or.inr (Or.inr (Or.inr h))

theorem RunInv.run_exec {strict : Bool} {sig : List (JobId × JobType)}
    (trace : List (Int × Event)) :
    ∀ {q : JobQueue}, RunInv strict sig q →
    (∀ te ∈ trace, te.2.isWorkerEvent = true ∧ (strict = true → te.2.strategySucceeds = true)) →
    RunInv strict sig (q.exec trace) := by
  induction trace with
  | nil => intro q h _; exact h
  | cons te rest ih =>
    intro q h hall
    obtain ⟨now, e⟩ := te
    have h1 := hall (now, e) (List.mem_cons_self _ _)
    exact ih (h.run_step now e h1.1 h1.2) (fun te hte => hall te (List.mem_cons_of_mem _ hte))

theorem exec_append (q : JobQueue) (a b : List (Int × Event)) :
    q.exec (a ++ b) = (q.exec a).exec b := by
  induction a generalizing q with
  | nil => rfl
  | cons te rest ih =>
    obtain ⟨now, e⟩ := te
    exact ih _

/-! ## The batch a run starts from -/

theorem addJobs_eq (settings : Settings) (files : List (QString × Int)) :
    ∀ q : JobQueue, q.addJobs files settings =
      { q with m_jobs := q.m_jobs ++ newJobs settings q.uuidCounter files,
               uuidCounter := q.uuidCounter + files.length,
               emitted := q.emitted ++
                 (newJobs settings q.uuidCounter files).map (fun j => Signal.jobAdded j.m_id) } := by
  induction files with
  | nil => intro q; simp [JobQueue.addJobs, newJobs]
  | cons file rest ih =>
    intro q
    have := ih (q.addJob file.1 file.2 settings)
    unfold JobQueue.addJobs at this ⊢
    rw [List.foldl_cons, this]
    simp [JobQueue.addJob, newJobs, Nat.add_assoc, Nat.add_comm 1]

theorem newJobs_ids (settings : Settings) (files : List (QString × Int)) :
    ∀ counter, (newJobs settings counter files).map Job.m_id =
      List.range' counter files.length := by
  induction files with
  | nil => intro c; rfl
  | cons file rest ih =>
    intro c
    simp [newJobs, List.range', ih, Job.new_id]

theorem newJobs_pending (settings : Settings) (files : List (QString × Int)) :
    ∀ counter, ∀ j ∈ newJobs settings counter files, j.m_status = JobStatus.Pending := by
  induction files with
  | nil => intro c j hj; simp [newJobs] at hj
  | cons file rest ih =>
    intro c j hj
    simp only [newJobs, List.mem_cons] at hj
    rcases hj with hj | hj
    · rw [hj]; exact Job.new_status _ _ _ _
    · exact ih _ j hj

theorem newJobs_length (settings : Settings) (files : List (QString × Int)) :
    ∀ counter, (newJobs settings counter files).length = files.length := by
  induction files with
  | nil => intro c; rfl
  | cons file rest ih => intro c; simp [newJobs, ih]

theorem batchSig_nodup (settings : Settings) (files : List (QString × Int)) :
    ((batchSig settings files).map Prod.fst).Nodup := by
  unfold batchSig
  rw [List.map_map]
  have : (Prod.fst ∘ fun j : Job => (j.m_id, j.m_type)) = Job.m_id := rfl
  rw [this, newJobs_ids]
  exact List.nodup_range' _ _

theorem startedBatch_phase (strict : Bool) (settings : Settings) (file : QString × Int)
    (files : List (QString × Int)) (K : Nat) (hK : 1 ≤ K) :
    PhaseStarting strict (batchSig settings (file :: files)) files.length
      (JobQueue.startedBatch (file :: files) settings K) := by
  have hfind : (newJobs settings 0 (file :: files)).find?
      (fun job => decide (job.m_status = JobStatus.Pending)) =
      some (Job.new 0 file.1 file.2 settings) := by
    simp [newJobs, List.find?, Job.new_status]
  have hq : JobQueue.startedBatch (file :: files) settings K =
      { m_jobs := Job.new 0 file.1 file.2 settings :: newJobs settings 1 files,
        m_threadPool := { maxThreadCount := K, starting := [0] },
        m_isProcessing := true,
        uuidCounter := files.length + 1,
        emitted := (newJobs settings 0 (file :: files)).map (fun j => Signal.jobAdded j.m_id)
          ++ [Signal.jobStarted 0] } := by
    unfold JobQueue.startedBatch
    rw [addJobs_eq]
    simp only [JobQueue.start, JobQueue.processNextJob, List.nil_append, hfind]
    have hK2 : 0 < K := hK
    simp [newJobs, QThreadPool.setMaxThreadCount, QThreadPool.start,
      QThreadPool.activeThreadCount, hK2, Job.new_id]
  rw [hq]
  refine ⟨[], Job.new 0 file.1 file.2 settings, newJobs settings 1 files, ?_,
    newJobs_length _ _ _, rfl, rfl, ?_, Job.new_status _ _ _ _, by simp [Job.new_id], rfl,
    rfl, rfl⟩
  · exact ⟨rfl, rfl, hK, rfl, batchSig_nodup _ _, by simp, newJobs_pending _ _ _⟩
  · simp

/-! ## Runs to the end -/

theorem workerStart_posted (q : JobQueue) (i : Nat) (now : Int) :
    (q.workerStart i now).posted = q.posted := by
  unfold JobQueue.workerStart
  cases q.m_threadPool.beginRun i with
  | none => rfl
  | some p => rfl

theorem successRun_allowed (n : Nat) :
    ∀ te ∈ successRun n, te.2.isWorkerEvent = true ∧ te.2.strategySucceeds = true := by
  induction n with
  | zero => intro te hte; simp [successRun] at hte
  | succ n ih =>
    intro te hte
    simp only [successRun, workerCycle, List.cons_append, List.nil_append, List.mem_cons] at hte
    rcases hte with h | h | h | h
    · subst h; exact ⟨rfl, rfl⟩
    · subst h; exact ⟨rfl, rfl⟩
    · subst h; exact ⟨rfl, rfl⟩
    · exact ih te h

theorem successRun_done {strict : Bool} {sig : List (JobId × JobType)} :
    ∀ (m : Nat) (q : JobQueue), PhaseStarting strict sig m q →
      PhaseDone strict sig (q.exec (successRun (m + 1))) := by
  intro m
  induction m with
  | zero =>
    intro q h
    have hposted : q.posted = [] := by
      obtain ⟨_, _, _, _, _, _, _, _, _, _, _, hp, _⟩ := h
      exact hp
    have h1 := h.workerStart_zero 0
    have h2 := h1.workerFinish_zero (StrategyResult.success 0) (fun _ => rfl)
    rw [workerStart_posted, hposted] at h2
    exact (h2.deliver_finished 0).1 rfl
  | succ m ih =>
    intro q h
    have hposted : q.posted = [] := by
      obtain ⟨_, _, _, _, _, _, _, _, _, _, _, hp, _⟩ := h
      exact hp
    have h1 := h.workerStart_zero 0
    have h2 := h1.workerFinish_zero (StrategyResult.success 0) (fun _ => rfl)
    rw [workerStart_posted, hposted] at h2
    have h3 := (h2.deliver_finished 0).2 m rfl
    exact ih _ h3

theorem PhaseDone.done_statistics {sig : List (JobId × JobType)} {q : JobQueue}
    (h : PhaseDone true sig q) (now : Int) :
    (q.statistics now).total = sig.length ∧
    (q.statistics now).completed = sig.countP (fun s => s.2 ≠ JobType.Unknown) ∧
    (q.statistics now).failed = sig.countP (fun s => s.2 = JobType.Unknown) ∧
    (q.statistics now).pending = 0 ∧
    (q.statistics now).processing = 0 := by
  obtain ⟨hF, -⟩ := h
  have hset := hF.done_ok
  have hsig := hF.sig_eq
  unfold JobQueue.statistics
  rw [statistics_fold]
  simp only [zero_add]
  have hc : q.m_jobs.countP (fun job => decide (job.m_status = JobStatus.Completed)) =
      sig.countP (fun s => decide (s.2 ≠ JobType.Unknown)) := by
    rw [← hsig, List.countP_map]
    apply List.countP_congr
    intro j hj
    have := (hset j hj).2 rfl
    simp [this]
  have hf : q.m_jobs.countP (fun job => decide (job.m_status = JobStatus.Failed)) =
      sig.countP (fun s => decide (s.2 = JobType.Unknown)) := by
    rw [← hsig, List.countP_map]
    apply List.countP_congr
    intro j hj
    have h2 := (hset j hj).2 rfl
    have h1 := (hset j hj).1
    simp only [decide_eq_true_eq, Function.comp]
    constructor
    · intro hfail
      by_contra he
      have := h2.mpr he
      rw [hfail] at this
      cases this
    · intro hu
      rcases h1 with h1 | h1
      · exact absurd (h2.mp h1) (by simpa using hu)
      · exact h1
  have hp : q.m_jobs.countP (fun job => decide (job.m_status = JobStatus.Pending)) = 0 := by
    rw [List.countP_eq_zero]
    intro j hj
    rcases (hset j hj).1 with h1 | h1 <;> simp [h1]
  have hr : q.m_jobs.countP (fun job => decide (job.m_status = JobStatus.Processing)) = 0 := by
    rw [List.countP_eq_zero]
    intro j hj
    rcases (hset j hj).1 with h1 | h1 <;> simp [h1]
  refine ⟨?_, ?_, ?_, ?_, ?_⟩
  · rw [← hsig]; simp
  · simp only [hc]
  · simp only [hf]
  · simp only [hp]; rfl
  · simp only [hr]; rfl

theorem batchSig_counts (settings : Settings) (files : List (QString × Int)) :
    (batchSig settings files).length = files.length ∧
    (batchSig settings files).countP (fun s => s.2 ≠ JobType.Unknown) =
      files.countP (fun f => (QFileInfo.suffix f.1).toLower ∈ imageExts ∨
        (QFileInfo.suffix f.1).toLower ∈ videoExts) ∧
    (batchSig settings files).countP (fun s => s.2 = JobType.Unknown) =
      files.countP (fun f => ¬ ((QFileInfo.suffix f.1).toLower ∈ imageExts ∨
        (QFileInfo.suffix f.1).toLower ∈ videoExts)) := by
  unfold batchSig
  have key : ∀ counter,
      (newJobs settings counter files).countP (fun j => decide (j.m_type ≠ JobType.Unknown)) =
        files.countP (fun f => decide ((QFileInfo.suffix f.1).toLower ∈ imageExts ∨
          (QFileInfo.suffix f.1).toLower ∈ videoExts)) ∧
      (newJobs settings counter files).countP (fun j => decide (j.m_type = JobType.Unknown)) =
        files.countP (fun f => decide (¬ ((QFileInfo.suffix f.1).toLower ∈ imageExts ∨
          (QFileInfo.suffix f.1).toLower ∈ videoExts))) := by
    induction files with
    | nil => intro c; simp [newJobs]
    | cons file rest ih =>
      intro c
      have ht := Job.new_type c file.1 file.2 settings
      have h1 : (Job.new c file.1 file.2 settings).m_type ≠ JobType.Unknown ↔
          ((QFileInfo.suffix file.1).toLower ∈ imageExts ∨
            (QFileInfo.suffix file.1).toLower ∈ videoExts) := by
        rw [ht]
        by_cases hi : (QFileInfo.suffix file.1).toLower ∈ imageExts
        · simp [hi]
        · by_cases hv : (QFileInfo.suffix file.1).toLower ∈ videoExts
          · simp [hi, hv]
          · simp [hi, hv]
      have h2 : (Job.new c file.1 file.2 settings).m_type = JobType.Unknown ↔
          ¬ ((QFileInfo.suffix file.1).toLower ∈ imageExts ∨
            (QFileInfo.suffix file.1).toLower ∈ videoExts) := by
        rw [← h1]; simp
      simp only [newJobs, List.countP_cons, (ih (c + 1)).1, (ih (c + 1)).2]
      rw [decide_eq_decide.mpr h1, decide_eq_decide.mpr h2]
      exact ⟨rfl, rfl⟩
  refine ⟨by simp [newJobs_length], ?_, ?_⟩
  · rw [List.countP_map]
    exact (key 0).1
  · rw [List.countP_map]
    exact (key 0).2

theorem idle_step_eq (q : JobQueue) (now : Int) (e : Event)
    (hst : q.m_threadPool.starting = []) (hrun : q.m_threadPool.running = [])
    (hposted : q.posted = []) (he : e.isWorkerEvent = true) :
    q.step now e = q := by
  cases e with
  | workerStart i => simp [JobQueue.step, JobQueue.workerStart, QThreadPool.beginRun, hst]
  | workerProgress i p => simp [JobQueue.step, JobQueue.workerProgress, hrun]
  | workerFinish i r => simp [JobQueue.step, JobQueue.workerFinish, QThreadPool.endRun, hrun]
  | deliver => simp [JobQueue.step, JobQueue.deliver, hposted]
  | _ => simp [Event.isWorkerEvent] at he

theorem idle_exec_eq (q : JobQueue) (trace : List (Int × Event))
    (hst : q.m_threadPool.starting = []) (hrun : q.m_threadPool.running = [])
    (hposted : q.posted = []) (he : ∀ te ∈ trace, te.2.isWorkerEvent = true) :
    q.exec trace = q := by
  induction trace with
  | nil => rfl
  | cons te rest ih =>
    obtain ⟨now, e⟩ := te
    show (q.step now e).exec rest = q
    rw [idle_step_eq q now e hst hrun hposted (he (now, e) (List.mem_cons_self _ _))]
    exact ih (fun te hte => he te (List.mem_cons_of_mem _ hte))

theorem startedBatch_nil (settings : Settings) (K : Nat) :
    JobQueue.startedBatch [] settings K = {} := by
  simp [JobQueue.startedBatch, JobQueue.addJobs, JobQueue.start]

theorem RunInv.done_of_signal {strict : Bool} {sig : List (JobId × JobType)} {q : JobQueue}
    (h : RunInv strict sig q) (hs : Signal.allJobsCompleted ∈ q.emitted) :
    PhaseDone strict sig q := by
  rcases h with ⟨m, h⟩ | ⟨m, h⟩ | ⟨m, k, h⟩ | h
  · obtain ⟨_, _, _, _, _, _, _, hn, _⟩ := h
    exact absurd hs hn
  · obtain ⟨_, _, _, _, _, _, _, hn, _⟩ := h
    exact absurd hs hn
  · obtain ⟨_, _, _, _, _, _, _, hn, _⟩ := h
    exact absurd hs hn
  · exact h

theorem RunInv.runLog_initial {strict : Bool} {sig : List (JobId × JobType)} {q : JobQueue}
    (h : RunInv strict sig q) : q.runLog <+: sig.map Prod.fst := by
  have key : ∀ (done : List Job) (cur : Job) (rest : List Job),
      (done ++ cur :: rest).map (fun j => (j.m_id, j.m_type)) = sig →
      sig.map Prod.fst = (done.map Job.m_id ++ [cur.m_id]) ++ rest.map Job.m_id := by
    intro done cur rest hs
    rw [← hs]
    simp [List.map_map, Function.comp_def]
  rcases h with ⟨m, h⟩ | ⟨m, h⟩ | ⟨m, k, h⟩ | h
  · obtain ⟨done, cur, rest, hF, _, hjobs, _, _, _, _, _, _, hlog⟩ := h
    rw [hlog, key done cur rest (hjobs ▸ hF.sig_eq), List.append_assoc]
    exact List.prefix_append _ _
  · obtain ⟨done, cur, rest, hF, _, hjobs, _, _, _, _, _, _, hlog⟩ := h
    rw [hlog, key done cur rest (hjobs ▸ hF.sig_eq)]
    exact List.prefix_append _ _
  · obtain ⟨done, cur, rest, hF, _, hjobs, _, _, _, _, _, _, hlog⟩ := h
    rw [hlog, key done cur rest (hjobs ▸ hF.sig_eq)]
    exact List.prefix_append _ _
  · obtain ⟨hF, _, _, _, _, _, hlog⟩ := h
    rw [hlog, ← hF.sig_eq]
    simp [List.map_map, Function.comp_def]

theorem processNextJob_jobs (q : JobQueue) : q.processNextJob.m_jobs = q.m_jobs := by
  unfold JobQueue.processNextJob
  split_ifs
  · rfl
  · cases q.m_jobs.find? (fun job => decide (job.m_status = JobStatus.Pending)) with
    | none => simp only; split_ifs <;> rfl
    | some j => rfl

theorem start_jobs (q : JobQueue) (K : Nat) : (q.start K).m_jobs = q.m_jobs := by
  unfold JobQueue.start
  split_ifs
  · rfl
  · rfl
  · exact processNextJob_jobs _

theorem startedBatch_jobs (files : List (QString × Int)) (settings : Settings) (K : Nat) :
    (JobQueue.startedBatch files settings K).m_jobs = newJobs settings 0 files := by
  unfold JobQueue.startedBatch
  rw [start_jobs, addJobs_eq]
  exact List.nil_append _

/-- Every job of a batch was constructed from one of the submitted files. -/
theorem newJobs_origin (settings : Settings) (files : List (QString × Int)) :
    ∀ (counter : Nat) (job : Job), job ∈ newJobs settings counter files →
      ∃ f ∈ files, ∃ id : JobId, job = Job.new id f.1 f.2 settings := by
  induction files with
  | nil =>
    intro counter job hjob
    simp [newJobs] at hjob
  | cons file rest ih =>
    intro counter job hjob
    unfold newJobs at hjob
    rcases List.mem_cons.mp hjob with hj | hj
    · exact ⟨file, List.mem_cons_self _ _, counter, hj⟩
    · obtain ⟨f, hf, id, hid⟩ := ih (counter + 1) job hj
      exact ⟨f, List.mem_cons_of_mem _ hf, id, hid⟩

theorem newJobs_paths (settings : Settings) (files : List (QString × Int)) :
    ∀ counter, (newJobs settings counter files).map Job.m_inputPath = files.map Prod.fst := by
  induction files with
  | nil => intro c; rfl
  | cons file rest ih =>
    intro c
    simp [newJobs, ih, Job.new_inputPath]

/-! ## The invariant of all executions -/

theorem updateFirst_ids (p : Job → Bool) (f : Job → Job) (hf : ∀ j, (f j).m_id = j.m_id)
    (l : List Job) : (updateFirst p f l).map Job.m_id = l.map Job.m_id := by
  induction l with
  | nil => rfl
  | cons a l ih =>
    unfold updateFirst
    split_ifs
    · simp [hf]
    · simp [ih]

theorem updateFirst_mem (p : Job → Bool) (f : Job → Job) (l : List Job) (x : Job)
    (hx : x ∈ updateFirst p f l) : x ∈ l ∨ ∃ j ∈ l, p j = true ∧ x = f j := by
  induction l with
  | nil => simp [updateFirst] at hx
  | cons a l ih =>
    unfold updateFirst at hx
    split_ifs at hx with hp
    · rcases List.mem_cons.mp hx with h | h
      · exact Or.inr ⟨a, List.mem_cons_self _ _, hp, h⟩
      · exact Or.inl (List.mem_cons_of_mem _ h)
    · rcases List.mem_cons.mp hx with h | h
      · exact Or.inl (h ▸ List.mem_cons_self _ _)
      · rcases ih h with h1 | ⟨j, hj, hpj, hxj⟩
        · exact Or.inl (List.mem_cons_of_mem _ h1)
        · exact Or.inr ⟨j, List.mem_cons_of_mem _ hj, hpj, hxj⟩

/-- With distinct identifiers, a job of the updated collection that carries
the identifier looked for is the updated job. -/
theorem updateFirst_mem_id (r : JobId) (f : Job → Job)
    (l : List Job) (hnd : (l.map Job.m_id).Nodup) (x : Job)
    (hx : x ∈ updateFirst (fun job => decide (job.m_id = r)) f l) (hxr : x.m_id = r) :
    ∃ j ∈ l, j.m_id = r ∧ x = f j := by
  induction l with
  | nil => simp [updateFirst] at hx
  | cons a l ih =>
    rw [List.map_cons, List.nodup_cons] at hnd
    unfold updateFirst at hx
    split_ifs at hx with hp
    · have har : a.m_id = r := by simpa using hp
      rcases List.mem_cons.mp hx with h | h
      · exact ⟨a, List.mem_cons_self _ _, har, h⟩
      · exact absurd (List.mem_map.mpr ⟨x, h, hxr.trans har.symm⟩) hnd.1
    · have har : a.m_id ≠ r := by simpa using hp
      rcases List.mem_cons.mp hx with h | h
      · rw [h] at hxr; exact absurd hxr har
      · obtain ⟨j, hj, hjr, hxj⟩ := ih hnd.2 h
        exact ⟨j, List.mem_cons_of_mem _ hj, hjr, hxj⟩

theorem QThreadPool.start_facts (p : QThreadPool) (r : JobId) :
    (p.start r).running = p.running ∧ (p.start r).maxThreadCount = p.maxThreadCount ∧
    (p.activeThreadCount ≤ p.maxThreadCount →
      (p.start r).activeThreadCount ≤ p.maxThreadCount) := by
  unfold QThreadPool.start
  split_ifs with h
  · refine ⟨rfl, rfl, fun _ => ?_⟩
    unfold QThreadPool.activeThreadCount at h ⊢
    simp only [List.length_append, List.length_singleton]
    omega
  · exact ⟨rfl, rfl, fun h => h⟩

theorem QThreadPool.setMaxThreadCount_facts (p : QThreadPool) (K : Nat) :
    (p.setMaxThreadCount K).running = p.running ∧
    (p.setMaxThreadCount K).maxThreadCount = K ∧
    (p.activeThreadCount ≤ K → (p.setMaxThreadCount K).activeThreadCount ≤ K) := by
  unfold QThreadPool.setMaxThreadCount
  refine ⟨rfl, rfl, fun h => ?_⟩
  unfold QThreadPool.activeThreadCount at h ⊢
  simp only [List.length_append, List.length_take]
  omega

theorem QThreadPool.beginRun_facts (p : QThreadPool) (i : Nat) (r : JobId) (p2 : QThreadPool)
    (h : p.beginRun i = some (r, p2)) :
    p2.running = p.running ++ [r] ∧ p2.maxThreadCount = p.maxThreadCount ∧
    p2.activeThreadCount = p.activeThreadCount ∧ p.starting ≠ [] := by
  unfold QThreadPool.beginRun at h
  cases hg : p.starting.get? i with
  | none => rw [hg] at h; cases h
  | some x =>
    rw [hg] at h
    simp only [Option.some.injEq, Prod.mk.injEq] at h
    obtain ⟨rfl, rfl⟩ := h
    have hi : i < p.starting.length := by
      by_contra hc
      rw [List.get?_eq_none.mpr (by omega)] at hg
      cases hg
    refine ⟨rfl, rfl, ?_, ?_⟩
    · unfold QThreadPool.activeThreadCount
      simp only [List.length_append, List.length_singleton, List.length_eraseIdx, hi, if_true]
      omega
    · intro he
      rw [he] at hi
      simp at hi

theorem mem_eraseIdx_of_ne (l : List JobId) (i : Nat) (r a : JobId)
    (hg : l.get? i = some r) (ha : a ∈ l) (hne : a ≠ r) : a ∈ l.eraseIdx i := by
  induction l generalizing i with
  | nil => cases ha
  | cons b l ih =>
    cases i with
    | zero =>
      simp only [List.get?_cons_zero, Option.some.injEq] at hg
      rcases List.mem_cons.mp ha with h | h
      · exact absurd (h.trans hg) hne
      · simpa using h
    | succ i =>
      simp only [List.get?_cons_succ] at hg
      rw [List.eraseIdx_cons_succ]
      rcases List.mem_cons.mp ha with h | h
      · exact h ▸ List.mem_cons_self _ _
      · exact List.mem_cons_of_mem _ (ih i hg h)

theorem QThreadPool.endRun_facts (p : QThreadPool) (i : Nat) (r : JobId) (p2 : QThreadPool)
    (h : p.endRun i = some (r, p2)) :
    p.running.get? i = some r ∧ p2.running = p.running.eraseIdx i ∧
    p2.maxThreadCount = p.maxThreadCount ∧
    (p.activeThreadCount ≤ p.maxThreadCount → p2.activeThreadCount ≤ p.maxThreadCount) := by
  unfold QThreadPool.endRun at h
  cases hg : p.running.get? i with
  | none => rw [hg] at h; cases h
  | some x =>
    rw [hg] at h
    have hi : i < p.running.length := by
      by_contra hc
      rw [List.get?_eq_none.mpr (by omega)] at hg
      cases hg
    simp only at h
    cases hq : p.queue with
    | nil =>
      rw [hq] at h
      simp only [Option.some.injEq, Prod.mk.injEq] at h
      obtain ⟨rfl, rfl⟩ := h
      refine ⟨rfl, rfl, rfl, fun hle => ?_⟩
      unfold QThreadPool.activeThreadCount at hle ⊢
      simp only [List.length_eraseIdx, hi, if_true]
      omega
    | cons next rest =>
      rw [hq] at h
      simp only at h
      split_ifs at h with hlt
      · simp only [Option.some.injEq, Prod.mk.injEq] at h
        obtain ⟨rfl, rfl⟩ := h
        refine ⟨rfl, rfl, rfl, fun _ => ?_⟩
        unfold QThreadPool.activeThreadCount at hlt ⊢
        simp only [List.length_append, List.length_singleton] at hlt ⊢
        omega
      · simp only [Option.some.injEq, Prod.mk.injEq] at h
        obtain ⟨rfl, rfl⟩ := h
        refine ⟨rfl, rfl, rfl, fun hle => ?_⟩
        unfold QThreadPool.activeThreadCount at hle ⊢
        simp only [List.length_eraseIdx, hi, if_true]
        omega

theorem QueueInv.inv_processNextJob {K : Nat} {q : JobQueue} (h : QueueInv K q) :
    QueueInv K q.processNextJob := by
  unfold JobQueue.processNextJob
  split_ifs with h1
  · exact h
  · have hproc : q.m_isProcessing = true := by
      by_contra hc
      exact h1 (Or.inr hc)
    have hpool : q.m_threadPool.maxThreadCount = K ∧ q.m_threadPool.activeThreadCount ≤ K := by
      rcases h.pool with hp | hp
      · exact hp
      · rw [hp.1] at hproc; cases hproc
    cases q.m_jobs.find? (fun job => decide (job.m_status = JobStatus.Pending)) with
    | none =>
      simp only
      split_ifs
      · exact ⟨Or.inl hpool, h.nodup, h.fresh, h.processing⟩
      · exact h
    | some job =>
      have hs := QThreadPool.start_facts q.m_threadPool job.m_id
      refine ⟨Or.inl ⟨hs.2.1.trans hpool.1, ?_⟩, h.nodup, h.fresh, ?_⟩
      · have := hs.2.2 (hpool.1 ▸ hpool.2)
        rw [hpool.1] at this
        exact this
      · intro j hj hst
        rcases h.processing j hj hst with hr | hr
        · exact Or.inl (hs.1 ▸ hr)
        · exact Or.inr hr

theorem QueueInv.inv_start {K : Nat} {q : JobQueue} (h : QueueInv K q) :
    QueueInv K (q.start K) := by
  unfold JobQueue.start
  split_ifs with h1 h2
  · exact h
  · exact h
  · apply QueueInv.inv_processNextJob
    have hs := QThreadPool.setMaxThreadCount_facts q.m_threadPool K
    have hact : q.m_threadPool.activeThreadCount ≤ K := by
      rcases h.pool with hp | hp
      · exact hp.2
      · unfold QThreadPool.activeThreadCount
        rw [hp.2.2.1, hp.2.2.2]
        exact Nat.zero_le _
    refine ⟨Or.inl ⟨hs.2.1, hs.2.2 hact⟩, h.nodup, h.fresh, ?_⟩
    intro j hj hst
    rcases h.processing j hj hst with hr | hr
    · exact Or.inl (hs.1 ▸ hr)
    · exact Or.inr hr

theorem QueueInv.inv_pause {K : Nat} {q : JobQueue} (h : QueueInv K q) : QueueInv K q.pause :=
  ⟨h.pool, h.nodup, h.fresh, h.processing⟩

theorem QueueInv.inv_resume {K : Nat} {q : JobQueue} (h : QueueInv K q) : QueueInv K q.resume := by
  unfold JobQueue.resume
  exact QueueInv.inv_processNextJob ⟨h.pool, h.nodup, h.fresh, h.processing⟩

theorem QueueInv.inv_addJob {K : Nat} {q : JobQueue} (h : QueueInv K q) (filePath : QString)
    (inputSize : Int) (settings : Settings) :
    QueueInv K (q.addJob filePath inputSize settings) := by
  unfold JobQueue.addJob
  refine ⟨h.pool, ?_, ?_, ?_⟩
  · simp only [List.map_append, List.map_cons, List.map_nil, Job.new_id]
    rw [List.nodup_append]
    refine ⟨h.nodup, List.nodup_singleton _, ?_⟩
    intro a ha hb
    rw [List.mem_singleton] at hb
    obtain ⟨j, hj, hja⟩ := List.mem_map.mp ha
    have := h.fresh j hj
    rw [hja, hb] at this
    exact Nat.lt_irrefl _ this
  · intro j hj
    simp only [List.mem_append, List.mem_singleton] at hj
    rcases hj with hj | hj
    · exact Nat.lt_succ_of_lt (h.fresh j hj)
    · rw [hj, Job.new_id]
      exact Nat.lt_succ_self _
  · intro j hj hst
    simp only [List.mem_append, List.mem_singleton] at hj
    rcases hj with hj | hj
    · exact h.processing j hj hst
    · rw [hj, Job.new_status] at hst
      cases hst

theorem QueueInv.inv_cancel {K : Nat} {q : JobQueue} (h : QueueInv K q) (jobId : JobId)
    (now : Int) : QueueInv K (q.cancel jobId now) := by
  unfold JobQueue.cancel
  have hid : ∀ j : Job, (if j.m_status = JobStatus.Pending then
      j.setStatus JobStatus.Cancelled now else j).m_id = j.m_id := by
    intro j
    split_ifs
    · exact (Job.setStatus_fields _ _ _).1
    · rfl
  refine ⟨h.pool, ?_, ?_, ?_⟩
  · show ((updateFirst _ _ q.m_jobs).map Job.m_id).Nodup
    rw [updateFirst_ids _ _ hid]
    exact h.nodup
  · intro j hj
    have hj2 : j.m_id ∈ (updateFirst (fun job => decide (job.m_id = jobId))
        (fun job => if job.m_status = JobStatus.Pending then
          job.setStatus JobStatus.Cancelled now else job) q.m_jobs).map Job.m_id :=
      List.mem_map.mpr ⟨j, hj, rfl⟩
    rw [updateFirst_ids _ _ hid] at hj2
    obtain ⟨j0, hj0, he⟩ := List.mem_map.mp hj2
    rw [← he]
    exact h.fresh j0 hj0
  · intro j hj hst
    rcases updateFirst_mem _ _ _ j hj with h1 | ⟨j0, hj0, _, hjf⟩
    · exact h.processing j h1 hst
    · by_cases hp : j0.m_status = JobStatus.Pending
      · rw [hjf, if_pos hp, (Job.setStatus_fields _ _ _).2.2.1] at hst
        cases hst
      · rw [if_neg hp] at hjf
        rw [hjf]
        rw [hjf] at hst
        exact h.processing j0 hj0 hst

theorem QueueInv.inv_workerStart {K : Nat} {q : JobQueue} (h : QueueInv K q) (i : Nat)
    (now : Int) : QueueInv K (q.workerStart i now) := by
  unfold JobQueue.workerStart
  cases hb : q.m_threadPool.beginRun i with
  | none => exact h
  | some rp =>
    obtain ⟨r, p2⟩ := rp
    have hf := QThreadPool.beginRun_facts _ _ _ _ hb
    have hid : ∀ j : Job, (j.setStatus JobStatus.Processing now).m_id = j.m_id :=
      fun j => (Job.setStatus_fields _ _ _).1
    refine ⟨?_, ?_, ?_, ?_⟩
    · rcases h.pool with hp | hp
      · exact Or.inl ⟨hf.2.1.trans hp.1, hf.2.2.1 ▸ hp.2⟩
      · exact absurd hp.2.2.1 hf.2.2.2
    · show ((updateFirst _ _ q.m_jobs).map Job.m_id).Nodup
      rw [updateFirst_ids _ _ hid]
      exact h.nodup
    · intro j hj
      have hj2 : j.m_id ∈ (updateFirst (fun job => decide (job.m_id = r))
          (fun job => job.setStatus JobStatus.Processing now) q.m_jobs).map Job.m_id :=
        List.mem_map.mpr ⟨j, hj, rfl⟩
      rw [updateFirst_ids _ _ hid] at hj2
      obtain ⟨j0, hj0, he⟩ := List.mem_map.mp hj2
      rw [← he]
      exact h.fresh j0 hj0
    · intro j hj hst
      show j.m_id ∈ p2.running ∨ _
      rw [hf.1]
      rcases updateFirst_mem _ _ _ j hj with h1 | ⟨j0, hj0, hpj, hjf⟩
      · rcases h.processing j h1 hst with hr | hr
        · exact Or.inl (List.mem_append_left _ hr)
        · exact Or.inr hr
      · left
        have : j0.m_id = r := by simpa using hpj
        rw [hjf, hid, this]
        simp

theorem QueueInv.inv_workerProgress {K : Nat} {q : JobQueue} (h : QueueInv K q) (i : Nat)
    (progress : Int) : QueueInv K (q.workerProgress i progress) := by
  unfold JobQueue.workerProgress
  cases q.m_threadPool.running.get? i with
  | none => exact h
  | some r =>
    refine ⟨h.pool, h.nodup, h.fresh, ?_⟩
    intro j hj hst
    rcases h.processing j hj hst with hr | hr
    · exact Or.inl hr
    · right
      unfold JobQueue.postedFinishedIds at hr ⊢
      simp only [List.filterMap_append, List.mem_append]
      exact Or.inl hr

theorem QueueInv.inv_workerFinish {K : Nat} {q : JobQueue} (h : QueueInv K q) (i : Nat)
    (result : StrategyResult) : QueueInv K (q.workerFinish i result) := by
  unfold JobQueue.workerFinish
  cases hb : q.m_threadPool.endRun i with
  | none => exact h
  | some rp =>
    obtain ⟨r, p2⟩ := rp
    have hf := QThreadPool.endRun_facts _ _ _ _ hb
    have hpool : (p2.maxThreadCount = K ∧ p2.activeThreadCount ≤ K) ∨
        (q.m_isProcessing = false ∧ p2.queue = [] ∧ p2.starting = [] ∧ p2.running = []) := by
      rcases h.pool with hp | hp
      · left
        refine ⟨hf.2.2.1.trans hp.1, ?_⟩
        have := hf.2.2.2 (hp.1 ▸ hp.2)
        rwa [hp.1] at this
      · have := hf.1
        rw [hp.2.2.2] at this
        simp at this
    simp only
    cases hfind : q.m_jobs.find? (fun job => decide (job.m_id = r)) with
    | none =>
      refine ⟨hpool, h.nodup, h.fresh, ?_⟩
      intro j hj hst
      have hne : j.m_id ≠ r := by
        have := List.find?_eq_none.mp hfind j hj
        simpa using this
      rcases h.processing j hj hst with hr | hr
      · left
        show j.m_id ∈ p2.running
        rw [hf.2.1]
        exact mem_eraseIdx_of_ne _ _ _ _ hf.1 hr hne
      · exact Or.inr hr
    | some job =>
      have hid : ∀ j : Job, (JobRunner.process j result).1.m_id = j.m_id :=
        fun j => (JobRunner.process_fields j result).1
      refine ⟨hpool, ?_, ?_, ?_⟩
      · show ((updateFirst _ _ q.m_jobs).map Job.m_id).Nodup
        rw [updateFirst_ids _ _ hid]
        exact h.nodup
      · intro j hj
        have hj2 : j.m_id ∈ (updateFirst (fun job => decide (job.m_id = r))
            (fun job => (JobRunner.process job result).1) q.m_jobs).map Job.m_id :=
          List.mem_map.mpr ⟨j, hj, rfl⟩
        rw [updateFirst_ids _ _ hid] at hj2
        obtain ⟨j0, hj0, he⟩ := List.mem_map.mp hj2
        rw [← he]
        exact h.fresh j0 hj0
      · intro j hj hst
        show j.m_id ∈ p2.running ∨ j.m_id ∈ JobQueue.postedFinishedIds _
        have hposted : ∀ a, (a = r ∨ a ∈ q.postedFinishedIds) →
            a ∈ (q.posted ++ [QueuedCall.finished r (JobRunner.process job result).2.1
              (JobRunner.process job result).2.2]).filterMap QueuedCall.finishedId := by
          intro a ha
          simp only [List.filterMap_append, List.mem_append]
          rcases ha with ha | ha
          · right; simp [QueuedCall.finishedId, ha]
          · left; exact ha
        by_cases hjr : j.m_id = r
        · exact Or.inr (hposted _ (Or.inl hjr))
        · rcases updateFirst_mem _ _ _ j hj with h1 | ⟨j0, hj0, hpj, hjf⟩
          · rcases h.processing j h1 hst with hr | hr
            · left
              rw [hf.2.1]
              exact mem_eraseIdx_of_ne _ _ _ _ hf.1 hr hjr
            · exact Or.inr (hposted _ (Or.inr hr))
          · have : j0.m_id = r := by simpa using hpj
            rw [hjf, hid, this] at hjr
            exact absurd rfl hjr

theorem QueueInv.inv_onJobFinished {K : Nat} {q : JobQueue} (jobId : JobId) (success : Bool)
    (error : QString) (now : Int)
    (hpool : (q.m_threadPool.maxThreadCount = K ∧ q.m_threadPool.activeThreadCount ≤ K) ∨
      (q.m_isProcessing = false ∧ q.m_threadPool.queue = [] ∧
        q.m_threadPool.starting = [] ∧ q.m_threadPool.running = []))
    (hnodup : (q.m_jobs.map Job.m_id).Nodup)
    (hfresh : ∀ j ∈ q.m_jobs, j.m_id < q.uuidCounter)
    (hprocessing : ∀ j ∈ q.m_jobs, j.m_status = JobStatus.Processing → j.m_id ≠ jobId →
      j.m_id ∈ q.m_threadPool.running ∨ j.m_id ∈ q.postedFinishedIds) :
    QueueInv K (q.onJobFinished jobId success error now) := by
  unfold JobQueue.onJobFinished
  apply QueueInv.inv_processNextJob
  have hfld := fun j : Job => onJobFinished_job j success error now
  have hid : ∀ j : Job, (if success = true then
      (j.setStatus JobStatus.Completed now).setProgress 100
      else j.setError error now).m_id = j.m_id := fun j => (hfld j).1
  refine ⟨hpool, ?_, ?_, ?_⟩
  · show ((updateFirst _ _ q.m_jobs).map Job.m_id).Nodup
    rw [updateFirst_ids _ _ hid]
    exact hnodup
  · intro j hj
    have hj2 : j.m_id ∈ (updateFirst (fun job => decide (job.m_id = jobId))
        (fun job => if success = true then
          (job.setStatus JobStatus.Completed now).setProgress 100
          else job.setError error now) q.m_jobs).map Job.m_id :=
      List.mem_map.mpr ⟨j, hj, rfl⟩
    rw [updateFirst_ids _ _ hid] at hj2
    obtain ⟨j0, hj0, he⟩ := List.mem_map.mp hj2
    rw [← he]
    exact hfresh j0 hj0
  · intro j hj hst
    by_cases hjr : j.m_id = jobId
    · obtain ⟨j0, _, _, hjf⟩ := updateFirst_mem_id jobId _ q.m_jobs hnodup j hj hjr
      rw [hjf, (hfld j0).2.2] at hst
      cases success <;> simp at hst
    · rcases updateFirst_mem _ _ _ j hj with h1 | ⟨j0, hj0, hpj, hjf⟩
      · exact hprocessing j h1 hst hjr
      · have : j0.m_id = jobId := by simpa using hpj
        rw [hjf, hid, this] at hjr
        exact absurd rfl hjr

theorem QueueInv.inv_deliver {K : Nat} {q : JobQueue} (h : QueueInv K q) (now : Int) :
    QueueInv K (q.deliver now) := by
  unfold JobQueue.deliver
  cases hp : q.posted with
  | nil => exact h
  | cons c rest =>
    cases c with
    | progress jobId progress =>
      refine ⟨h.pool, h.nodup, h.fresh, ?_⟩
      intro j hj hst
      rcases h.processing j hj hst with hr | hr
      · exact Or.inl hr
      · right
        unfold JobQueue.postedFinishedIds at hr ⊢
        rw [hp] at hr
        simpa [QueuedCall.finishedId] using hr
    | finished jobId success error =>
      show QueueInv K (JobQueue.onJobFinished _ jobId success error now)
      refine QueueInv.inv_onJobFinished jobId success error now ?_ ?_ ?_ ?_
      · exact h.pool
      · exact h.nodup
      · exact h.fresh
      intro j hj hst hne
      rcases h.processing j hj hst with hr | hr
      · exact Or.inl hr
      · right
        unfold JobQueue.postedFinishedIds at hr ⊢
        rw [hp] at hr
        simp only [List.filterMap_cons, QueuedCall.finishedId, List.mem_cons] at hr
        rcases hr with hr | hr
        · exact absurd hr hne
        · exact hr

theorem QueueInv.inv_drain {K : Nat} (now : Int) (fuel : Nat) :
    ∀ (results : List StrategyResult) {q : JobQueue}, QueueInv K q →
      QueueInv K (q.drain now results fuel) := by
  induction fuel with
  | zero => intro results q h; exact h
  | succ fuel ih =>
    intro results q h
    unfold JobQueue.drain
    cases hs : q.m_threadPool.starting with
    | cons a l => exact ih _ (h.inv_workerStart 0 now)
    | nil =>
      cases hr : q.m_threadPool.running with
      | cons a l => exact ih _ (h.inv_workerFinish 0 _)
      | nil => exact h

theorem QueueInv.inv_stopAll {K : Nat} {q : JobQueue} (h : QueueInv K q)
    (results : List StrategyResult) (now : Int) : QueueInv K (q.stopAll results now) := by
  unfold JobQueue.stopAll
  have h1 : QueueInv K { q with m_isProcessing := false,
                                m_isPaused := false,
                                m_threadPool := q.m_threadPool.clear } := by
    refine ⟨?_, h.nodup, h.fresh, h.processing⟩
    rcases h.pool with hp | hp
    · exact Or.inl hp
    · exact Or.inr ⟨rfl, rfl, hp.2.2.1, hp.2.2.2⟩
  have h2 := QueueInv.inv_drain now
    (2 * (q.m_threadPool.clear).activeThreadCount) results h1
  simp only
  generalize JobQueue.drain _ now results _ = q2 at h2
  have hid : ∀ j : Job, (if j.m_status = JobStatus.Processing then
      j.setStatus JobStatus.Cancelled now else j).m_id = j.m_id := by
    intro j
    split_ifs
    · exact (Job.setStatus_fields _ _ _).1
    · rfl
  have hmap : (q2.m_jobs.map (fun job => if job.m_status = JobStatus.Processing then
      job.setStatus JobStatus.Cancelled now else job)).map Job.m_id = q2.m_jobs.map Job.m_id := by
    rw [List.map_map]
    apply List.map_congr_left
    intro j _
    exact hid j
  refine ⟨?_, ?_, ?_, ?_⟩
  · rcases h2.pool with hp | hp
    · exact Or.inl hp
    · exact Or.inr hp
  · show ((q2.m_jobs.map _).map Job.m_id).Nodup
    rw [hmap]
    exact h2.nodup
  · intro j hj
    obtain ⟨j0, hj0, he⟩ := List.mem_map.mp hj
    rw [← he, hid]
    exact h2.fresh j0 hj0
  · intro j hj hst
    obtain ⟨j0, hj0, he⟩ := List.mem_map.mp hj
    by_cases hp : j0.m_status = JobStatus.Processing
    · rw [← he, if_pos hp, (Job.setStatus_fields _ _ _).2.2.1] at hst
      cases hst
    · rw [← he, if_neg hp] at hst
      exact absurd hst hp

theorem QueueInv.inv_step {K : Nat} {q : JobQueue} (h : QueueInv K q) (now : Int) (e : Event)
    (he : e.readsThreadCount K = true) : QueueInv K (q.step now e) := by
  cases e with
  | addJob filePath inputSize settings => exact h.inv_addJob _ _ _
  | start threadCount =>
    have : threadCount = K := by simpa [Event.readsThreadCount] using he
    subst this
    exact h.inv_start
  | pause => exact h.inv_pause
  | resume => exact h.inv_resume
  | stopAll results => exact h.inv_stopAll _ _
  | cancel jobId => exact h.inv_cancel _ _
  | workerStart i => exact h.inv_workerStart _ _
  | workerProgress i progress => exact h.inv_workerProgress _ _
  | workerFinish i result => exact h.inv_workerFinish _ _
  | deliver => exact h.inv_deliver _

theorem QueueInv.inv_exec {K : Nat} (trace : List (Int × Event)) :
    ∀ {q : JobQueue}, QueueInv K q → (∀ te ∈ trace, te.2.readsThreadCount K = true) →
      QueueInv K (q.exec trace) := by
  induction trace with
  | nil => intro q h _; exact h
  | cons te rest ih =>
    intro q h hall
    obtain ⟨now, e⟩ := te
    exact ih (h.inv_step now e (hall (now, e) (List.mem_cons_self _ _)))
      (fun te hte => hall te (List.mem_cons_of_mem _ hte))

theorem QueueInv.inv_init (K : Nat) : QueueInv K {} :=
  ⟨Or.inr ⟨rfl, rfl, rfl, rfl⟩, List.nodup_nil, by simp, by simp⟩

theorem postedCompletions_eq (q : JobQueue) :
    q.postedCompletions = q.postedFinishedIds.length := by
  unfold JobQueue.postedCompletions JobQueue.postedFinishedIds
  induction q.posted with
  | nil => rfl
  | cons c rest ih =>
    cases c with
    | progress id p =>
      rw [List.countP_cons_of_neg _ _ (by simp [QueuedCall.isProgress]),
        List.filterMap_cons_none rfl]
      exact ih
    | finished id s e =>
      have hsome : QueuedCall.finishedId (QueuedCall.finished id s e) = some id := rfl
      rw [List.countP_cons_of_pos _ _ (by simp [QueuedCall.isProgress]),
        List.filterMap_cons_some hsome, List.length_cons, ih]

theorem QueueInv.processing_le {K : Nat} {q : JobQueue} (h : QueueInv K q) :
    q.processingCount ≤ q.m_threadPool.running.length + q.postedCompletions := by
  rw [postedCompletions_eq, ← List.length_append]
  unfold JobQueue.processingCount
  rw [List.countP_eq_length_filter, ← List.length_map _ Job.m_id]
  apply List.Subperm.length_le
  apply List.Nodup.subperm
  · exact (h.nodup.sublist (List.Sublist.map _ (List.filter_sublist _)))
  · intro a ha
    obtain ⟨j, hj, hja⟩ := List.mem_map.mp ha
    rw [List.mem_filter] at hj
    rw [← hja, List.mem_append]
    exact h.processing j hj.1 (by simpa using hj.2)

theorem QueueInv.running_le {K : Nat} {q : JobQueue} (h : QueueInv K q) :
    q.m_threadPool.running.length ≤ K := by
  rcases h.pool with hp | hp
  · have := hp.2
    unfold QThreadPool.activeThreadCount at this
    omega
  · rw [hp.2.2.2]
    exact Nat.zero_le _

/-! ## Claims about runs of the queue -/

/-- C8: a batch of paths with ASCII extensions is submitted to a new queue
and started with pool size `K ≥ 1`, and only the workers and the event loop
act afterwards, every strategy succeeding. Whenever all-jobs-complete has
been signalled, the statistics are: total = number of submitted paths,
completed = number of paths with an image or video extension, failed =
number of paths with any other extension, pending = 0 and processing = 0.
For a non-empty batch there is such a run in which all-jobs-complete is
signalled. The source format of every job of the batch is ASCII, so the
extensions are compared as the program compares them. -/
theorem C8_batch_statistics (files : List (QString × Int)) (settings : Settings) (K : Nat)
    (hK : 1 ≤ K) (hascii : ∀ f ∈ files, (QFileInfo.suffix f.1).isAscii = true) :
    (∀ (trace : List (Int × Event)) (now : Int),
      (∀ te ∈ trace, te.2.isWorkerEvent = true ∧ te.2.strategySucceeds = true) →
      Signal.allJobsCompleted ∈ ((JobQueue.startedBatch files settings K).exec trace).emitted →
      (((JobQueue.startedBatch files settings K).exec trace).statistics now).total =
        files.length ∧
      (((JobQueue.startedBatch files settings K).exec trace).statistics now).completed =
        files.countP (fun f => (QFileInfo.suffix f.1).toLower ∈ imageExts ∨
          (QFileInfo.suffix f.1).toLower ∈ videoExts) ∧
      (((JobQueue.startedBatch files settings K).exec trace).statistics now).failed =
        files.countP (fun f => ¬ ((QFileInfo.suffix f.1).toLower ∈ imageExts ∨
          (QFileInfo.suffix f.1).toLower ∈ videoExts)) ∧
      (((JobQueue.startedBatch files settings K).exec trace).statistics now).pending = 0 ∧
      (((JobQueue.startedBatch files settings K).exec trace).statistics now).processing = 0) ∧
    (files ≠ [] →
      ∃ trace : List (Int × Event),
        (∀ te ∈ trace, te.2.isWorkerEvent = true ∧ te.2.strategySucceeds = true) ∧
        Signal.allJobsCompleted ∈
          ((JobQueue.startedBatch files settings K).exec trace).emitted) ∧
    (∀ job ∈ (JobQueue.startedBatch files settings K).m_jobs,
      job.m_inputFormat.isAscii = true) := by
  refine ⟨?_, ?_, ?_⟩
  · intro trace now hall hsig
    cases files with
    | nil =>
      rw [startedBatch_nil, idle_exec_eq _ trace rfl rfl rfl (fun te hte => (hall te hte).1)]
        at hsig
      simp at hsig
    | cons file rest =>
      have h0 : RunInv true (batchSig settings (file :: rest))
          (JobQueue.startedBatch (file :: rest) settings K) :=
        Or.inl ⟨_, startedBatch_phase true settings file rest K hK⟩
      have h1 := RunInv.run_exec trace h0 (fun te hte => ⟨(hall te hte).1, fun _ => (hall te hte).2⟩)
      have h2 := (h1.done_of_signal hsig).done_statistics now
      have h3 := batchSig_counts settings (file :: rest)
      refine ⟨?_, ?_, ?_, h2.2.2.2.1, h2.2.2.2.2⟩
      · rw [h2.1, h3.1]
      · rw [h2.2.1, h3.2.1]
      · rw [h2.2.2.1, h3.2.2]
  · intro hne
    cases files with
    | nil => exact absurd rfl hne
    | cons file rest =>
      refine ⟨successRun (rest.length + 1), successRun_allowed _, ?_⟩
      exact (successRun_done rest.length _
        (startedBatch_phase true settings file rest K hK)).2.2.1
  · intro job hjob
    rw [startedBatch_jobs] at hjob
    obtain ⟨f, hf, id, hid⟩ := newJobs_origin settings files 0 job hjob
    rw [hid, Job.new_inputFormat]
    exact QString.toUpper_isAscii _ (hascii f hf)

/-- C8, witness: three image paths and one path with an unsupported
extension, all four extensions ASCII, pool size 2: there is a run of the
workers that signals all-jobs-complete, and its statistics are total 4,
completed 3, failed 1, pending 0, processing 0. -/
theorem C8_batch_statistics_witness :
    1 ≤ 2 ∧
    (∀ f ∈ [("/d/a.png".toList, (10 : Int)), ("/d/b.jpg".toList, 20), ("/d/c.txt".toList, 5),
        ("/d/d.gif".toList, 7)], (QFileInfo.suffix f.1).isAscii = true) ∧
    ∃ trace : List (Int × Event),
      (∀ te ∈ trace, te.2.isWorkerEvent = true ∧ te.2.strategySucceeds = true) ∧
      Signal.allJobsCompleted ∈
        ((JobQueue.startedBatch
          [("/d/a.png".toList, 10), ("/d/b.jpg".toList, 20), ("/d/c.txt".toList, 5),
           ("/d/d.gif".toList, 7)]
          (Settings.mk [] false 2 "keep".toList "mp4".toList) 2).exec trace).emitted ∧
      (((JobQueue.startedBatch
          [("/d/a.png".toList, 10), ("/d/b.jpg".toList, 20), ("/d/c.txt".toList, 5),
           ("/d/d.gif".toList, 7)]
          (Settings.mk [] false 2 "keep".toList "mp4".toList) 2).exec trace).statistics 0).total
        = 4 ∧
      (((JobQueue.startedBatch
          [("/d/a.png".toList, 10), ("/d/b.jpg".toList, 20), ("/d/c.txt".toList, 5),
           ("/d/d.gif".toList, 7)]
          (Settings.mk [] false 2 "keep".toList "mp4".toList) 2).exec trace).statistics 0).completed
        = 3 ∧
      (((JobQueue.startedBatch
          [("/d/a.png".toList, 10), ("/d/b.jpg".toList, 20), ("/d/c.txt".toList, 5),
           ("/d/d.gif".toList, 7)]
          (Settings.mk [] false 2 "keep".toList "mp4".toList) 2).exec trace).statistics 0).failed
        = 1 ∧
      (((JobQueue.startedBatch
          [("/d/a.png".toList, 10), ("/d/b.jpg".toList, 20), ("/d/c.txt".toList, 5),
           ("/d/d.gif".toList, 7)]
          (Settings.mk [] false 2 "keep".toList "mp4".toList) 2).exec trace).statistics 0).pending
        = 0 ∧
      (((JobQueue.startedBatch
          [("/d/a.png".toList, 10), ("/d/b.jpg".toList, 20), ("/d/c.txt".toList, 5),
           ("/d/d.gif".toList, 7)]
          (Settings.mk [] false 2 "keep".toList "mp4".toList) 2).exec trace).statistics 0).processing
        = 0 := by
  refine ⟨by decide, by decide, ?_⟩
  have h := C8_batch_statistics
    [("/d/a.png".toList, 10), ("/d/b.jpg".toList, 20), ("/d/c.txt".toList, 5),
     ("/d/d.gif".toList, 7)]
    (Settings.mk [] false 2 "keep".toList "mp4".toList) 2 (by decide) (by decide)
  obtain ⟨trace, hall, hsig⟩ := h.2.1 (by simp)
  have hs := h.1 trace 0 hall hsig
  refine ⟨trace, hall, hsig, hs.1, ?_, ?_, hs.2.2.2.1, hs.2.2.2.2⟩
  · rw [hs.2.1]; decide
  · rw [hs.2.2.1]; decide

/-- C9 as stated fails: with pool size 1, after the run `lingeringRun` two
jobs have status Processing, one whose worker is inside `run()` and one whose
worker has returned and whose completion is posted but not yet recorded. -/
theorem C9_counterexample :
    (∀ te ∈ lingeringRun, te.2.readsThreadCount 1 = true) ∧
    (JobQueue.exec {} lingeringRun).m_threadPool.maxThreadCount = 1 ∧
    (JobQueue.exec {} lingeringRun).processingCount = 2 ∧
    ¬ ((JobQueue.exec {} lingeringRun).processingCount ≤ 1) := by
  refine ⟨?_, by decide, by decide, by decide⟩
  simp [lingeringRun, Event.readsThreadCount]

/-- C9, amended: in every execution of a new queue in which every `start`
reads the pool size `K`, at no instant are more than `K` jobs inside a
worker's `run()`, and the number of jobs whose status is Processing is at
most the number of jobs inside `run()` plus the number of completions that
are posted and not yet recorded. -/
theorem C9_concurrency_bound (K : Nat) (trace : List (Int × Event))
    (h : ∀ te ∈ trace, te.2.readsThreadCount K = true) :
    (JobQueue.exec {} trace).m_threadPool.running.length ≤ K ∧
    (JobQueue.exec {} trace).processingCount ≤
      (JobQueue.exec {} trace).m_threadPool.running.length +
        (JobQueue.exec {} trace).postedCompletions := by
  have hinv := QueueInv.inv_exec trace (QueueInv.inv_init K) h
  exact ⟨hinv.running_le, hinv.processing_le⟩

/-- C9, witness: the run `lingeringRun` with pool size 1. -/
theorem C9_concurrency_bound_witness :
    (∀ te ∈ lingeringRun, te.2.readsThreadCount 1 = true) ∧
    (JobQueue.exec {} lingeringRun).m_threadPool.running.length ≤ 1 ∧
    (JobQueue.exec {} lingeringRun).processingCount ≤
      (JobQueue.exec {} lingeringRun).m_threadPool.running.length +
        (JobQueue.exec {} lingeringRun).postedCompletions :=
  ⟨by simp [lingeringRun, Event.readsThreadCount],
   C9_concurrency_bound 1 lingeringRun (by simp [lingeringRun, Event.readsThreadCount])⟩

/-- C10: a dispatch pass either leaves the pool as it is or hands it the
earliest-inserted job whose status is Pending. Hence, for a batch submitted
to a new queue and started with pool size `K ≥ 1` (in particular 1), in every
run of the workers and the event loop, whatever the strategies' results, the
jobs whose `run()` has begun are, in order, an initial segment of the
submitted jobs in submission order; and there is a run in which all of them
begin. -/
theorem C10_dispatch_order :
    (∀ q : JobQueue,
      q.processNextJob.m_threadPool = q.m_threadPool ∨
      ∃ pre job post, q.m_jobs = pre ++ job :: post ∧
        (∀ j ∈ pre, j.m_status ≠ JobStatus.Pending) ∧
        job.m_status = JobStatus.Pending ∧
        q.processNextJob.m_threadPool = q.m_threadPool.start job.m_id ∧
        q.processNextJob.emitted = q.emitted ++ [Signal.jobStarted job.m_id]) ∧
    (∀ (files : List (QString × Int)) (settings : Settings) (K : Nat), 1 ≤ K →
      (JobQueue.startedBatch files settings K).m_jobs.map Job.m_inputPath =
        files.map Prod.fst ∧
      (JobQueue.startedBatch files settings K).m_jobs.map Job.m_id =
        List.range files.length ∧
      (∀ trace : List (Int × Event), (∀ te ∈ trace, te.2.isWorkerEvent = true) →
        ((JobQueue.startedBatch files settings K).exec trace).runLog <+:
          List.range files.length) ∧
      (∃ trace : List (Int × Event), (∀ te ∈ trace, te.2.isWorkerEvent = true) ∧
        ((JobQueue.startedBatch files settings K).exec trace).runLog =
          List.range files.length)) := by
  constructor
  · intro q
    unfold JobQueue.processNextJob
    split_ifs with h1
    · exact Or.inl rfl
    · cases hf : q.m_jobs.find? (fun job => decide (job.m_status = JobStatus.Pending)) with
      | none =>
        left
        simp only
        split_ifs <;> rfl
      | some job =>
        right
        obtain ⟨hp, pre, post, hjobs, hpre⟩ := List.find?_eq_some.mp hf
        refine ⟨pre, job, post, hjobs, ?_, by simpa using hp, rfl, rfl⟩
        intro j hj
        simpa using hpre j hj
  · intro files settings K hK
    have hids : (JobQueue.startedBatch files settings K).m_jobs.map Job.m_id =
        List.range files.length := by
      rw [startedBatch_jobs, newJobs_ids, List.range_eq_range']
    have hsigids : (batchSig settings files).map Prod.fst = List.range files.length := by
      unfold batchSig
      rw [List.map_map]
      have : (Prod.fst ∘ fun j : Job => (j.m_id, j.m_type)) = Job.m_id := rfl
      rw [this, newJobs_ids, List.range_eq_range']
    refine ⟨by rw [startedBatch_jobs, newJobs_paths], hids, ?_, ?_⟩
    · intro trace hall
      cases files with
      | nil =>
        rw [startedBatch_nil, idle_exec_eq _ trace rfl rfl rfl hall]
        exact List.nil_prefix
      | cons file rest =>
        have h0 : RunInv false (batchSig settings (file :: rest))
            (JobQueue.startedBatch (file :: rest) settings K) :=
          Or.inl ⟨_, startedBatch_phase false settings file rest K hK⟩
        have h1 := RunInv.run_exec trace h0
          (fun te hte => ⟨hall te hte, fun h => absurd h (by decide)⟩)
        have h2 := RunInv.runLog_initial h1
        rwa [hsigids] at h2
    · cases files with
      | nil =>
        exact ⟨[], by simp, by rw [startedBatch_nil]; rfl⟩
      | cons file rest =>
        refine ⟨successRun (rest.length + 1), fun te hte => (successRun_allowed _ te hte).1, ?_⟩
        have hd := successRun_done rest.length _
          (startedBatch_phase false settings file rest K hK)
        obtain ⟨hF, _, _, _, _, _, hlog⟩ := hd
        rw [hlog]
        have := hF.sig_eq
        have h3 : ((JobQueue.startedBatch (file :: rest) settings K).exec
            (successRun (rest.length + 1))).m_jobs.map Job.m_id =
            (batchSig settings (file :: rest)).map Prod.fst := by
          rw [← this, List.map_map]
          rfl
        rw [h3, hsigids]

/-- C10, witness: three jobs A, B, C submitted in this order, pool size 1:
some run of the workers begins all three, and it begins them in the order
A, B, C. -/
theorem C10_dispatch_order_witness :
    (1 ≤ 1) ∧
    (JobQueue.startedBatch
      [("/d/A.png".toList, 1), ("/d/B.mp4".toList, 2), ("/d/C.txt".toList, 3)]
      (Settings.mk [] false 1 "keep".toList "keep".toList) 1).m_jobs.map Job.m_inputPath =
      ["/d/A.png".toList, "/d/B.mp4".toList, "/d/C.txt".toList] ∧
    ∃ trace : List (Int × Event), (∀ te ∈ trace, te.2.isWorkerEvent = true) ∧
      ((JobQueue.startedBatch
        [("/d/A.png".toList, 1), ("/d/B.mp4".toList, 2), ("/d/C.txt".toList, 3)]
        (Settings.mk [] false 1 "keep".toList "keep".toList) 1).exec trace).runLog =
        [0, 1, 2] :=
  ⟨by decide,
   (C10_dispatch_order.2
      [("/d/A.png".toList, 1), ("/d/B.mp4".toList, 2), ("/d/C.txt".toList, 3)]
      (Settings.mk [] false 1 "keep".toList "keep".toList) 1 (by decide)).1,
   (C10_dispatch_order.2
      [("/d/A.png".toList, 1), ("/d/B.mp4".toList, 2), ("/d/C.txt".toList, 3)]
      (Settings.mk [] false 1 "keep".toList "keep".toList) 1 (by decide)).2.2.2⟩

/-! ## Claims about the control surface -/

theorem updateFirst_none (p : Job → Bool) (f : Job → Job) (l : List Job)
    (h : ∀ j ∈ l, p j = false) : updateFirst p f l = l := by
  induction l with
  | nil => rfl
  | cons a l ih =>
    have ha : p a = false := h a (List.mem_cons_self _ _)
    rw [updateFirst, if_neg (by simp [ha]), ih (fun j hj => h j (List.mem_cons_of_mem _ hj))]

/-- C11: `cancel(id)` changes nothing but the job collection; when no job
has the identifier the queue is unchanged; otherwise, with `job` the first
job carrying the identifier, a Pending `job` gets status Cancelled and the
current time as finishedAt, every other field and every other job staying
as they are, and a `job` in any other status leaves the whole queue
unchanged. -/
theorem C11_cancel_frame (q : JobQueue) (jobId : JobId) (now : Int) :
    ((∀ j ∈ q.m_jobs, j.m_id ≠ jobId) → q.cancel jobId now = q) ∧
    (∀ (pre : List Job) (job : Job) (post : List Job),
      q.m_jobs = pre ++ job :: post → (∀ j ∈ pre, j.m_id ≠ jobId) → job.m_id = jobId →
      (job.m_status = JobStatus.Pending →
        q.cancel jobId now =
          { q with m_jobs :=
            pre ++ { job with m_status := JobStatus.Cancelled, m_endTime := some now } :: post })
      ∧
      (job.m_status ≠ JobStatus.Pending → q.cancel jobId now = q)) ∧
    (q.cancel jobId now).m_isProcessing = q.m_isProcessing ∧
    (q.cancel jobId now).m_isPaused = q.m_isPaused ∧
    (q.cancel jobId now).m_threadPool = q.m_threadPool ∧
    (q.cancel jobId now).posted = q.posted ∧
    (q.cancel jobId now).emitted = q.emitted := by
  refine ⟨?_, ?_, rfl, rfl, rfl, rfl, rfl⟩
  · intro hno
    unfold JobQueue.cancel
    simp only
    rw [updateFirst_none _ _ _ (fun j hj => by simpa using hno j hj)]
  · intro pre job post hjobs hpre hid
    have hupd : ∀ f : Job → Job,
        updateFirst (fun job => decide (job.m_id = jobId)) f q.m_jobs = pre ++ f job :: post := by
      intro f
      rw [hjobs]
      exact updateFirst_append _ _ _ _ _ (fun j hj => by simpa using hpre j hj) (by simpa using hid)
    constructor
    · intro hp
      unfold JobQueue.cancel
      simp only [hupd, hp, if_true]
      rfl
    · intro hp
      unfold JobQueue.cancel
      simp only [hupd, hp, if_false]
      rw [← hjobs]

/-- C11, witness: of two jobs the second, Pending, is cancelled at time 7;
cancelling the first, Processing, changes nothing. -/
theorem C11_cancel_frame_witness :
    JobQueue.cancel
      { m_jobs := [{ m_id := 0, m_inputPath := [], m_status := JobStatus.Processing },
                   { m_id := 1, m_inputPath := [] }] } 1 7 =
      { m_jobs := [{ m_id := 0, m_inputPath := [], m_status := JobStatus.Processing },
                   { m_id := 1, m_inputPath := [], m_status := JobStatus.Cancelled,
                     m_endTime := some 7 }] } ∧
    JobQueue.cancel
      { m_jobs := [{ m_id := 0, m_inputPath := [], m_status := JobStatus.Processing },
                   { m_id := 1, m_inputPath := [] }] } 0 7 =
      { m_jobs := [{ m_id := 0, m_inputPath := [], m_status := JobStatus.Processing },
                   { m_id := 1, m_inputPath := [] }] } :=
  ⟨((C11_cancel_frame
      { m_jobs := [{ m_id := 0, m_inputPath := [], m_status := JobStatus.Processing },
                   { m_id := 1, m_inputPath := [] }] } 1 7).2.1
      [{ m_id := 0, m_inputPath := [], m_status := JobStatus.Processing }]
      { m_id := 1, m_inputPath := [] } [] rfl (by decide) rfl).1 rfl,
   ((C11_cancel_frame
      { m_jobs := [{ m_id := 0, m_inputPath := [], m_status := JobStatus.Processing },
                   { m_id := 1, m_inputPath := [] }] } 0 7).2.1
      [] { m_id := 0, m_inputPath := [], m_status := JobStatus.Processing }
      [{ m_id := 1, m_inputPath := [] }] rfl (by decide) rfl).2 (by decide)⟩

/-- C18: `setProgress(p)` stores 0 when `p < 0`, 100 when `p > 100` and `p`
otherwise, leaves every other field as it is, and the stored progress is
between 0 and 100. -/
theorem C18_setProgress_clamps (j : Job) (p : Int) :
    (j.setProgress p).m_progress = (if p < 0 then 0 else if 100 < p then 100 else p) ∧
    j.setProgress p = { j with m_progress := (j.setProgress p).m_progress } ∧
    0 ≤ (j.setProgress p).m_progress ∧ (j.setProgress p).m_progress ≤ 100 := by
  unfold Job.setProgress qBound
  refine ⟨rfl, rfl, ?_, ?_⟩
  · simp only
    split_ifs <;> omega
  · simp only
    split_ifs <;> omega

theorem processNextJob_paused (q : JobQueue) :
    q.processNextJob.m_isPaused = q.m_isPaused := by
  unfold JobQueue.processNextJob
  split_ifs
  · rfl
  · cases q.m_jobs.find? (fun job => decide (job.m_status = JobStatus.Pending)) with
    | none => simp only; split_ifs <;> rfl
    | some j => rfl

/-- The three outcomes of a dispatch pass on a queue that is Running and
not Paused. -/
theorem processNextJob_cases (q : JobQueue) (hp : q.m_isPaused = false)
    (hr : q.m_isProcessing = true) :
    (∀ (pre : List Job) (job : Job) (post : List Job), q.m_jobs = pre ++ job :: post →
      (∀ j ∈ pre, j.m_status ≠ JobStatus.Pending) → job.m_status = JobStatus.Pending →
      q.processNextJob =
        { q with emitted := q.emitted ++ [Signal.jobStarted job.m_id],
                 m_threadPool := q.m_threadPool.start job.m_id }) ∧
    ((∀ j ∈ q.m_jobs, j.m_status ≠ JobStatus.Pending) →
      (∀ j ∈ q.m_jobs, j.m_status ≠ JobStatus.Processing) →
      q.processNextJob =
        { q with m_isProcessing := false,
                 emitted := q.emitted ++ [Signal.allJobsCompleted] }) ∧
    ((∀ j ∈ q.m_jobs, j.m_status ≠ JobStatus.Pending) →
      (∃ j ∈ q.m_jobs, j.m_status = JobStatus.Processing) →
      q.processNextJob = q) := by
  have hnone : (∀ j ∈ q.m_jobs, j.m_status ≠ JobStatus.Pending) →
      q.m_jobs.find? (fun job => decide (job.m_status = JobStatus.Pending)) = none := by
    intro h
    exact find_none _ _ (fun j hj => by simpa using h j hj)
  refine ⟨?_, ?_, ?_⟩
  · intro pre job post hjobs hpre hjob
    have hfind : q.m_jobs.find? (fun job => decide (job.m_status = JobStatus.Pending)) =
        some job := by
      rw [hjobs]
      exact find_append _ _ _ _ (fun j hj => by simpa using hpre j hj) (by simpa using hjob)
    unfold JobQueue.processNextJob
    simp [hp, hr, hfind]
  · intro h1 h2
    have hall : q.m_jobs.all (fun job =>
        decide ¬ (job.m_status = JobStatus.Processing ∨ job.m_status = JobStatus.Pending))
        = true := by
      rw [List.all_eq_true]
      intro j hj
      simp [h1 j hj, h2 j hj]
    unfold JobQueue.processNextJob
    simp only [hp, hr, hnone h1, hall]
    simp
  · intro h1 h2
    have hall : q.m_jobs.all (fun job =>
        decide ¬ (job.m_status = JobStatus.Processing ∨ job.m_status = JobStatus.Pending))
        = false := by
      obtain ⟨j, hj, hs⟩ := h2
      rw [List.all_eq_false]
      exact ⟨j, hj, by simp [hs]⟩
    unfold JobQueue.processNextJob
    simp only [hp, hr, hnone h1, hall]
    simp

/-- C16: `start()` leaves the queue as it is when it is already Running or
has no job. Otherwise it is one dispatch pass on the queue with Running set,
Paused cleared and the pool bound read from the settings: it leaves the jobs
as they are and Paused cleared, and it hands the first Pending job, if there
is one, to the pool, the queue staying Running; when no job is Pending the
pool gets no runnable, and the pass ends the run at once if no job is
Processing either. -/
theorem C16_start (q : JobQueue) (K : Nat) :
    (q.m_isProcessing = true ∨ q.m_jobs = [] → q.start K = q) ∧
    (q.m_isProcessing = false → q.m_jobs ≠ [] →
      q.start K =
        JobQueue.processNextJob
          { q with m_isProcessing := true, m_isPaused := false, m_currentJobIndex := 0,
                   m_threadPool := q.m_threadPool.setMaxThreadCount K } ∧
      (q.start K).m_isPaused = false ∧
      (q.start K).m_jobs = q.m_jobs ∧
      (∀ (pre : List Job) (job : Job) (post : List Job), q.m_jobs = pre ++ job :: post →
        (∀ j ∈ pre, j.m_status ≠ JobStatus.Pending) → job.m_status = JobStatus.Pending →
        (q.start K).m_isProcessing = true ∧
        (q.start K).m_threadPool = (q.m_threadPool.setMaxThreadCount K).start job.m_id ∧
        (q.start K).emitted = q.emitted ++ [Signal.jobStarted job.m_id]) ∧
      ((∀ j ∈ q.m_jobs, j.m_status ≠ JobStatus.Pending) →
        (q.start K).m_threadPool = q.m_threadPool.setMaxThreadCount K ∧
        ((∃ j ∈ q.m_jobs, j.m_status = JobStatus.Processing) →
          (q.start K).m_isProcessing = true ∧ (q.start K).emitted = q.emitted) ∧
        ((∀ j ∈ q.m_jobs, j.m_status ≠ JobStatus.Processing) →
          (q.start K).m_isProcessing = false ∧
          (q.start K).emitted = q.emitted ++ [Signal.allJobsCompleted]))) := by
  constructor
  · intro h
    unfold JobQueue.start
    rcases h with h | h
    · simp [h]
    · simp [h]
  · intro hr hne
    have hempty : q.m_jobs.isEmpty = false := by
      cases hq : q.m_jobs with
      | nil => exact absurd hq hne
      | cons a l => rfl
    have hstart : q.start K =
        JobQueue.processNextJob
          { q with m_isProcessing := true, m_isPaused := false, m_currentJobIndex := 0,
                   m_threadPool := q.m_threadPool.setMaxThreadCount K } := by
      unfold JobQueue.start
      simp [hr, hempty]
    have hc := processNextJob_cases
      { q with m_isProcessing := true, m_isPaused := false, m_currentJobIndex := 0,
               m_threadPool := q.m_threadPool.setMaxThreadCount K } rfl rfl
    refine ⟨hstart, ?_, ?_, ?_, ?_⟩
    · rw [hstart, processNextJob_paused]
    · rw [hstart, processNextJob_jobs]
    · intro pre job post hjobs hpre hjob
      rw [hstart, hc.1 pre job post hjobs hpre hjob]
      exact ⟨rfl, rfl, rfl⟩
    · intro hnp
      refine ⟨?_, ?_, ?_⟩
      · by_cases hex : ∃ j ∈ q.m_jobs, j.m_status = JobStatus.Processing
        · rw [hstart, hc.2.2 hnp hex]
        · have hnone : ∀ j ∈ q.m_jobs, j.m_status ≠ JobStatus.Processing :=
            fun j hj hs => hex ⟨j, hj, hs⟩
          rw [hstart, hc.2.1 hnp hnone]
      · intro hex
        rw [hstart, hc.2.2 hnp hex]
        exact ⟨rfl, rfl⟩
      · intro hnone
        rw [hstart, hc.2.1 hnp hnone]
        exact ⟨rfl, rfl⟩

/-- C16, witness: started with pool size 2, an idle queue whose first job is
Completed and whose second job is Pending hands the second job to the pool;
a queue that is already Running is left as it is. -/
theorem C16_start_witness :
    (JobQueue.start
      { m_jobs := [{ m_id := 0, m_inputPath := [], m_status := JobStatus.Completed },
                   { m_id := 1, m_inputPath := [] }],
        m_isPaused := true } 2).m_threadPool =
      { maxThreadCount := 2, starting := [1] } ∧
    (JobQueue.start
      { m_jobs := [{ m_id := 0, m_inputPath := [], m_status := JobStatus.Completed },
                   { m_id := 1, m_inputPath := [] }],
        m_isPaused := true } 2).m_isProcessing = true ∧
    JobQueue.start { m_jobs := [{ m_id := 0, m_inputPath := [] }], m_isProcessing := true } 2 =
      { m_jobs := [{ m_id := 0, m_inputPath := [] }], m_isProcessing := true } :=
  ⟨(((C16_start
      { m_jobs := [{ m_id := 0, m_inputPath := [], m_status := JobStatus.Completed },
                   { m_id := 1, m_inputPath := [] }],
        m_isPaused := true } 2).2 rfl (by decide)).2.2.2.1
      [{ m_id := 0, m_inputPath := [], m_status := JobStatus.Completed }]
      { m_id := 1, m_inputPath := [] } [] rfl (by decide) rfl).2.1,
   (((C16_start
      { m_jobs := [{ m_id := 0, m_inputPath := [], m_status := JobStatus.Completed },
                   { m_id := 1, m_inputPath := [] }],
        m_isPaused := true } 2).2 rfl (by decide)).2.2.2.1
      [{ m_id := 0, m_inputPath := [], m_status := JobStatus.Completed }]
      { m_id := 1, m_inputPath := [] } [] rfl (by decide) rfl).1,
   (C16_start { m_jobs := [{ m_id := 0, m_inputPath := [] }], m_isProcessing := true } 2).1
      (Or.inl rfl)⟩

/-- C17: `pause()` sets the Paused flag and changes nothing else; a dispatch
pass on a queue that is Paused or not Running returns the queue unchanged;
`resume()` is one dispatch pass on the queue with the Paused flag cleared,
and the flag is clear afterwards. -/
theorem C17_pause_resume (q : JobQueue) :
    q.pause = { q with m_isPaused := true } ∧
    q.pause.m_isPaused = true ∧
    q.pause.m_isProcessing = q.m_isProcessing ∧
    q.pause.m_jobs = q.m_jobs ∧
    q.pause.m_threadPool = q.m_threadPool ∧
    q.pause.posted = q.posted ∧
    q.pause.emitted = q.emitted ∧
    (q.m_isPaused = true ∨ q.m_isProcessing = false → q.processNextJob = q) ∧
    q.resume = JobQueue.processNextJob { q with m_isPaused := false } ∧
    q.resume.m_isPaused = false := by
  refine ⟨rfl, rfl, rfl, rfl, rfl, rfl, rfl, ?_, rfl, ?_⟩
  · intro h
    unfold JobQueue.processNextJob
    rcases h with h | h
    · simp [h]
    · simp [h]
  · unfold JobQueue.resume
    rw [processNextJob_paused]

/-- C17, witness: a dispatch pass on a paused running queue with a Pending
job admits nothing. -/
theorem C17_pause_resume_witness :
    JobQueue.processNextJob
      { m_jobs := [{ m_id := 0, m_inputPath := [] }], m_isProcessing := true,
        m_isPaused := true } =
      { m_jobs := [{ m_id := 0, m_inputPath := [] }], m_isProcessing := true,
        m_isPaused := true } :=
  (C17_pause_resume
      { m_jobs := [{ m_id := 0, m_inputPath := [] }], m_isProcessing := true,
        m_isPaused := true }).2.2.2.2.2.2.2.1 (Or.inl rfl)

theorem updateFirst_fixed (p : Job → Bool) (f : Job → Job) (l : List Job) (x : Job)
    (hfind : l.find? p = some x) (hx : f x = x) : updateFirst p f l = l := by
  obtain ⟨hp, pre, post, hl, hpre⟩ := List.find?_eq_some.mp hfind
  rw [hl, updateFirst_append p f pre x post (fun j hj => by simpa using hpre j hj) hp, hx]

/-- C19: for a job of category Unknown the `try` block of `JobRunner::run`
ignores the strategies (whatever they would return), leaves the job as it
is and reports failure with the text "Unsupported file type"; the worker
that ends its run posts exactly that completion and changes no job; and
recording the completion turns this job, and no other, into a Failed job
with that text as error detail and the current time as finishedAt, leaves the
flags and the pool as they are, and goes on with the usual dispatch pass. -/
theorem C19_unknown_type (job : Job) (h : job.m_type = JobType.Unknown) :
    (∀ result : StrategyResult,
      JobRunner.process job result = (job, false, "Unsupported file type".toList)) ∧
    (∀ (q : JobQueue) (i : Nat) (result : StrategyResult) (pool : QThreadPool),
      q.m_threadPool.endRun i = some (job.m_id, pool) →
      q.m_jobs.find? (fun j => decide (j.m_id = job.m_id)) = some job →
      q.workerFinish i result =
        { q with m_threadPool := pool,
                 posted := q.posted ++
                   [QueuedCall.finished job.m_id false "Unsupported file type".toList] }) ∧
    (∀ (q : JobQueue) (pre post : List Job) (now : Int),
      q.m_jobs = pre ++ job :: post → (∀ j ∈ pre, j.m_id ≠ job.m_id) →
      q.onJobFinished job.m_id false "Unsupported file type".toList now =
        JobQueue.processNextJob
          { q with
            m_jobs := pre ++ { job with m_errorMessage := "Unsupported file type".toList,
                                        m_status := JobStatus.Failed,
                                        m_endTime := some now } :: post,
            emitted := q.emitted ++
              [Signal.jobFailed job.m_id "Unsupported file type".toList,
               Signal.progressChanged (JobQueue.totalProgress
                 { q with
                   m_jobs := pre ++ { job with m_errorMessage := "Unsupported file type".toList,
                                               m_status := JobStatus.Failed,
                                               m_endTime := some now } :: post })] }) := by
  have hproc : ∀ result : StrategyResult,
      JobRunner.process job result = (job, false, "Unsupported file type".toList) := by
    intro result
    unfold JobRunner.process
    simp [h]
  refine ⟨hproc, ?_, ?_⟩
  · intro q i result pool hend hfind
    unfold JobQueue.workerFinish
    simp only [hend, hfind, hproc]
    rw [updateFirst_fixed _ _ _ job hfind (by rw [hproc])]
  · intro q pre post now hjobs hpre
    have hupd : ∀ f : Job → Job,
        updateFirst (fun j => decide (j.m_id = job.m_id)) f q.m_jobs = pre ++ f job :: post := by
      intro f
      rw [hjobs]
      exact updateFirst_append _ _ _ _ _ (fun j hj => by simpa using hpre j hj) (by simp)
    unfold JobQueue.onJobFinished
    simp only [hupd, Bool.false_eq_true, if_false, Job.setError, JobQueue.totalProgress,
      List.append_assoc, List.singleton_append]

/-- C19, witness: a worker's run of `notes.txt` with a strategy result that
is never looked at. -/
theorem C19_unknown_type_witness :
    (Job.new 0 "/d/notes.txt".toList 3
      (Settings.mk [] false 2 "keep".toList "keep".toList)).m_type = JobType.Unknown ∧
    JobRunner.process
      (Job.new 0 "/d/notes.txt".toList 3 (Settings.mk [] false 2 "keep".toList "keep".toList))
      (StrategyResult.success 5) =
      (Job.new 0 "/d/notes.txt".toList 3 (Settings.mk [] false 2 "keep".toList "keep".toList),
        false, "Unsupported file type".toList) :=
  ⟨by decide,
   (C19_unknown_type
      (Job.new 0 "/d/notes.txt".toList 3 (Settings.mk [] false 2 "keep".toList "keep".toList))
      (by decide)).1 (StrategyResult.success 5)⟩

/-! ## Properties of single jobs along executions -/

theorem updateFirst_forall (P : Job → Prop) (p : Job → Bool) (f : Job → Job) (l : List Job)
    (hf : ∀ j, P j → P (f j)) (h : ∀ j ∈ l, P j) : ∀ j ∈ updateFirst p f l, P j := by
  intro j hj
  rcases updateFirst_mem p f l j hj with h1 | ⟨j0, hj0, _, hjf⟩
  · exact h j h1
  · rw [hjf]
    exact hf j0 (h j0 hj0)

theorem JobwiseInv.jobs_addJob {P : Job → Prop} (hP : JobwiseInv P) (q : JobQueue)
    (filePath : QString) (inputSize : Int) (settings : Settings)
    (h : ∀ j ∈ q.m_jobs, P j) : ∀ j ∈ (q.addJob filePath inputSize settings).m_jobs, P j := by
  intro j hj
  unfold JobQueue.addJob at hj
  simp only [List.mem_append, List.mem_singleton] at hj
  rcases hj with hj | hj
  · exact h j hj
  · rw [hj]
    exact hP.created _ _ _ _

theorem JobwiseInv.jobs_cancel {P : Job → Prop} (hP : JobwiseInv P) (q : JobQueue)
    (jobId : JobId) (now : Int)
    (h : ∀ j ∈ q.m_jobs, P j) : ∀ j ∈ (q.cancel jobId now).m_jobs, P j := by
  unfold JobQueue.cancel
  apply updateFirst_forall P _ _ _ _ h
  intro j hj
  split_ifs with hs
  · exact hP.cancelled j now hj hs
  · exact hj

theorem JobwiseInv.jobs_workerStart {P : Job → Prop} (hP : JobwiseInv P) (q : JobQueue)
    (i : Nat) (now : Int)
    (h : ∀ j ∈ q.m_jobs, P j) : ∀ j ∈ (q.workerStart i now).m_jobs, P j := by
  unfold JobQueue.workerStart
  cases q.m_threadPool.beginRun i with
  | none => exact h
  | some rp =>
    exact updateFirst_forall P _ _ _ (fun j hj => hP.begun j now hj) h

theorem JobwiseInv.jobs_workerFinish {P : Job → Prop} (hP : JobwiseInv P) (q : JobQueue)
    (i : Nat) (result : StrategyResult)
    (h : ∀ j ∈ q.m_jobs, P j) : ∀ j ∈ (q.workerFinish i result).m_jobs, P j := by
  unfold JobQueue.workerFinish
  cases q.m_threadPool.endRun i with
  | none => exact h
  | some rp =>
    simp only
    cases q.m_jobs.find? (fun job => decide (job.m_id = rp.1)) with
    | none => exact h
    | some job =>
      exact updateFirst_forall P _ _ _ (fun j hj => hP.processed j result hj) h

theorem JobwiseInv.jobs_onJobFinished {P : Job → Prop} (hP : JobwiseInv P) (q : JobQueue)
    (jobId : JobId) (success : Bool) (error : QString) (now : Int)
    (h : ∀ j ∈ q.m_jobs, P j) :
    ∀ j ∈ (q.onJobFinished jobId success error now).m_jobs, P j := by
  unfold JobQueue.onJobFinished
  simp only
  rw [processNextJob_jobs]
  apply updateFirst_forall P _ _ _ _ h
  intro j hj
  cases success
  · exact hP.failed j error now hj
  · exact hP.completed j now hj

theorem JobwiseInv.jobs_deliver {P : Job → Prop} (hP : JobwiseInv P) (q : JobQueue)
    (now : Int)
    (h : ∀ j ∈ q.m_jobs, P j) : ∀ j ∈ (q.deliver now).m_jobs, P j := by
  unfold JobQueue.deliver
  cases hp : q.posted with
  | nil => exact h
  | cons c rest =>
    cases c with
    | progress jobId progress => exact h
    | finished jobId success error =>
      exact hP.jobs_onJobFinished _ jobId success error now h

theorem JobwiseInv.jobs_drain {P : Job → Prop} (hP : JobwiseInv P) (now : Int) (fuel : Nat) :
    ∀ (results : List StrategyResult) (q : JobQueue), (∀ j ∈ q.m_jobs, P j) →
      ∀ j ∈ (q.drain now results fuel).m_jobs, P j := by
  induction fuel with
  | zero => intro results q h; exact h
  | succ fuel ih =>
    intro results q h
    unfold JobQueue.drain
    cases hs : q.m_threadPool.starting with
    | cons a l => exact ih _ _ (hP.jobs_workerStart q 0 now h)
    | nil =>
      cases hr : q.m_threadPool.running with
      | cons a l => exact ih _ _ (hP.jobs_workerFinish q 0 _ h)
      | nil => exact h

theorem JobwiseInv.jobs_stopAll {P : Job → Prop} (hP : JobwiseInv P) (q : JobQueue)
    (results : List StrategyResult) (now : Int)
    (h : ∀ j ∈ q.m_jobs, P j) : ∀ j ∈ (q.stopAll results now).m_jobs, P j := by
  unfold JobQueue.stopAll
  simp only
  intro j hj
  obtain ⟨j0, hj0, he⟩ := List.mem_map.mp hj
  have h0 : P j0 := by
    refine hP.jobs_drain now _ results _ ?_ j0 hj0
    exact h
  rw [← he]
  split_ifs with hs
  · exact hP.stopped j0 now h0 hs
  · exact h0

theorem JobwiseInv.jobs_step {P : Job → Prop} (hP : JobwiseInv P) (q : JobQueue)
    (now : Int) (e : Event)
    (h : ∀ j ∈ q.m_jobs, P j) : ∀ j ∈ (q.step now e).m_jobs, P j := by
  cases e with
  | addJob filePath inputSize settings => exact hP.jobs_addJob q _ _ _ h
  | start threadCount =>
    show ∀ j ∈ (q.start threadCount).m_jobs, P j
    rw [start_jobs]; exact h
  | pause => exact h
  | resume =>
    show ∀ j ∈ (q.resume).m_jobs, P j
    unfold JobQueue.resume
    rw [processNextJob_jobs]; exact h
  | stopAll results => exact hP.jobs_stopAll q _ _ h
  | cancel jobId => exact hP.jobs_cancel q _ _ h
  | workerStart i => exact hP.jobs_workerStart q _ _ h
  | workerProgress i progress =>
    show ∀ j ∈ (q.workerProgress i progress).m_jobs, P j
    unfold JobQueue.workerProgress
    cases q.m_threadPool.running.get? i with
    | none => exact h
    | some r => exact h
  | workerFinish i result => exact hP.jobs_workerFinish q _ _ h
  | deliver => exact hP.jobs_deliver q _ h

theorem JobwiseInv.jobs_exec {P : Job → Prop} (hP : JobwiseInv P)
    (trace : List (Int × Event)) :
    ∀ q : JobQueue, (∀ j ∈ q.m_jobs, P j) → ∀ j ∈ (q.exec trace).m_jobs, P j := by
  induction trace with
  | nil => intro q h; exact h
  | cons te rest ih =>
    intro q h
    obtain ⟨now, e⟩ := te
    exact ih _ (hP.jobs_step q now e h)

/-- C15: in every state a new queue reaches through its operations and the
worker events, every job whose status is Completed has progress 100 and a
finishedAt. -/
theorem C15_completed_progress (trace : List (Int × Event)) :
    ∀ j ∈ (JobQueue.exec {} trace).m_jobs,
      j.m_status = JobStatus.Completed → j.m_progress = 100 ∧ j.m_endTime.isSome = true := by
  have hP : JobwiseInv (fun j : Job =>
      j.m_status = JobStatus.Completed → j.m_progress = 100 ∧ j.m_endTime.isSome = true) := by
    refine ⟨?_, ?_, ?_, ?_, ?_, ?_, ?_⟩
    · intro id path size settings hs
      rw [Job.new_status] at hs
      cases hs
    · intro j now _ hs
      rw [(Job.setStatus_fields _ _ _).2.2.1] at hs
      cases hs
    · intro j now _ _ hs
      rw [(Job.setStatus_fields _ _ _).2.2.1] at hs
      cases hs
    · intro j now _ _ hs
      rw [(Job.setStatus_fields _ _ _).2.2.1] at hs
      cases hs
    · intro j now _ _
      simp [Job.setProgress, Job.setStatus, qBound]
    · intro j error now _ hs
      simp [Job.setError] at hs
    · intro j result hj hs
      have hf := JobRunner.process_fields j result
      have ht : (JobRunner.process j result).1.m_endTime = j.m_endTime := by
        unfold JobRunner.process
        split_ifs <;> cases result <;> rfl
      rw [hf.2.2.1] at hs
      rw [hf.2.2.2, ht]
      exact hj hs
  exact hP.jobs_exec trace {} (fun j hj => by cases hj)

/-- C15, witness: after a job has run to a recorded success it is Completed
with progress 100 and a finishedAt. -/
theorem C15_completed_progress_witness :
    (JobQueue.exec {}
      ((0, Event.addJob "/d/a.png".toList 10
          (Settings.mk [] false 1 "keep".toList "keep".toList)) ::
        (1, Event.start 1) :: workerCycle (StrategyResult.success 4))).m_jobs.map
      (fun j => (j.m_status, j.m_progress, j.m_endTime)) =
      [(JobStatus.Completed, 100, some 0)] ∧
    ∀ j ∈ (JobQueue.exec {}
      ((0, Event.addJob "/d/a.png".toList 10
          (Settings.mk [] false 1 "keep".toList "keep".toList)) ::
        (1, Event.start 1) :: workerCycle (StrategyResult.success 4))).m_jobs,
      j.m_status = JobStatus.Completed → j.m_progress = 100 ∧ j.m_endTime.isSome = true :=
  ⟨by decide, C15_completed_progress _⟩

/-! ## The wait of `stopAll` -/

theorem DrainRel.refl (held : JobId → Prop) (j : Job) : DrainRel held j j :=
  ⟨rfl, fun h => h, fun _ => rfl⟩

theorem DrainRel.trans {held : JobId → Prop} {a b c : Job} (h1 : DrainRel held a b)
    (h2 : DrainRel held b c) : DrainRel held a c := by
  refine ⟨h2.1.trans h1.1, fun h => h2.2.1 (h1.2.1 h), fun hn => ?_⟩
  have hb : b = a := h1.2.2 hn
  rw [hb] at h2
  exact h2.2.2 hn

theorem forall₂_chain {R : Job → Job → Prop}
    (htrans : ∀ a b c, R a b → R b c → R a c) :
    ∀ {l1 l2 l3 : List Job}, List.Forall₂ R l1 l2 → List.Forall₂ R l2 l3 →
      List.Forall₂ R l1 l3 := by
  intro l1 l2 l3 h12
  induction h12 generalizing l3 with
  | nil => intro h; cases h; exact List.Forall₂.nil
  | cons hab _ ih =>
    intro h
    cases h with
    | cons hbc hrest => exact List.Forall₂.cons (htrans _ _ _ hab hbc) (ih hrest)

theorem drainRel_chain (held : JobId → Prop) {l1 l2 l3 : List Job}
    (h12 : List.Forall₂ (DrainRel held) l1 l2) (h23 : List.Forall₂ (DrainRel held) l2 l3) :
    List.Forall₂ (DrainRel held) l1 l3 :=
  @forall₂_chain (DrainRel held) (fun _ _ _ h1 h2 => DrainRel.trans h1 h2) l1 l2 l3 h12 h23

theorem forall₂_updateFirst {R : Job → Job → Prop} (p : Job → Bool) (f : Job → Job)
    (hrefl : ∀ j, R j j) (hf : ∀ j, p j = true → R j (f j)) :
    ∀ l : List Job, List.Forall₂ R l (updateFirst p f l) := by
  intro l
  induction l with
  | nil => exact List.Forall₂.nil
  | cons a l ih =>
    unfold updateFirst
    split_ifs with hp
    · exact List.Forall₂.cons (hf a hp) (List.forall₂_same.mpr (fun x _ => hrefl x))
    · exact List.Forall₂.cons (hrefl a) ih

theorem workerStart_flags (q : JobQueue) (i : Nat) (now : Int) :
    (q.workerStart i now).m_isProcessing = q.m_isProcessing ∧
    (q.workerStart i now).m_isPaused = q.m_isPaused := by
  unfold JobQueue.workerStart
  cases q.m_threadPool.beginRun i with
  | none => exact ⟨rfl, rfl⟩
  | some rp => exact ⟨rfl, rfl⟩

theorem workerFinish_flags (q : JobQueue) (i : Nat) (result : StrategyResult) :
    (q.workerFinish i result).m_isProcessing = q.m_isProcessing ∧
    (q.workerFinish i result).m_isPaused = q.m_isPaused := by
  unfold JobQueue.workerFinish
  cases q.m_threadPool.endRun i with
  | none => exact ⟨rfl, rfl⟩
  | some rp =>
    simp only
    cases q.m_jobs.find? (fun job => decide (job.m_id = rp.1)) with
    | none => exact ⟨rfl, rfl⟩
    | some job => exact ⟨rfl, rfl⟩

theorem drain_flags (now : Int) (fuel : Nat) :
    ∀ (results : List StrategyResult) (q : JobQueue),
      (q.drain now results fuel).m_isProcessing = q.m_isProcessing ∧
      (q.drain now results fuel).m_isPaused = q.m_isPaused := by
  induction fuel with
  | zero => intro results q; exact ⟨rfl, rfl⟩
  | succ fuel ih =>
    intro results q
    unfold JobQueue.drain
    cases hs : q.m_threadPool.starting with
    | cons a l =>
      have h1 := ih results (q.workerStart 0 now)
      have h2 := workerStart_flags q 0 now
      exact ⟨h1.1.trans h2.1, h1.2.trans h2.2⟩
    | nil =>
      cases hr : q.m_threadPool.running with
      | cons a l =>
        have h1 := ih results.tail
          (q.workerFinish 0 (results.headD (StrategyResult.failure [])))
        have h2 := workerFinish_flags q 0 (results.headD (StrategyResult.failure []))
        exact ⟨h1.1.trans h2.1, h1.2.trans h2.2⟩
      | nil => exact ⟨rfl, rfl⟩

theorem drain_rel (held : JobId → Prop) (now : Int) (fuel : Nat) :
    ∀ (results : List StrategyResult) (q : JobQueue), q.m_threadPool.queue = [] →
      (∀ r ∈ q.m_threadPool.starting, held r) → (∀ r ∈ q.m_threadPool.running, held r) →
      List.Forall₂ (DrainRel held) q.m_jobs (q.drain now results fuel).m_jobs := by
  induction fuel with
  | zero =>
    intro results q _ _ _
    exact List.forall₂_same.mpr (fun x _ => DrainRel.refl held x)
  | succ fuel ih =>
    intro results q hq hs hr
    unfold JobQueue.drain
    cases hst : q.m_threadPool.starting with
    | cons a l =>
      simp only
      have ha : held a := hs a (by rw [hst]; exact List.mem_cons_self _ _)
      have hj1 : (q.workerStart 0 now).m_jobs =
          updateFirst (fun job => decide (job.m_id = a))
            (fun job => job.setStatus JobStatus.Processing now) q.m_jobs := by
        unfold JobQueue.workerStart QThreadPool.beginRun
        simp [hst]
      have hp1 : (q.workerStart 0 now).m_threadPool.queue = q.m_threadPool.queue ∧
          (q.workerStart 0 now).m_threadPool.starting = l ∧
          (q.workerStart 0 now).m_threadPool.running = q.m_threadPool.running ++ [a] := by
        unfold JobQueue.workerStart QThreadPool.beginRun
        simp [hst]
      have hstep : List.Forall₂ (DrainRel held) q.m_jobs (q.workerStart 0 now).m_jobs := by
        rw [hj1]
        apply forall₂_updateFirst _ _ (DrainRel.refl held)
        intro j hj
        have hja : j.m_id = a := by simpa using hj
        have hf := Job.setStatus_fields j JobStatus.Processing now
        exact ⟨hf.1, fun _ => hf.2.2.1, fun hn => absurd (hja ▸ ha) hn⟩
      refine drainRel_chain held hstep (ih results _ ?_ ?_ ?_)
      · rw [hp1.1]; exact hq
      · rw [hp1.2.1]
        intro r hr2
        exact hs r (by rw [hst]; exact List.mem_cons_of_mem _ hr2)
      · rw [hp1.2.2]
        intro r hr2
        simp only [List.mem_append, List.mem_singleton] at hr2
        rcases hr2 with h | h
        · exact hr r h
        · rw [h]; exact ha
    | nil =>
      cases hrn : q.m_threadPool.running with
      | nil => exact List.forall₂_same.mpr (fun x _ => DrainRel.refl held x)
      | cons a l =>
        simp only
        have ha : held a := hr a (by rw [hrn]; exact List.mem_cons_self _ _)
        have hend : q.m_threadPool.endRun 0 =
            some (a, QThreadPool.mk q.m_threadPool.maxThreadCount [] [] l) := by
          unfold QThreadPool.endRun
          simp [hrn, hq, hst]
        have hpool : (q.workerFinish 0 (results.headD (StrategyResult.failure []))).m_threadPool
            = QThreadPool.mk q.m_threadPool.maxThreadCount [] [] l := by
          unfold JobQueue.workerFinish
          rw [hend]
          simp only
          cases q.m_jobs.find? (fun job => decide (job.m_id = a)) with
          | none => rfl
          | some job => rfl
        have hstep : List.Forall₂ (DrainRel held) q.m_jobs
            (q.workerFinish 0 (results.headD (StrategyResult.failure []))).m_jobs := by
          unfold JobQueue.workerFinish
          rw [hend]
          simp only
          cases q.m_jobs.find? (fun job => decide (job.m_id = a)) with
          | none => exact List.forall₂_same.mpr (fun x _ => DrainRel.refl held x)
          | some job =>
            apply forall₂_updateFirst _ _ (DrainRel.refl held)
            intro j hj
            have hja : j.m_id = a := by simpa using hj
            have hf := JobRunner.process_fields j (results.headD (StrategyResult.failure []))
            exact ⟨hf.1, fun h => hf.2.2.1.trans h, fun hn => absurd (hja ▸ ha) hn⟩
        refine drainRel_chain held hstep (ih _ _ ?_ ?_ ?_)
        · rw [hpool]
        · rw [hpool]
          intro r hr2
          cases hr2
        · rw [hpool]
          intro r hr2
          exact hr r (by rw [hrn]; exact List.mem_cons_of_mem _ hr2)

/-- C13 as stated fails: in the state after `stoppedEarlyRun` the only job is
Pending, held by a pool thread that has not begun it; during `stopAll()`
the thread runs it, and afterwards the job is Cancelled, with a completion
posted for it. -/
theorem C13_counterexample :
    (JobQueue.exec {} stoppedEarlyRun).m_jobs.map Job.m_status = [JobStatus.Pending] ∧
    (JobQueue.exec {} stoppedEarlyRun).m_threadPool.starting = [0] ∧
    ((JobQueue.exec {} stoppedEarlyRun).stopAll [StrategyResult.success 5] 9).m_jobs.map
      (fun j => (j.m_status, j.m_endTime)) = [(JobStatus.Cancelled, some 9)] ∧
    ((JobQueue.exec {} stoppedEarlyRun).stopAll [StrategyResult.success 5] 9).posted =
      [QueuedCall.finished 0 true []] ∧
    ¬ ((JobQueue.exec {} stoppedEarlyRun).stopAll [StrategyResult.success 5] 9).m_jobs =
      (JobQueue.exec {} stoppedEarlyRun).m_jobs := by
  decide

/-- C13, amended: after `stopAll()` the queue is neither Running nor Paused
and no job is Processing; job by job, a job that was Processing is Cancelled
with the current time as finishedAt, and a job that was not Processing and
that no pool thread held (neither to begin it nor inside `run()`) is
unchanged. -/
theorem C13_stopAll (q : JobQueue) (results : List StrategyResult) (now : Int) :
    (q.stopAll results now).m_isProcessing = false ∧
    (q.stopAll results now).m_isPaused = false ∧
    (∀ j ∈ (q.stopAll results now).m_jobs, j.m_status ≠ JobStatus.Processing) ∧
    List.Forall₂
      (fun before after =>
        (before.m_status = JobStatus.Processing →
          after.m_status = JobStatus.Cancelled ∧ after.m_endTime = some now) ∧
        (before.m_status ≠ JobStatus.Processing →
          before.m_id ∉ q.m_threadPool.starting → before.m_id ∉ q.m_threadPool.running →
          after = before))
      q.m_jobs (q.stopAll results now).m_jobs := by
  have hflags := drain_flags now (2 * (q.m_threadPool.clear).activeThreadCount) results
    { q with m_isProcessing := false,
             m_isPaused := false,
             m_threadPool := q.m_threadPool.clear }
  have hrel := drain_rel
    (fun r => r ∈ q.m_threadPool.starting ∨ r ∈ q.m_threadPool.running) now
    (2 * (q.m_threadPool.clear).activeThreadCount) results
    { q with m_isProcessing := false,
             m_isPaused := false,
             m_threadPool := q.m_threadPool.clear }
    rfl (fun r hr => Or.inl hr) (fun r hr => Or.inr hr)
  unfold JobQueue.stopAll
  simp only
  generalize JobQueue.drain _ now results _ = q2 at hflags hrel
  refine ⟨hflags.1, hflags.2, ?_, ?_⟩
  · intro j hj
    obtain ⟨j0, _, he⟩ := List.mem_map.mp hj
    by_cases hp : j0.m_status = JobStatus.Processing
    · rw [← he, if_pos hp, (Job.setStatus_fields _ _ _).2.2.1]
      decide
    · rw [← he, if_neg hp]
      exact hp
  · rw [List.forall₂_map_right_iff]
    refine List.Forall₂.imp ?_ hrel
    intro before mid hbm
    constructor
    · intro hb
      have hm := hbm.2.1 hb
      rw [if_pos hm]
      simp [Job.setStatus]
    · intro hb h1 h2
      have hm : mid = before := hbm.2.2 (fun h => h.elim h1 h2)
      rw [hm, if_neg hb]

/-- C13, witness: a Processing job inside `run()` and a Pending job that no
thread holds; `stopAll()` at time 9 cancels the first and leaves the second
as it is. -/
theorem C13_stopAll_witness :
    List.Forall₂
      (fun before after =>
        (before.m_status = JobStatus.Processing →
          after.m_status = JobStatus.Cancelled ∧ after.m_endTime = some 9) ∧
        (before.m_status ≠ JobStatus.Processing →
          before.m_id ∉ [] → before.m_id ∉ [0] → after = before))
      [{ m_id := 0, m_inputPath := [], m_status := JobStatus.Processing },
       { m_id := 1, m_inputPath := [] }]
      (JobQueue.stopAll
        { m_jobs := [{ m_id := 0, m_inputPath := [], m_status := JobStatus.Processing },
                     { m_id := 1, m_inputPath := [] }],
          m_threadPool := { maxThreadCount := 1, running := [0] },
          m_isProcessing := true } [StrategyResult.failure []] 9).m_jobs ∧
    (JobQueue.stopAll
        { m_jobs := [{ m_id := 0, m_inputPath := [], m_status := JobStatus.Processing },
                     { m_id := 1, m_inputPath := [] }],
          m_threadPool := { maxThreadCount := 1, running := [0] },
          m_isProcessing := true } [StrategyResult.failure []] 9).m_jobs.map
      (fun j => (j.m_status, j.m_endTime)) =
      [(JobStatus.Cancelled, some 9), (JobStatus.Pending, none)] :=
  ⟨(C13_stopAll
      { m_jobs := [{ m_id := 0, m_inputPath := [], m_status := JobStatus.Processing },
                   { m_id := 1, m_inputPath := [] }],
        m_threadPool := { maxThreadCount := 1, running := [0] },
        m_isProcessing := true } [StrategyResult.failure []] 9).2.2.2,
   by decide⟩

/-! ## Claims the code does not meet -/

/-- C12 fails on the code: in the run `cancelledRun` the job is handed to
the pool by `start` and stays Pending, `cancel` moves it to Cancelled, and
the worker that was handed the job still begins it (status Processing, first
in the run log), runs the strategy and has its success recorded: the
cancelled job ends Completed. -/
theorem C12_cancelled_job_runs :
    ((JobQueue.exec {} (cancelledRun.take 2)).m_jobs.map Job.m_status = [JobStatus.Pending] ∧
      (JobQueue.exec {} (cancelledRun.take 2)).m_threadPool.starting = [0]) ∧
    (JobQueue.exec {} (cancelledRun.take 3)).m_jobs.map Job.m_status = [JobStatus.Cancelled] ∧
    ((JobQueue.exec {} (cancelledRun.take 4)).m_jobs.map Job.m_status =
        [JobStatus.Processing] ∧
      (JobQueue.exec {} (cancelledRun.take 4)).runLog = [0]) ∧
    (JobQueue.exec {} (cancelledRun.take 5)).posted = [QueuedCall.finished 0 true []] ∧
    (JobQueue.exec {} cancelledRun).m_jobs.map (fun j => (j.m_status, j.m_outputSize)) =
      [(JobStatus.Completed, 7)] := by
  decide

/-- C20 fails on the code: `clear()` never returns, whatever the state of
the queue. It takes the mutex and calls `stopAll()`, whose locker waits for
the same mutex; called by a thread that does not hold the mutex, `stopAll()`
does return. -/
theorem C20_clear_never_returns (q : JobQueue) (results : List StrategyResult) (now : Int) :
    q.clear results now = none ∧
    q.stopAllLocked true results now = none ∧
    q.stopAllLocked false results now = some (q.stopAll results now) :=
  ⟨rfl, rfl, rfl⟩

/-! ## Runs without `resume`, `cancel` and `stopAll` -/

theorem find_updateFirst (r r2 : JobId) (f : Job → Job) (hf : ∀ j, (f j).m_id = j.m_id)
    (l : List Job) :
    (updateFirst (fun job => decide (job.m_id = r)) f l).find?
        (fun job => decide (job.m_id = r2)) =
      if r2 = r then (l.find? (fun job => decide (job.m_id = r))).map f
      else l.find? (fun job => decide (job.m_id = r2)) := by
  induction l with
  | nil => simp [updateFirst]
  | cons a l ih =>
    unfold updateFirst
    by_cases ha : a.m_id = r
    · simp only [ha, decide_True, if_true]
      by_cases h2 : r2 = r
      · subst h2
        simp [List.find?, hf, ha]
      · have h3 : ¬ r = r2 := fun h => h2 h.symm
        simp [List.find?, hf, ha, h2, h3]
    · simp only [ha, decide_False, Bool.false_eq_true, if_false]
      by_cases h2 : r2 = r
      · subst h2
        simp only [List.find?, ha, decide_False, if_true]
        simpa using ih
      · by_cases h3 : a.m_id = r2
        · simp [List.find?, h3, h2]
        · simp only [List.find?, h3, decide_False, h2, if_false]
          simpa [h2] using ih

theorem find_of_mem (l : List Job) (hnd : (l.map Job.m_id).Nodup) (j : Job) (hj : j ∈ l) :
    l.find? (fun job => decide (job.m_id = j.m_id)) = some j := by
  induction l with
  | nil => cases hj
  | cons a l ih =>
    rw [List.map_cons, List.nodup_cons] at hnd
    rcases List.mem_cons.mp hj with h | h
    · subst h
      simp [List.find?]
    · have hne : a.m_id ≠ j.m_id := by
        intro he
        exact hnd.1 (List.mem_map.mpr ⟨j, h, he.symm⟩)
      simp only [List.find?, hne, decide_False]
      exact ih hnd.2 h

theorem statusOf_update (q q2 : JobQueue) (r : JobId) (f : Job → Job)
    (hf : ∀ j, (f j).m_id = j.m_id)
    (hjobs : q2.m_jobs = updateFirst (fun job => decide (job.m_id = r)) f q.m_jobs)
    (r2 : JobId) :
    q2.statusOf r2 =
      if r2 = r then (q.m_jobs.find? (fun job => decide (job.m_id = r))).map
        (fun j => (f j).m_status)
      else q.statusOf r2 := by
  unfold JobQueue.statusOf
  rw [hjobs, find_updateFirst r r2 f hf]
  split_ifs
  · rw [Option.map_map]; rfl
  · rfl

theorem statusOf_congr (q q2 : JobQueue) (hjobs : q2.m_jobs = q.m_jobs) (r : JobId) :
    q2.statusOf r = q.statusOf r := by
  unfold JobQueue.statusOf
  rw [hjobs]

theorem terminalKept_of_jobs (q q2 : JobQueue) (hjobs : q2.m_jobs = q.m_jobs) :
    TerminalKept q q2 := by
  intro r s hs _
  rw [statusOf_congr q q2 hjobs]
  exact hs

theorem fin_append_progress (posted : List QueuedCall) (r : JobId) (p : Int) :
    (posted ++ [QueuedCall.progress r p]).filterMap QueuedCall.finishedId =
      posted.filterMap QueuedCall.finishedId := by
  simp [List.filterMap_append, QueuedCall.finishedId]

theorem fin_append_finished (posted : List QueuedCall) (r : JobId) (s : Bool) (e : QString) :
    (posted ++ [QueuedCall.finished r s e]).filterMap QueuedCall.finishedId =
      posted.filterMap QueuedCall.finishedId ++ [r] := by
  simp [List.filterMap_append, QueuedCall.finishedId]

/-- The five shapes of a state with at most one job in flight. -/
theorem SoloInv.shape {q : JobQueue} (h : SoloInv q) :
    (q.m_threadPool.queue = [] ∧ q.m_threadPool.starting = [] ∧
      q.m_threadPool.running = [] ∧ q.postedFinishedIds = []) ∨
    (q.m_isProcessing = true ∧ ∃ r,
      (q.m_threadPool.queue = [r] ∧ q.m_threadPool.starting = [] ∧
        q.m_threadPool.running = [] ∧ q.postedFinishedIds = [] ∧
        q.statusOf r = some JobStatus.Pending) ∨
      (q.m_threadPool.queue = [] ∧ q.m_threadPool.starting = [r] ∧
        q.m_threadPool.running = [] ∧ q.postedFinishedIds = [] ∧
        q.statusOf r = some JobStatus.Pending) ∨
      (q.m_threadPool.queue = [] ∧ q.m_threadPool.starting = [] ∧
        q.m_threadPool.running = [r] ∧ q.postedFinishedIds = [] ∧
        q.statusOf r = some JobStatus.Processing) ∨
      (q.m_threadPool.queue = [] ∧ q.m_threadPool.starting = [] ∧
        q.m_threadPool.running = [] ∧ q.postedFinishedIds = [r] ∧
        q.statusOf r = some JobStatus.Processing)) := by
  have hs := h.single
  have hb := h.busy
  have hw := h.waiting
  have hr := h.running
  have hp := h.posted
  unfold JobQueue.inFlight at hs hb
  cases h1 : q.m_threadPool.queue with
  | cons a l1 =>
    rw [h1] at hs hb hw
    simp only [List.length_cons] at hs hb
    have e1 : l1 = [] := List.length_eq_zero.mp (by omega)
    have e2 : q.m_threadPool.starting = [] := List.length_eq_zero.mp (by omega)
    have e3 : q.m_threadPool.running = [] := List.length_eq_zero.mp (by omega)
    have e4 : q.postedFinishedIds = [] := List.length_eq_zero.mp (by omega)
    subst e1
    refine Or.inr ⟨hb (by rw [e2, e3, e4]; rfl), a, Or.inl ⟨rfl, e2, e3, e4, ?_⟩⟩
    exact hw a (Or.inl (List.mem_cons_self _ _))
  | nil =>
    rw [h1] at hs hb hw
    cases h2 : q.m_threadPool.starting with
    | cons a l2 =>
      rw [h2] at hs hb hw
      simp only [List.length_cons, List.length_nil] at hs hb
      have e1 : l2 = [] := List.length_eq_zero.mp (by omega)
      have e3 : q.m_threadPool.running = [] := List.length_eq_zero.mp (by omega)
      have e4 : q.postedFinishedIds = [] := List.length_eq_zero.mp (by omega)
      subst e1
      refine Or.inr ⟨hb (by rw [e3, e4]; rfl), a, Or.inr (Or.inl ⟨rfl, rfl, e3, e4, ?_⟩)⟩
      exact hw a (Or.inr (List.mem_cons_self _ _))
    | nil =>
      rw [h2] at hs hb
      cases h3 : q.m_threadPool.running with
      | cons a l3 =>
        rw [h3] at hs hb hr
        simp only [List.length_cons, List.length_nil] at hs hb
        have e1 : l3 = [] := List.length_eq_zero.mp (by omega)
        have e4 : q.postedFinishedIds = [] := List.length_eq_zero.mp (by omega)
        subst e1
        refine Or.inr ⟨hb (by rw [e4]; rfl), a,
          Or.inr (Or.inr (Or.inl ⟨rfl, rfl, rfl, e4, ?_⟩))⟩
        exact hr a (List.mem_cons_self _ _)
      | nil =>
        rw [h3] at hs hb
        cases h4 : q.postedFinishedIds with
        | cons a l4 =>
          rw [h4] at hs hb hp
          simp only [List.length_cons, List.length_nil] at hs hb
          have e1 : l4 = [] := List.length_eq_zero.mp (by omega)
          subst e1
          refine Or.inr ⟨hb rfl, a, Or.inr (Or.inr (Or.inr ⟨rfl, rfl, rfl, rfl, ?_⟩))⟩
          exact hp a (List.mem_cons_self _ _)
        | nil => exact Or.inl ⟨rfl, rfl, rfl, rfl⟩

theorem SoloInv.of_idle {q : JobQueue} (hnd : (q.m_jobs.map Job.m_id).Nodup)
    (hfresh : ∀ j ∈ q.m_jobs, j.m_id < q.uuidCounter)
    (h1 : q.m_threadPool.queue = []) (h2 : q.m_threadPool.starting = [])
    (h3 : q.m_threadPool.running = []) (h4 : q.postedFinishedIds = []) : SoloInv q := by
  refine ⟨hnd, hfresh, ?_, ?_, ?_, ?_, ?_⟩
  · unfold JobQueue.inFlight; rw [h1, h2, h3, h4]; exact Nat.zero_le _
  · unfold JobQueue.inFlight; rw [h1, h2, h3, h4]; intro h; cases h
  · intro r hr; rw [h1, h2] at hr; rcases hr with h | h <;> cases h
  · intro r hr; rw [h3] at hr; cases hr
  · intro r hr; rw [h4] at hr; cases hr

theorem processNextJob_frame (q : JobQueue) :
    q.processNextJob.uuidCounter = q.uuidCounter ∧ q.processNextJob.posted = q.posted := by
  unfold JobQueue.processNextJob
  split_ifs
  · exact ⟨rfl, rfl⟩
  · cases q.m_jobs.find? (fun job => decide (job.m_status = JobStatus.Pending)) with
    | none => simp only; split_ifs <;> exact ⟨rfl, rfl⟩
    | some j => exact ⟨rfl, rfl⟩

/-- A dispatch pass on a queue with nothing in flight puts at most one job
in flight, a Pending one, and only if the queue is Running. -/
theorem SoloInv.dispatch {q : JobQueue} (hnd : (q.m_jobs.map Job.m_id).Nodup)
    (hfresh : ∀ j ∈ q.m_jobs, j.m_id < q.uuidCounter)
    (h1 : q.m_threadPool.queue = []) (h2 : q.m_threadPool.starting = [])
    (h3 : q.m_threadPool.running = []) (h4 : q.postedFinishedIds = []) :
    SoloInv q.processNextJob := by
  have hj := processNextJob_jobs q
  have hfr := processNextJob_frame q
  have hfin : q.processNextJob.postedFinishedIds = [] := by
    unfold JobQueue.postedFinishedIds
    rw [hfr.2]
    exact h4
  have hnd2 : (q.processNextJob.m_jobs.map Job.m_id).Nodup := by rw [hj]; exact hnd
  have hfresh2 : ∀ j ∈ q.processNextJob.m_jobs, j.m_id < q.processNextJob.uuidCounter := by
    rw [hj, hfr.1]; exact hfresh
  by_cases hgo : q.m_isPaused = true ∨ ¬ q.m_isProcessing = true
  · have : q.processNextJob = q := by
      unfold JobQueue.processNextJob
      rw [if_pos hgo]
    rw [this]
    exact SoloInv.of_idle hnd hfresh h1 h2 h3 h4
  · have hproc : q.m_isProcessing = true := by
      by_contra hc
      exact hgo (Or.inr hc)
    cases hf : q.m_jobs.find? (fun job => decide (job.m_status = JobStatus.Pending)) with
    | none =>
      have hpool : q.processNextJob.m_threadPool = q.m_threadPool := by
        unfold JobQueue.processNextJob
        rw [if_neg hgo, hf]
        simp only
        split_ifs <;> rfl
      exact SoloInv.of_idle hnd2 hfresh2 (by rw [hpool]; exact h1) (by rw [hpool]; exact h2)
        (by rw [hpool]; exact h3) hfin
    | some next =>
      have hpool : q.processNextJob.m_threadPool = q.m_threadPool.start next.m_id := by
        unfold JobQueue.processNextJob
        rw [if_neg hgo, hf]
      have hproc2 : q.processNextJob.m_isProcessing = true := by
        unfold JobQueue.processNextJob
        rw [if_neg hgo, hf]
        exact hproc
      have hmem : next ∈ q.m_jobs := List.mem_of_find?_eq_some hf
      have hpend : next.m_status = JobStatus.Pending := by
        have := List.find?_some hf
        simpa using this
      have hstat : q.processNextJob.statusOf next.m_id = some JobStatus.Pending := by
        unfold JobQueue.statusOf
        rw [hj, find_of_mem q.m_jobs hnd next hmem]
        simp [hpend]
      have hshape : (q.m_threadPool.start next.m_id).running = [] ∧
          (((q.m_threadPool.start next.m_id).queue = [next.m_id] ∧
            (q.m_threadPool.start next.m_id).starting = []) ∨
           ((q.m_threadPool.start next.m_id).queue = [] ∧
            (q.m_threadPool.start next.m_id).starting = [next.m_id])) := by
        unfold QThreadPool.start
        split_ifs
        · exact ⟨h3, Or.inr ⟨h1, by simp [h2]⟩⟩
        · exact ⟨h3, Or.inl ⟨by simp [h1], h2⟩⟩
      refine ⟨hnd2, hfresh2, ?_, fun _ => hproc2, ?_, ?_, ?_⟩
      · unfold JobQueue.inFlight
        rw [hpool, hfin, hshape.1]
        rcases hshape.2 with h | h <;> rw [h.1, h.2] <;> exact Nat.le_refl _
      · intro r hr
        rw [hpool] at hr
        have : r = next.m_id := by
          rcases hshape.2 with h | h <;> rw [h.1, h.2] at hr <;> simpa using hr
        rw [this]
        exact hstat
      · intro r hr
        rw [hpool, hshape.1] at hr
        cases hr
      · intro r hr
        rw [hfin] at hr
        cases hr

theorem SoloInv.solo_addJob {q : JobQueue} (h : SoloInv q) (filePath : QString)
    (inputSize : Int) (settings : Settings) :
    SoloInv (q.addJob filePath inputSize settings) ∧
    TerminalKept q (q.addJob filePath inputSize settings) := by
  have hkeep : ∀ (r : JobId) (s : JobStatus), q.statusOf r = some s →
      (q.addJob filePath inputSize settings).statusOf r = some s := by
    intro r s hs
    unfold JobQueue.statusOf at hs ⊢
    unfold JobQueue.addJob
    simp only [List.find?_append]
    cases hf : q.m_jobs.find? (fun job => decide (job.m_id = r)) with
    | none => rw [hf] at hs; cases hs
    | some j => rw [hf] at hs; simpa using hs
  refine ⟨⟨?_, ?_, h.single, h.busy, fun r hr => hkeep r _ (h.waiting r hr),
    fun r hr => hkeep r _ (h.running r hr), fun r hr => hkeep r _ (h.posted r hr)⟩,
    fun r s hs _ => hkeep r s hs⟩
  · unfold JobQueue.addJob
    simp only [List.map_append, List.map_cons, List.map_nil, Job.new_id]
    rw [List.nodup_append]
    refine ⟨h.nodup, List.nodup_singleton _, ?_⟩
    intro a ha hb
    rw [List.mem_singleton] at hb
    obtain ⟨j, hj, hja⟩ := List.mem_map.mp ha
    have := h.fresh j hj
    rw [hja, hb] at this
    exact Nat.lt_irrefl _ this
  · intro j hj
    unfold JobQueue.addJob at hj
    simp only [List.mem_append, List.mem_singleton] at hj
    rcases hj with hj | hj
    · exact Nat.lt_succ_of_lt (h.fresh j hj)
    · rw [hj, Job.new_id]
      exact Nat.lt_succ_self _

theorem SoloInv.solo_pause {q : JobQueue} (h : SoloInv q) :
    SoloInv q.pause ∧ TerminalKept q q.pause :=
  ⟨⟨h.nodup, h.fresh, h.single, h.busy, h.waiting, h.running, h.posted⟩,
   terminalKept_of_jobs q q.pause rfl⟩

theorem SoloInv.solo_start {q : JobQueue} (h : SoloInv q) (K : Nat) :
    SoloInv (q.start K) ∧ TerminalKept q (q.start K) := by
  refine ⟨?_, terminalKept_of_jobs q _ (start_jobs q K)⟩
  unfold JobQueue.start
  split_ifs with h1 h2
  · exact h
  · exact h
  · have hidle : q.m_threadPool.queue = [] ∧ q.m_threadPool.starting = [] ∧
        q.m_threadPool.running = [] ∧ q.postedFinishedIds = [] := by
      rcases h.shape with hi | ⟨hp, _⟩
      · exact hi
      · exact absurd hp h1
    simp only
    refine SoloInv.dispatch ?_ ?_ ?_ ?_ ?_ ?_
    · exact h.nodup
    · exact h.fresh
    · simp [QThreadPool.setMaxThreadCount, hidle.1]
    · simp [QThreadPool.setMaxThreadCount, hidle.1, hidle.2.1]
    · exact hidle.2.2.1
    · exact hidle.2.2.2

theorem SoloInv.solo_workerProgress {q : JobQueue} (h : SoloInv q) (i : Nat) (p : Int) :
    SoloInv (q.workerProgress i p) ∧ TerminalKept q (q.workerProgress i p) := by
  unfold JobQueue.workerProgress
  cases q.m_threadPool.running.get? i with
  | none => exact ⟨h, fun r s hs _ => hs⟩
  | some r =>
    have hfin : JobQueue.postedFinishedIds
        { q with posted := q.posted ++ [QueuedCall.progress r p] } = q.postedFinishedIds :=
      fin_append_progress q.posted r p
    refine ⟨⟨h.nodup, h.fresh, ?_, ?_, h.waiting, h.running, ?_⟩, fun r s hs _ => hs⟩
    · have := h.single
      unfold JobQueue.inFlight at this ⊢
      rw [hfin]
      exact this
    · have := h.busy
      unfold JobQueue.inFlight at this ⊢
      rw [hfin]
      exact this
    · rw [hfin]
      exact h.posted

theorem fresh_of_ids (l1 l2 : List Job) (c : Nat) (hids : l2.map Job.m_id = l1.map Job.m_id)
    (h : ∀ j ∈ l1, j.m_id < c) : ∀ j ∈ l2, j.m_id < c := by
  intro j hj
  have hj2 : j.m_id ∈ l2.map Job.m_id := List.mem_map.mpr ⟨j, hj, rfl⟩
  rw [hids] at hj2
  obtain ⟨j0, hj0, he⟩ := List.mem_map.mp hj2
  rw [← he]
  exact h j0 hj0

theorem SoloInv.solo_workerStart {q : JobQueue} (h : SoloInv q) (i : Nat) (now : Int) :
    SoloInv (q.workerStart i now) ∧ TerminalKept q (q.workerStart i now) := by
  cases hb : q.m_threadPool.beginRun i with
  | none =>
    have : q.workerStart i now = q := by
      unfold JobQueue.workerStart
      rw [hb]
    rw [this]
    exact ⟨h, fun r s hs _ => hs⟩
  | some rp =>
    obtain ⟨r, pool⟩ := rp
    have hf := QThreadPool.beginRun_facts _ _ _ _ hb
    have hshape : q.m_isProcessing = true ∧ q.m_threadPool.queue = [] ∧
        q.m_threadPool.starting = [r] ∧ q.m_threadPool.running = [] ∧
        q.postedFinishedIds = [] ∧ q.statusOf r = some JobStatus.Pending ∧ pool.queue = [] ∧
        pool.starting = [] := by
      rcases h.shape with hi | ⟨hp, r0, hq | hq | hq | hq⟩
      · exact absurd hi.2.1 hf.2.2.2
      · exact absurd hq.2.1 hf.2.2.2
      · unfold QThreadPool.beginRun at hb
        rw [hq.2.1] at hb
        cases i with
        | zero =>
          simp only [List.get?_cons_zero, Option.some.injEq, Prod.mk.injEq] at hb
          obtain ⟨hr, hpool⟩ := hb
          subst hr
          refine ⟨hp, hq.1, hq.2.1, hq.2.2.1, hq.2.2.2.1, hq.2.2.2.2, ?_, ?_⟩
          · rw [← hpool]; exact hq.1
          · rw [← hpool]; rfl
        | succ i => simp at hb
      · exact absurd hq.2.1 hf.2.2.2
      · exact absurd hq.2.1 hf.2.2.2
    obtain ⟨hp, hq1, hq2, hq3, hq4, hst, hpq, hps⟩ := hshape
    have hprun : pool.running = [r] := by rw [hf.1, hq3]; rfl
    have hid : ∀ j : Job, (j.setStatus JobStatus.Processing now).m_id = j.m_id :=
      fun j => (Job.setStatus_fields _ _ _).1
    have hjobs : (q.workerStart i now).m_jobs =
        updateFirst (fun job => decide (job.m_id = r))
          (fun job => job.setStatus JobStatus.Processing now) q.m_jobs := by
      unfold JobQueue.workerStart
      rw [hb]
    have hpool : (q.workerStart i now).m_threadPool = pool := by
      unfold JobQueue.workerStart
      rw [hb]
    have hrest : (q.workerStart i now).m_isProcessing = q.m_isProcessing ∧
        (q.workerStart i now).posted = q.posted ∧
        (q.workerStart i now).uuidCounter = q.uuidCounter := by
      unfold JobQueue.workerStart
      rw [hb]
      exact ⟨rfl, rfl, rfl⟩
    have hfin : (q.workerStart i now).postedFinishedIds = [] := by
      unfold JobQueue.postedFinishedIds
      rw [hrest.2.1]
      exact hq4
    have hstat := statusOf_update q (q.workerStart i now) r _ hid hjobs
    have hids : (q.workerStart i now).m_jobs.map Job.m_id = q.m_jobs.map Job.m_id := by
      rw [hjobs]
      exact updateFirst_ids _ _ hid _
    have hfound : ∃ j, q.m_jobs.find? (fun job => decide (job.m_id = r)) = some j := by
      unfold JobQueue.statusOf at hst
      cases hfj : q.m_jobs.find? (fun job => decide (job.m_id = r)) with
      | none => rw [hfj] at hst; cases hst
      | some j => exact ⟨j, rfl⟩
    refine ⟨⟨?_, ?_, ?_, ?_, ?_, ?_, ?_⟩, ?_⟩
    · rw [hids]; exact h.nodup
    · rw [hrest.2.2]
      exact fresh_of_ids _ _ _ hids h.fresh
    · unfold JobQueue.inFlight
      rw [hpool, hfin, hpq, hps, hprun]
      exact Nat.le_refl _
    · intro _
      rw [hrest.1]
      exact hp
    · intro r2 hr2
      rw [hpool, hpq, hps] at hr2
      rcases hr2 with h2 | h2 <;> cases h2
    · intro r2 hr2
      rw [hpool, hprun, List.mem_singleton] at hr2
      rw [hstat, if_pos hr2]
      obtain ⟨j, hj⟩ := hfound
      rw [hj]
      simp [(Job.setStatus_fields j JobStatus.Processing now).2.2.1]
    · intro r2 hr2
      rw [hfin] at hr2
      cases hr2
    · intro r2 s hs hterm
      rw [hstat]
      by_cases h2 : r2 = r
      · rw [h2, hst] at hs
        cases hs
        cases hterm
      · rw [if_neg h2]
        exact hs

theorem SoloInv.solo_workerFinish {q : JobQueue} (h : SoloInv q) (i : Nat)
    (result : StrategyResult) :
    SoloInv (q.workerFinish i result) ∧ TerminalKept q (q.workerFinish i result) := by
  cases hb : q.m_threadPool.endRun i with
  | none =>
    have : q.workerFinish i result = q := by
      unfold JobQueue.workerFinish
      rw [hb]
    rw [this]
    exact ⟨h, fun r s hs _ => hs⟩
  | some rp =>
    obtain ⟨r, pool⟩ := rp
    have hf := QThreadPool.endRun_facts _ _ _ _ hb
    have hne : q.m_threadPool.running ≠ [] := by
      intro he
      rw [he] at hf
      simp at hf
    have hshape : q.m_isProcessing = true ∧ q.m_threadPool.queue = [] ∧
        q.m_threadPool.starting = [] ∧ q.m_threadPool.running = [r] ∧
        q.postedFinishedIds = [] ∧ q.statusOf r = some JobStatus.Processing ∧
        pool.queue = [] ∧ pool.starting = [] ∧ pool.running = [] := by
      rcases h.shape with hi | ⟨hp, r0, hq | hq | hq | hq⟩
      · exact absurd hi.2.2.1 hne
      · exact absurd hq.2.2.1 hne
      · exact absurd hq.2.2.1 hne
      · unfold QThreadPool.endRun at hb
        rw [hq.2.2.1] at hb
        cases i with
        | zero =>
          simp only [List.get?_cons_zero, hq.1, List.eraseIdx_cons_zero, Option.some.injEq,
            Prod.mk.injEq] at hb
          obtain ⟨hr, hpool⟩ := hb
          subst hr
          refine ⟨hp, hq.1, hq.2.1, hq.2.2.1, hq.2.2.2.1, hq.2.2.2.2, ?_, ?_, ?_⟩
          · rw [← hpool]
          · rw [← hpool]; exact hq.2.1
          · rw [← hpool]
        | succ i => simp at hb
      · exact absurd hq.2.2.1 hne
    obtain ⟨hp, hq1, hq2, hq3, hq4, hst, hpq, hps, hpr⟩ := hshape
    have hfound : ∃ j, q.m_jobs.find? (fun job => decide (job.m_id = r)) = some j ∧
        j.m_status = JobStatus.Processing := by
      unfold JobQueue.statusOf at hst
      cases hfj : q.m_jobs.find? (fun job => decide (job.m_id = r)) with
      | none => rw [hfj] at hst; cases hst
      | some j =>
        rw [hfj] at hst
        exact ⟨j, rfl, by simpa using hst⟩
    obtain ⟨job, hjob, hjs⟩ := hfound
    have hid : ∀ j : Job, (JobRunner.process j result).1.m_id = j.m_id :=
      fun j => (JobRunner.process_fields j result).1
    have hjobs : (q.workerFinish i result).m_jobs =
        updateFirst (fun job => decide (job.m_id = r))
          (fun job => (JobRunner.process job result).1) q.m_jobs := by
      unfold JobQueue.workerFinish
      rw [hb]
      simp only [hjob]
    have hpool : (q.workerFinish i result).m_threadPool = pool := by
      unfold JobQueue.workerFinish
      rw [hb]
      simp only [hjob]
    have hrest : (q.workerFinish i result).m_isProcessing = q.m_isProcessing ∧
        (q.workerFinish i result).uuidCounter = q.uuidCounter ∧
        (q.workerFinish i result).postedFinishedIds = [r] := by
      unfold JobQueue.workerFinish
      rw [hb]
      simp only [hjob]
      refine ⟨trivial, trivial, ?_⟩
      unfold JobQueue.postedFinishedIds at hq4 ⊢
      simp only
      rw [fin_append_finished, hq4]
      rfl
    have hstat : ∀ r2, (q.workerFinish i result).statusOf r2 = q.statusOf r2 := by
      intro r2
      rw [statusOf_update q (q.workerFinish i result) r _ hid hjobs]
      split_ifs with h2
      · rw [h2, hst, hjob]
        simp [(JobRunner.process_fields job result).2.2.1, hjs]
      · rfl
    have hids : (q.workerFinish i result).m_jobs.map Job.m_id = q.m_jobs.map Job.m_id := by
      rw [hjobs]
      exact updateFirst_ids _ _ hid _
    refine ⟨⟨?_, ?_, ?_, ?_, ?_, ?_, ?_⟩, ?_⟩
    · rw [hids]; exact h.nodup
    · rw [hrest.2.1]
      exact fresh_of_ids _ _ _ hids h.fresh
    · unfold JobQueue.inFlight
      rw [hpool, hrest.2.2, hpq, hps, hpr]
      exact Nat.le_refl _
    · intro _
      rw [hrest.1]
      exact hp
    · intro r2 hr2
      rw [hpool, hpq, hps] at hr2
      rcases hr2 with h2 | h2 <;> cases h2
    · intro r2 hr2
      rw [hpool, hpr] at hr2
      cases hr2
    · intro r2 hr2
      rw [hrest.2.2, List.mem_singleton] at hr2
      rw [hstat, hr2]
      exact hst
    · intro r2 s hs _
      rw [hstat]
      exact hs

theorem SoloInv.transfer {q q2 : JobQueue} (h : SoloInv q) (hjobs : q2.m_jobs = q.m_jobs)
    (hpool : q2.m_threadPool = q.m_threadPool) (hproc : q2.m_isProcessing = q.m_isProcessing)
    (huuid : q2.uuidCounter = q.uuidCounter)
    (hfin : q2.postedFinishedIds = q.postedFinishedIds) : SoloInv q2 := by
  have hst : ∀ r, q2.statusOf r = q.statusOf r := statusOf_congr q q2 hjobs
  have hfl : q2.inFlight = q.inFlight := by
    unfold JobQueue.inFlight
    rw [hpool, hfin]
  refine ⟨?_, ?_, ?_, ?_, ?_, ?_, ?_⟩
  · rw [hjobs]; exact h.nodup
  · rw [hjobs, huuid]; exact h.fresh
  · rw [hfl]; exact h.single
  · rw [hfl, hproc]; exact h.busy
  · intro r hr
    rw [hpool] at hr
    rw [hst]
    exact h.waiting r hr
  · intro r hr
    rw [hpool] at hr
    rw [hst]
    exact h.running r hr
  · intro r hr
    rw [hfin] at hr
    rw [hst]
    exact h.posted r hr

theorem SoloInv.solo_deliver {q : JobQueue} (h : SoloInv q) (now : Int) :
    SoloInv (q.deliver now) ∧ TerminalKept q (q.deliver now) := by
  cases hpo : q.posted with
  | nil =>
    have : q.deliver now = q := by
      unfold JobQueue.deliver
      rw [hpo]
    rw [this]
    exact ⟨h, fun r s hs _ => hs⟩
  | cons c rest =>
    cases c with
    | progress r p =>
      have hjobs : (q.deliver now).m_jobs = q.m_jobs := by
        unfold JobQueue.deliver
        rw [hpo]
      have hpool : (q.deliver now).m_threadPool = q.m_threadPool := by
        unfold JobQueue.deliver
        rw [hpo]
      have hproc : (q.deliver now).m_isProcessing = q.m_isProcessing := by
        unfold JobQueue.deliver
        rw [hpo]
      have huuid : (q.deliver now).uuidCounter = q.uuidCounter := by
        unfold JobQueue.deliver
        rw [hpo]
      have hfin : (q.deliver now).postedFinishedIds = q.postedFinishedIds := by
        have hpost : (q.deliver now).posted = rest := by
          unfold JobQueue.deliver
          rw [hpo]
        unfold JobQueue.postedFinishedIds
        rw [hpost, hpo]
        simp [QueuedCall.finishedId]
      exact ⟨h.transfer hjobs hpool hproc huuid hfin, terminalKept_of_jobs q _ hjobs⟩
    | finished r success error =>
      have hfq : q.postedFinishedIds = r :: rest.filterMap QueuedCall.finishedId := by
        unfold JobQueue.postedFinishedIds
        rw [hpo]
        simp [QueuedCall.finishedId]
      have hshape : q.m_threadPool.queue = [] ∧ q.m_threadPool.starting = [] ∧
          q.m_threadPool.running = [] ∧ rest.filterMap QueuedCall.finishedId = [] ∧
          q.statusOf r = some JobStatus.Processing := by
        rcases h.shape with hi | ⟨_, r0, hq | hq | hq | hq⟩
        · rw [hi.2.2.2] at hfq; cases hfq
        · rw [hq.2.2.2.1] at hfq; cases hfq
        · rw [hq.2.2.2.1] at hfq; cases hfq
        · rw [hq.2.2.2.1] at hfq; cases hfq
        · rw [hq.2.2.2.1] at hfq
          simp only [List.cons.injEq] at hfq
          obtain ⟨hr, hrest⟩ := hfq
          subst hr
          exact ⟨hq.1, hq.2.1, hq.2.2.1, hrest.symm, hq.2.2.2.2⟩
      obtain ⟨hq1, hq2, hq3, hrest, hst⟩ := hshape
      have hid : ∀ j : Job, (if success = true then
          (j.setStatus JobStatus.Completed now).setProgress 100
          else j.setError error now).m_id = j.m_id :=
        fun j => (onJobFinished_job j success error now).1
      have hd : ∃ q3 : JobQueue, q.deliver now = q3.processNextJob ∧
          q3.m_jobs = updateFirst (fun job => decide (job.m_id = r))
            (fun job => if success = true then
              (job.setStatus JobStatus.Completed now).setProgress 100
              else job.setError error now) q.m_jobs ∧
          q3.m_threadPool = q.m_threadPool ∧ q3.uuidCounter = q.uuidCounter ∧
          q3.posted = rest := by
        unfold JobQueue.deliver
        rw [hpo]
        exact ⟨_, rfl, rfl, rfl, rfl, rfl⟩
      obtain ⟨q3, hdq, hj3, hp3, hu3, hpost3⟩ := hd
      have hids : q3.m_jobs.map Job.m_id = q.m_jobs.map Job.m_id := by
        rw [hj3]
        exact updateFirst_ids _ _ hid _
      rw [hdq]
      refine ⟨SoloInv.dispatch ?_ ?_ ?_ ?_ ?_ ?_, ?_⟩
      · rw [hids]; exact h.nodup
      · rw [hu3]
        exact fresh_of_ids _ _ _ hids h.fresh
      · rw [hp3]; exact hq1
      · rw [hp3]; exact hq2
      · rw [hp3]; exact hq3
      · unfold JobQueue.postedFinishedIds
        rw [hpost3]
        exact hrest
      · intro r2 s hs hterm
        rw [statusOf_congr q3 _ (processNextJob_jobs q3), statusOf_update q q3 r _ hid hj3]
        by_cases h2 : r2 = r
        · rw [h2, hst] at hs
          cases hs
          cases hterm
        · rw [if_neg h2]
          exact hs

/-- One step that is not `resume`, `cancel` or `stopAll` keeps at most one
job in flight and keeps every terminal status. -/
theorem SoloInv.solo_step {q : JobQueue} (h : SoloInv q) (now : Int) (e : Event)
    (he : e.isPlainEvent = true) :
    SoloInv (q.step now e) ∧ TerminalKept q (q.step now e) := by
  cases e with
  | addJob path size settings => exact h.solo_addJob path size settings
  | start K => exact h.solo_start K
  | pause => exact h.solo_pause
  | resume => cases he
  | stopAll results => cases he
  | cancel id => cases he
  | workerStart i => exact h.solo_workerStart i now
  | workerProgress i p => exact h.solo_workerProgress i p
  | workerFinish i result => exact h.solo_workerFinish i result
  | deliver => exact h.solo_deliver now

theorem SoloInv.solo_exec (trace : List (Int × Event)) :
    ∀ q : JobQueue, SoloInv q → (∀ te ∈ trace, te.2.isPlainEvent = true) →
      SoloInv (JobQueue.exec q trace) ∧ TerminalKept q (JobQueue.exec q trace) := by
  induction trace with
  | nil => intro q h _; exact ⟨h, fun r s hs _ => hs⟩
  | cons te rest ih =>
    intro q h hall
    have h1 := h.solo_step te.1 te.2 (hall te (List.mem_cons_self _ _))
    have h2 := ih (q.step te.1 te.2) h1.1 (fun x hx => hall x (List.mem_cons_of_mem _ hx))
    refine ⟨h2.1, ?_⟩
    intro r s hs hterm
    exact h2.2 r s (h1.2 r s hs hterm) hterm

/-- In an execution from the new queue without `resume`, `cancel` and
`stopAll`, a terminal status is kept by every later state. -/
theorem plain_terminal_final (trace1 trace2 : List (Int × Event)) (jobId : JobId)
    (s : JobStatus)
    (h1 : ∀ te ∈ trace1, te.2.isPlainEvent = true)
    (h2 : ∀ te ∈ trace2, te.2.isPlainEvent = true)
    (hs : (JobQueue.exec {} trace1).statusOf jobId = some s)
    (ht : s.isTerminal = true) :
    (JobQueue.exec {} (trace1 ++ trace2)).statusOf jobId = some s := by
  have h0 : SoloInv ({} : JobQueue) :=
    SoloInv.of_idle (by decide) (by intro j hj; cases hj) rfl rfl rfl rfl
  have hi1 := SoloInv.solo_exec trace1 {} h0 h1
  have hi2 := SoloInv.solo_exec trace2 _ hi1.1 h2
  rw [exec_append]
  exact hi2.2 jobId s hs ht

/-! ## Jobs that no runnable and no posted completion refers to -/

theorem QThreadPool.start_runners (p : QThreadPool) (r a : JobId)
    (h : a ∈ (p.start r).runners) : a = r ∨ a ∈ p.runners := by
  unfold QThreadPool.start at h
  unfold QThreadPool.runners at h ⊢
  split_ifs at h <;> simp only [List.mem_append, List.mem_singleton] at h ⊢ <;> tauto

theorem QThreadPool.setMaxThreadCount_runners (p : QThreadPool) (K : Nat) (a : JobId)
    (h : a ∈ (p.setMaxThreadCount K).runners) : a ∈ p.runners := by
  unfold QThreadPool.setMaxThreadCount QThreadPool.runners at h
  unfold QThreadPool.runners
  have h1 : a ∈ p.queue.take (K - p.activeThreadCount) → a ∈ p.queue := List.mem_of_mem_take
  have h2 : a ∈ p.queue.drop (K - p.activeThreadCount) → a ∈ p.queue := List.mem_of_mem_drop
  simp only [List.mem_append] at h ⊢
  tauto

theorem QThreadPool.clear_runners (p : QThreadPool) (a : JobId)
    (h : a ∈ p.clear.runners) : a ∈ p.runners := by
  unfold QThreadPool.clear QThreadPool.runners at h
  unfold QThreadPool.runners
  simp only [List.mem_append] at h ⊢
  tauto

theorem mem_of_get (l : List JobId) (i : Nat) (r : JobId) (h : l.get? i = some r) : r ∈ l := by
  induction l generalizing i with
  | nil => cases h
  | cons b l ih =>
    cases i with
    | zero =>
      simp only [List.get?_cons_zero, Option.some.injEq] at h
      exact h ▸ List.mem_cons_self _ _
    | succ i =>
      simp only [List.get?_cons_succ] at h
      exact List.mem_cons_of_mem _ (ih i h)

theorem mem_of_eraseIdx (l : List JobId) (i : Nat) (a : JobId) (h : a ∈ l.eraseIdx i) :
    a ∈ l := by
  induction l generalizing i with
  | nil => simp at h
  | cons b l ih =>
    cases i with
    | zero =>
      simp only [List.eraseIdx_cons_zero] at h
      exact List.mem_cons_of_mem _ h
    | succ i =>
      rw [List.eraseIdx_cons_succ] at h
      rcases List.mem_cons.mp h with h | h
      · exact h ▸ List.mem_cons_self _ _
      · exact List.mem_cons_of_mem _ (ih i h)

theorem QThreadPool.beginRun_runners (p : QThreadPool) (i : Nat) (r : JobId) (p2 : QThreadPool)
    (h : p.beginRun i = some (r, p2)) :
    r ∈ p.runners ∧ ∀ a ∈ p2.runners, a ∈ p.runners := by
  unfold QThreadPool.beginRun at h
  cases hg : p.starting.get? i with
  | none => rw [hg] at h; cases h
  | some x =>
    rw [hg] at h
    simp only [Option.some.injEq, Prod.mk.injEq] at h
    obtain ⟨rfl, rfl⟩ := h
    have hx : x ∈ p.starting := mem_of_get _ _ _ hg
    unfold QThreadPool.runners
    refine ⟨?_, ?_⟩
    · simp only [List.mem_append]
      tauto
    · intro a ha
      have h1 : a ∈ p.starting.eraseIdx i → a ∈ p.starting := mem_of_eraseIdx _ _ _
      simp only [List.mem_append, List.mem_singleton] at ha ⊢
      rcases ha with (ha | ha) | ha | ha
      · tauto
      · tauto
      · tauto
      · rw [ha]; tauto

theorem QThreadPool.endRun_runners (p : QThreadPool) (i : Nat) (r : JobId) (p2 : QThreadPool)
    (h : p.endRun i = some (r, p2)) :
    r ∈ p.runners ∧ ∀ a ∈ p2.runners, a ∈ p.runners := by
  unfold QThreadPool.endRun at h
  cases hg : p.running.get? i with
  | none => rw [hg] at h; cases h
  | some x =>
    rw [hg] at h
    have hx : x ∈ p.running := mem_of_get _ _ _ hg
    have h1 : ∀ a, a ∈ p.running.eraseIdx i → a ∈ p.running := fun a => mem_of_eraseIdx _ _ _
    simp only at h
    cases hq : p.queue with
    | nil =>
      rw [hq] at h
      simp only [Option.some.injEq, Prod.mk.injEq] at h
      obtain ⟨rfl, rfl⟩ := h
      unfold QThreadPool.runners
      refine ⟨?_, ?_⟩
      · simp only [List.mem_append]
        tauto
      · intro a ha
        have := h1 a
        simp only [List.mem_append] at ha ⊢
        tauto
    | cons next rest =>
      rw [hq] at h
      simp only at h
      split_ifs at h with hlt
      · simp only [Option.some.injEq, Prod.mk.injEq] at h
        obtain ⟨rfl, rfl⟩ := h
        unfold QThreadPool.runners
        refine ⟨?_, ?_⟩
        · simp only [List.mem_append]
          tauto
        · intro a ha
          have := h1 a
          have h2 : a ∈ p.queue ↔ a = next ∨ a ∈ rest := by rw [hq]; exact List.mem_cons
          simp only [List.mem_append, List.mem_singleton, List.mem_cons] at ha ⊢
          tauto
      · simp only [Option.some.injEq, Prod.mk.injEq] at h
        obtain ⟨rfl, rfl⟩ := h
        unfold QThreadPool.runners
        refine ⟨?_, ?_⟩
        · simp only [List.mem_append]
          tauto
        · intro a ha
          have := h1 a
          have h2 : a ∈ p.queue ↔ a = next ∨ a ∈ rest := by rw [hq]; exact List.mem_cons
          simp only [List.mem_append, List.mem_cons] at ha ⊢
          tauto

theorem drain_induct (I : JobQueue → Prop) (now : Int)
    (hs : ∀ q : JobQueue, I q → I (q.workerStart 0 now))
    (hf : ∀ (q : JobQueue) (result : StrategyResult), I q → I (q.workerFinish 0 result))
    (fuel : Nat) :
    ∀ (results : List StrategyResult) (q : JobQueue), I q → I (q.drain now results fuel) := by
  induction fuel with
  | zero => intro results q h; exact h
  | succ fuel ih =>
    intro results q h
    unfold JobQueue.drain
    cases hst : q.m_threadPool.starting with
    | cons a l => exact ih results _ (hs q h)
    | nil =>
      cases hr : q.m_threadPool.running with
      | cons a l => exact ih results.tail _ (hf q _ h)
      | nil => exact h

theorem IdsInv.of_ids {q q2 : JobQueue} (h : IdsInv q)
    (hids : q2.m_jobs.map Job.m_id = q.m_jobs.map Job.m_id)
    (hu : q2.uuidCounter = q.uuidCounter) : IdsInv q2 := by
  refine ⟨?_, ?_⟩
  · rw [hids]; exact h.nodup
  · rw [hu]; exact fresh_of_ids _ _ _ hids h.fresh

theorem IdsInv.ids_addJob {q : JobQueue} (h : IdsInv q) (filePath : QString)
    (inputSize : Int) (settings : Settings) : IdsInv (q.addJob filePath inputSize settings) := by
  refine ⟨?_, ?_⟩
  · unfold JobQueue.addJob
    simp only [List.map_append, List.map_cons, List.map_nil, Job.new_id]
    rw [List.nodup_append]
    refine ⟨h.nodup, List.nodup_singleton _, ?_⟩
    intro a ha hb
    rw [List.mem_singleton] at hb
    obtain ⟨j, hj, hja⟩ := List.mem_map.mp ha
    have := h.fresh j hj
    rw [hja, hb] at this
    exact Nat.lt_irrefl _ this
  · intro j hj
    unfold JobQueue.addJob at hj
    simp only [List.mem_append, List.mem_singleton] at hj
    rcases hj with hj | hj
    · exact Nat.lt_succ_of_lt (h.fresh j hj)
    · rw [hj, Job.new_id]
      exact Nat.lt_succ_self _

theorem IdsInv.ids_processNextJob {q : JobQueue} (h : IdsInv q) : IdsInv q.processNextJob :=
  h.of_ids (by rw [processNextJob_jobs]) (processNextJob_frame q).1

theorem IdsInv.ids_cancel {q : JobQueue} (h : IdsInv q) (jobId : JobId) (now : Int) :
    IdsInv (q.cancel jobId now) := by
  refine h.of_ids ?_ rfl
  unfold JobQueue.cancel
  refine updateFirst_ids _ _ ?_ _
  intro j
  split_ifs
  · exact (Job.setStatus_fields _ _ _).1
  · rfl

theorem IdsInv.ids_workerStart {q : JobQueue} (h : IdsInv q) (i : Nat) (now : Int) :
    IdsInv (q.workerStart i now) := by
  unfold JobQueue.workerStart
  cases q.m_threadPool.beginRun i with
  | none => exact h
  | some rp =>
    refine h.of_ids ?_ rfl
    exact updateFirst_ids _ _ (fun j => (Job.setStatus_fields _ _ _).1) _

theorem IdsInv.ids_workerFinish {q : JobQueue} (h : IdsInv q) (i : Nat)
    (result : StrategyResult) : IdsInv (q.workerFinish i result) := by
  unfold JobQueue.workerFinish
  cases q.m_threadPool.endRun i with
  | none => exact h
  | some rp =>
    simp only
    cases q.m_jobs.find? (fun job => decide (job.m_id = rp.1)) with
    | none => exact h.of_ids rfl rfl
    | some job =>
      refine h.of_ids ?_ rfl
      exact updateFirst_ids _ _ (fun j => (JobRunner.process_fields j result).1) _

theorem IdsInv.ids_deliver {q : JobQueue} (h : IdsInv q) (now : Int) :
    IdsInv (q.deliver now) := by
  unfold JobQueue.deliver
  cases q.posted with
  | nil => exact h
  | cons c rest =>
    cases c with
    | progress r p => exact h.of_ids rfl rfl
    | finished r success error =>
      simp only
      unfold JobQueue.onJobFinished
      refine IdsInv.ids_processNextJob (h.of_ids ?_ rfl)
      exact updateFirst_ids _ _ (fun j => (onJobFinished_job j success error now).1) _

theorem IdsInv.ids_stopAll {q : JobQueue} (h : IdsInv q) (results : List StrategyResult)
    (now : Int) : IdsInv (q.stopAll results now) := by
  unfold JobQueue.stopAll
  simp only
  have h1 : IdsInv { q with m_isProcessing := false, m_isPaused := false,
                            m_threadPool := q.m_threadPool.clear } := h.of_ids rfl rfl
  have h2 := drain_induct IdsInv now (fun q hq => hq.ids_workerStart 0 now)
    (fun q result hq => hq.ids_workerFinish 0 result)
    (2 * q.m_threadPool.clear.activeThreadCount) results _ h1
  refine h2.of_ids ?_ rfl
  simp only [List.map_map]
  refine List.map_congr_left ?_
  intro j _
  simp only [Function.comp]
  split_ifs
  · exact (Job.setStatus_fields _ _ _).1
  · rfl

theorem IdsInv.ids_step {q : JobQueue} (h : IdsInv q) (now : Int) (e : Event) :
    IdsInv (q.step now e) := by
  cases e with
  | addJob path size settings => exact h.ids_addJob path size settings
  | start K =>
    show IdsInv (q.start K)
    unfold JobQueue.start
    split_ifs
    · exact h
    · exact h
    · exact IdsInv.ids_processNextJob (h.of_ids rfl rfl)
  | pause => exact h.of_ids rfl rfl
  | resume => exact IdsInv.ids_processNextJob (h.of_ids rfl rfl)
  | stopAll results => exact h.ids_stopAll results now
  | cancel id => exact h.ids_cancel id now
  | workerStart i => exact h.ids_workerStart i now
  | workerProgress i p =>
    show IdsInv (q.workerProgress i p)
    unfold JobQueue.workerProgress
    cases q.m_threadPool.running.get? i with
    | none => exact h
    | some r => exact h.of_ids rfl rfl
  | workerFinish i result => exact h.ids_workerFinish i result
  | deliver => exact h.ids_deliver now

theorem IdsInv.ids_exec (trace : List (Int × Event)) :
    ∀ q : JobQueue, IdsInv q → IdsInv (JobQueue.exec q trace) := by
  induction trace with
  | nil => intro q h; exact h
  | cons te rest ih => intro q h; exact ih _ (h.ids_step te.1 te.2)

theorem mem_inFlightIds (q : JobQueue) (a : JobId) :
    a ∈ q.inFlightIds ↔ a ∈ q.m_threadPool.runners ∨ a ∈ q.postedFinishedIds := by
  unfold JobQueue.inFlightIds
  exact List.mem_append

theorem Settled.of_same {r : JobId} {s : JobStatus} {q q2 : JobQueue} (h : Settled r s q)
    (hjobs : q2.m_jobs = q.m_jobs)
    (hfl : r ∈ q2.inFlightIds → r ∈ q.inFlightIds) : Settled r s q2 :=
  ⟨by rw [statusOf_congr q q2 hjobs]; exact h.status, fun hr => h.free (hfl hr)⟩

theorem Settled.of_update {r : JobId} {s : JobStatus} {q q2 : JobQueue} (h : Settled r s q)
    (r2 : JobId) (f : Job → Job) (hf : ∀ j, (f j).m_id = j.m_id)
    (hjobs : q2.m_jobs = updateFirst (fun job => decide (job.m_id = r2)) f q.m_jobs)
    (hr2 : r2 ∈ q.inFlightIds)
    (hfl : r ∈ q2.inFlightIds → r ∈ q.inFlightIds) : Settled r s q2 := by
  refine ⟨?_, fun hr => h.free (hfl hr)⟩
  rw [statusOf_update q q2 r2 f hf hjobs, if_neg]
  · exact h.status
  · intro he
    exact h.free (he ▸ hr2)

/-- A dispatch pass never hands a job with a terminal status to the pool. -/
theorem Settled.settled_dispatch {r : JobId} {s : JobStatus} {q : JobQueue}
    (h : Settled r s q) (hi : IdsInv q) (ht : s.isTerminal = true) :
    Settled r s q.processNextJob := by
  unfold JobQueue.processNextJob
  split_ifs
  · exact h
  · cases hf : q.m_jobs.find? (fun job => decide (job.m_status = JobStatus.Pending)) with
    | none =>
      simp only
      split_ifs
      · exact h.of_same rfl (fun ha => ha)
      · exact h
    | some j =>
      simp only
      have hj : j ∈ q.m_jobs := List.mem_of_find?_eq_some hf
      have hp : j.m_status = JobStatus.Pending := by simpa using List.find?_some hf
      have hne : r ≠ j.m_id := by
        intro he
        have hfj := find_of_mem q.m_jobs hi.nodup j hj
        have hs := h.status
        unfold JobQueue.statusOf at hs
        rw [he, hfj] at hs
        simp only [Option.map_some', Option.some.injEq] at hs
        rw [hp] at hs
        rw [← hs] at ht
        cases ht
      refine h.of_same rfl ?_
      intro ha
      rw [mem_inFlightIds] at ha ⊢
      rcases ha with ha | ha
      · rcases QThreadPool.start_runners _ _ _ ha with h1 | h1
        · exact absurd h1 hne
        · exact Or.inl h1
      · exact Or.inr ha

theorem Settled.settled_addJob {r : JobId} {s : JobStatus} {q : JobQueue}
    (h : Settled r s q) (filePath : QString) (inputSize : Int) (settings : Settings) :
    Settled r s (q.addJob filePath inputSize settings) := by
  refine ⟨?_, h.free⟩
  have hs := h.status
  unfold JobQueue.statusOf at hs ⊢
  unfold JobQueue.addJob
  simp only [List.find?_append]
  cases hf : q.m_jobs.find? (fun job => decide (job.m_id = r)) with
  | none => rw [hf] at hs; cases hs
  | some j => rw [hf] at hs; simpa using hs

theorem Settled.settled_start {r : JobId} {s : JobStatus} {q : JobQueue}
    (h : Settled r s q) (hi : IdsInv q) (ht : s.isTerminal = true) (K : Nat) :
    Settled r s (q.start K) := by
  unfold JobQueue.start
  split_ifs
  · exact h
  · exact h
  · refine Settled.settled_dispatch (h.of_same rfl ?_) (hi.of_ids rfl rfl) ht
    intro ha
    rw [mem_inFlightIds] at ha ⊢
    rcases ha with ha | ha
    · exact Or.inl (QThreadPool.setMaxThreadCount_runners _ _ _ ha)
    · exact Or.inr ha

theorem Settled.settled_cancel {r : JobId} {s : JobStatus} {q : JobQueue}
    (h : Settled r s q) (ht : s.isTerminal = true) (jobId : JobId) (now : Int) :
    Settled r s (q.cancel jobId now) := by
  refine ⟨?_, h.free⟩
  have hid : ∀ j : Job, (if j.m_status = JobStatus.Pending then
      j.setStatus JobStatus.Cancelled now else j).m_id = j.m_id := by
    intro j
    split_ifs
    · exact (Job.setStatus_fields _ _ _).1
    · rfl
  rw [statusOf_update q (q.cancel jobId now) jobId _ hid rfl]
  have hs := h.status
  split_ifs with he
  · unfold JobQueue.statusOf at hs
    rw [he] at hs
    cases hf : q.m_jobs.find? (fun job => decide (job.m_id = jobId)) with
    | none => rw [hf] at hs; cases hs
    | some j =>
      rw [hf] at hs
      simp only [Option.map_some', Option.some.injEq] at hs ⊢
      have hnp : ¬ j.m_status = JobStatus.Pending := by
        intro hp
        rw [hp] at hs
        rw [← hs] at ht
        cases ht
      rw [if_neg hnp]
      exact hs
  · exact hs

theorem Settled.settled_workerStart {r : JobId} {s : JobStatus} {q : JobQueue}
    (h : Settled r s q) (i : Nat) (now : Int) : Settled r s (q.workerStart i now) := by
  unfold JobQueue.workerStart
  cases hb : q.m_threadPool.beginRun i with
  | none => exact h
  | some rp =>
    obtain ⟨r2, pool⟩ := rp
    have hm := QThreadPool.beginRun_runners _ _ _ _ hb
    refine h.of_update r2 _ (fun j => (Job.setStatus_fields _ _ _).1) rfl ?_ ?_
    · exact (mem_inFlightIds q r2).mpr (Or.inl hm.1)
    · intro ha
      rw [mem_inFlightIds] at ha ⊢
      rcases ha with ha | ha
      · exact Or.inl (hm.2 r ha)
      · exact Or.inr ha

theorem Settled.settled_workerProgress {r : JobId} {s : JobStatus} {q : JobQueue}
    (h : Settled r s q) (i : Nat) (p : Int) : Settled r s (q.workerProgress i p) := by
  unfold JobQueue.workerProgress
  cases q.m_threadPool.running.get? i with
  | none => exact h
  | some r2 =>
    refine h.of_same rfl ?_
    intro ha
    rw [mem_inFlightIds] at ha ⊢
    rcases ha with ha | ha
    · exact Or.inl ha
    · unfold JobQueue.postedFinishedIds at ha ⊢
      rw [fin_append_progress] at ha
      exact Or.inr ha

theorem Settled.settled_workerFinish {r : JobId} {s : JobStatus} {q : JobQueue}
    (h : Settled r s q) (i : Nat) (result : StrategyResult) :
    Settled r s (q.workerFinish i result) := by
  unfold JobQueue.workerFinish
  cases hb : q.m_threadPool.endRun i with
  | none => exact h
  | some rp =>
    obtain ⟨r2, pool⟩ := rp
    have hm := QThreadPool.endRun_runners _ _ _ _ hb
    simp only
    cases q.m_jobs.find? (fun job => decide (job.m_id = r2)) with
    | none =>
      refine h.of_same rfl ?_
      intro ha
      rw [mem_inFlightIds] at ha ⊢
      rcases ha with ha | ha
      · exact Or.inl (hm.2 r ha)
      · exact Or.inr ha
    | some job =>
      refine h.of_update r2 _ (fun j => (JobRunner.process_fields j result).1) rfl ?_ ?_
      · exact (mem_inFlightIds q r2).mpr (Or.inl hm.1)
      · intro ha
        rw [mem_inFlightIds] at ha ⊢
        rcases ha with ha | ha
        · exact Or.inl (hm.2 r ha)
        · unfold JobQueue.postedFinishedIds at ha ⊢
          rw [fin_append_finished, List.mem_append, List.mem_singleton] at ha
          rcases ha with ha | ha
          · exact Or.inr ha
          · exact Or.inl (ha ▸ hm.1)

theorem Settled.settled_deliver {r : JobId} {s : JobStatus} {q : JobQueue}
    (h : Settled r s q) (hi : IdsInv q) (ht : s.isTerminal = true) (now : Int) :
    Settled r s (q.deliver now) := by
  unfold JobQueue.deliver
  cases hpo : q.posted with
  | nil => exact h
  | cons c rest =>
    cases c with
    | progress r2 p =>
      refine h.of_same rfl ?_
      intro ha
      rw [mem_inFlightIds] at ha ⊢
      rcases ha with ha | ha
      · exact Or.inl ha
      · unfold JobQueue.postedFinishedIds at ha ⊢
        rw [hpo]
        simp only [List.filterMap_cons, QueuedCall.finishedId]
        exact Or.inr ha
    | finished r2 success error =>
      simp only
      unfold JobQueue.onJobFinished
      have hid : ∀ j : Job, (if success = true then
          (j.setStatus JobStatus.Completed now).setProgress 100
          else j.setError error now).m_id = j.m_id :=
        fun j => (onJobFinished_job j success error now).1
      have hr2 : r2 ∈ q.inFlightIds := by
        rw [mem_inFlightIds]
        refine Or.inr ?_
        unfold JobQueue.postedFinishedIds
        rw [hpo]
        simp [QueuedCall.finishedId]
      refine Settled.settled_dispatch (h.of_update r2 _ hid rfl hr2 ?_)
        (hi.of_ids (updateFirst_ids _ _ hid _) rfl) ht
      intro ha
      rw [mem_inFlightIds] at ha ⊢
      rcases ha with ha | ha
      · exact Or.inl ha
      · unfold JobQueue.postedFinishedIds at ha ⊢
        rw [hpo]
        simp only [List.filterMap_cons, QueuedCall.finishedId]
        exact Or.inr (List.mem_cons_of_mem _ ha)

theorem Settled.settled_mark {r : JobId} {s : JobStatus} {q : JobQueue}
    (h : Settled r s q) (ht : s.isTerminal = true) (now : Int) :
    Settled r s
      { q with m_jobs := q.m_jobs.map (fun job =>
          if job.m_status = JobStatus.Processing then job.setStatus JobStatus.Cancelled now
          else job) } := by
  refine ⟨?_, h.free⟩
  have hs := h.status
  unfold JobQueue.statusOf at hs ⊢
  simp only [List.find?_map]
  have hfun : ((fun job : Job => decide (job.m_id = r)) ∘ fun job : Job =>
      if job.m_status = JobStatus.Processing then job.setStatus JobStatus.Cancelled now
      else job) = fun job : Job => decide (job.m_id = r) := by
    funext j
    simp only [Function.comp]
    split_ifs
    · rw [(Job.setStatus_fields _ _ _).1]
    · rfl
  rw [hfun]
  cases hf : q.m_jobs.find? (fun job => decide (job.m_id = r)) with
  | none => rw [hf] at hs; cases hs
  | some j =>
    rw [hf] at hs
    simp only [Option.map_some', Option.some.injEq] at hs ⊢
    have hnp : ¬ j.m_status = JobStatus.Processing := by
      intro hp
      rw [hp] at hs
      rw [← hs] at ht
      cases ht
    rw [if_neg hnp]
    exact hs

theorem Settled.settled_stopAll {r : JobId} {s : JobStatus} {q : JobQueue}
    (h : Settled r s q) (ht : s.isTerminal = true) (results : List StrategyResult)
    (now : Int) : Settled r s (q.stopAll results now) := by
  have h1 : Settled r s { q with m_isProcessing := false, m_isPaused := false,
                                 m_threadPool := q.m_threadPool.clear } := by
    refine h.of_same rfl ?_
    intro ha
    rw [mem_inFlightIds] at ha ⊢
    rcases ha with ha | ha
    · exact Or.inl (QThreadPool.clear_runners _ _ ha)
    · exact Or.inr ha
  have h2 := drain_induct (Settled r s) now (fun q hq => hq.settled_workerStart 0 now)
    (fun q result hq => hq.settled_workerFinish 0 result)
    (2 * q.m_threadPool.clear.activeThreadCount) results _ h1
  exact h2.settled_mark ht now

/-- A job with a terminal status that nothing in flight refers to stays so
under every event. -/
theorem Settled.settled_step {r : JobId} {s : JobStatus} {q : JobQueue}
    (h : Settled r s q) (hi : IdsInv q) (ht : s.isTerminal = true) (now : Int) (e : Event) :
    Settled r s (q.step now e) := by
  cases e with
  | addJob path size settings => exact h.settled_addJob path size settings
  | start K => exact h.settled_start hi ht K
  | pause => exact h.of_same rfl (fun ha => ha)
  | resume => exact Settled.settled_dispatch (h.of_same rfl (fun ha => ha)) (hi.of_ids rfl rfl) ht
  | stopAll results => exact h.settled_stopAll ht results now
  | cancel id => exact h.settled_cancel ht id now
  | workerStart i => exact h.settled_workerStart i now
  | workerProgress i p => exact h.settled_workerProgress i p
  | workerFinish i result => exact h.settled_workerFinish i result
  | deliver => exact h.settled_deliver hi ht now

theorem Settled.settled_exec {r : JobId} {s : JobStatus} (ht : s.isTerminal = true)
    (trace : List (Int × Event)) :
    ∀ q : JobQueue, IdsInv q → Settled r s q → Settled r s (JobQueue.exec q trace) := by
  induction trace with
  | nil => intro q _ h; exact h
  | cons te rest ih =>
    intro q hi h
    exact ih _ (hi.ids_step te.1 te.2) (h.settled_step hi ht te.1 te.2)

/-! ## Terminal statuses -/

/-- C14 as stated fails, in three ways. In `lateCompletionRun` the job is
Cancelled by `stopAll` and becomes Completed when the completion posted
before is recorded. In `cancelledRun` the job is Cancelled by `cancel` and
becomes Processing when the worker it was handed to begins it. In
`doubleDispatchRun` the job is Failed and becomes Processing when the
second worker it was handed to begins it. -/
theorem C14_counterexample :
    ((JobQueue.exec {} (lateCompletionRun.take 5)).statusOf 0 = some JobStatus.Cancelled ∧
      (JobQueue.exec {} lateCompletionRun).statusOf 0 = some JobStatus.Completed) ∧
    ((JobQueue.exec {} (cancelledRun.take 3)).statusOf 0 = some JobStatus.Cancelled ∧
      (JobQueue.exec {} (cancelledRun.take 4)).statusOf 0 = some JobStatus.Processing) ∧
    ((JobQueue.exec {} (doubleDispatchRun.take 6)).statusOf 0 = some JobStatus.Failed ∧
      (JobQueue.exec {} doubleDispatchRun).statusOf 0 = some JobStatus.Processing) := by
  decide

/-- In an execution from the new queue made of any events, a job that has a
terminal status while the pool holds no runnable for it and no completion of
it waits to be recorded keeps that status in every later state. -/
theorem settled_terminal_final (trace1 trace2 : List (Int × Event)) (jobId : JobId)
    (s : JobStatus)
    (hs : (JobQueue.exec {} trace1).statusOf jobId = some s)
    (ht : s.isTerminal = true)
    (hfree : jobId ∉ (JobQueue.exec {} trace1).inFlightIds) :
    (JobQueue.exec {} (trace1 ++ trace2)).statusOf jobId = some s := by
  have h0 : IdsInv ({} : JobQueue) := ⟨by decide, by intro j hj; cases hj⟩
  have hi := IdsInv.ids_exec trace1 {} h0
  rw [exec_append]
  exact (Settled.settled_exec ht trace2 _ hi ⟨hs, hfree⟩).status

/-- C14 (amended): in every execution from the new queue, made of any
sequence of `addJob`, `start`, `pause`, `resume`, `cancel`, `stopAll`,
worker and delivery events, a job whose status is Completed, Failed or
Cancelled at an instant at which the pool holds no runnable created for it
(queued, handed to a thread, or inside `run()`) and no completion of it is
posted and not yet recorded keeps that status in every later state; and in
an execution without `resume`, `cancel` and `stopAll` a job keeps a terminal
status in every later state without that condition. -/
theorem C14_terminal_final (trace1 trace2 : List (Int × Event)) (jobId : JobId)
    (s : JobStatus)
    (hs : (JobQueue.exec {} trace1).statusOf jobId = some s)
    (ht : s.isTerminal = true) :
    (jobId ∉ (JobQueue.exec {} trace1).inFlightIds →
      (JobQueue.exec {} (trace1 ++ trace2)).statusOf jobId = some s) ∧
    ((∀ te ∈ trace1, te.2.isPlainEvent = true) →
      (∀ te ∈ trace2, te.2.isPlainEvent = true) →
      (JobQueue.exec {} (trace1 ++ trace2)).statusOf jobId = some s) :=
  ⟨fun hfree => settled_terminal_final trace1 trace2 jobId s hs ht hfree,
   fun h1 h2 => plain_terminal_final trace1 trace2 jobId s h1 h2 hs ht⟩

theorem C14_terminal_final_witness :
    ((JobQueue.exec {} settledRun).statusOf 1 = some JobStatus.Cancelled ∧
      1 ∉ (JobQueue.exec {} settledRun).inFlightIds ∧
      (JobQueue.exec {} (settledRun ++ restartRun)).statusOf 0 = some JobStatus.Completed ∧
      (JobQueue.exec {} (settledRun ++ restartRun)).statusOf 1 = some JobStatus.Cancelled) ∧
    ((JobQueue.exec {} completedRun).statusOf 0 = some JobStatus.Completed ∧
      (JobQueue.exec {} (completedRun ++ followUpRun)).statusOf 1 = some JobStatus.Failed ∧
      (JobQueue.exec {} (completedRun ++ followUpRun)).statusOf 0 =
        some JobStatus.Completed) :=
  ⟨⟨by decide, by decide, by decide,
    (C14_terminal_final settledRun restartRun 1 JobStatus.Cancelled (by decide)
      (by decide)).1 (by decide)⟩,
   ⟨by decide, by decide,
    (C14_terminal_final completedRun followUpRun 0 JobStatus.Completed (by decide)
      (by decide)).2 (by decide) (by decide)⟩⟩

/-! ## Claims about sequences of writes to one job -/

theorem Job.new_times (id : JobId) (path : QString) (size : Int) (settings : Settings) :
    (Job.new id path size settings).m_startTime = none ∧
    (Job.new id path size settings).m_endTime = none ∧
    (Job.new id path size settings).m_errorMessage = [] := by
  unfold Job.new Job.generateOutputPath Job.determineJobType
  simp only
  split_ifs <;> exact ⟨rfl, rfl, rfl⟩

theorem Job.applyOps_append (j : Job) (ops1 ops2 : List JobOp) :
    j.applyOps (ops1 ++ ops2) = (j.applyOps ops1).applyOps ops2 := by
  unfold Job.applyOps
  exact List.foldl_append _ _ _ _

theorem Job.applyOps_cons (j : Job) (op : JobOp) (ops : List JobOp) :
    j.applyOps (op :: ops) = (j.applyOp op).applyOps ops := rfl

theorem Job.applyOp_endTime (j : Job) (op : JobOp) :
    (j.applyOp op).m_endTime.isSome = (j.m_endTime.isSome || op.writesTerminal) := by
  cases op with
  | setStatus status now =>
    cases status <;> cases h : j.m_endTime <;> cases h2 : j.m_startTime <;>
      simp [Job.applyOp, Job.setStatus, JobOp.writesTerminal, JobStatus.isTerminal, h, h2]
  | setProgress p => simp [Job.applyOp, Job.setProgress, JobOp.writesTerminal]
  | setError e now => simp [Job.applyOp, Job.setError, JobOp.writesTerminal]
  | setOutputSize s => simp [Job.applyOp, Job.setOutputSize, JobOp.writesTerminal]

theorem Job.applyOps_endTime (ops : List JobOp) :
    ∀ j : Job, (j.applyOps ops).m_endTime.isSome = true ↔
      (j.m_endTime.isSome = true ∨ ∃ op ∈ ops, op.writesTerminal = true) := by
  induction ops with
  | nil => intro j; simp [Job.applyOps]
  | cons op ops ih =>
    intro j
    rw [Job.applyOps_cons, ih, Job.applyOp_endTime]
    simp only [Bool.or_eq_true, List.mem_cons, exists_eq_or_imp]
    tauto

theorem Job.applyOp_terminal (j : Job) (op : JobOp)
    (h : j.m_status.isTerminal = true → j.m_endTime.isSome = true)
    (ht : (j.applyOp op).m_status.isTerminal = true) :
    (j.applyOp op).m_endTime.isSome = true := by
  rw [Job.applyOp_endTime]
  cases op with
  | setStatus status now =>
    have : (j.setStatus status now).m_status = status := (Job.setStatus_fields _ _ _).2.2.1
    simp only [Job.applyOp, this] at ht
    simp [JobOp.writesTerminal, ht]
  | setProgress p => simpa [JobOp.writesTerminal] using h ht
  | setError e now => simp [JobOp.writesTerminal]
  | setOutputSize s => simpa [JobOp.writesTerminal] using h ht

theorem Job.applyOps_terminal (ops : List JobOp) :
    ∀ j : Job, (j.m_status.isTerminal = true → j.m_endTime.isSome = true) →
      (j.applyOps ops).m_status.isTerminal = true → (j.applyOps ops).m_endTime.isSome = true := by
  induction ops with
  | nil => intro j h; exact h
  | cons op ops ih =>
    intro j h
    rw [Job.applyOps_cons]
    exact ih _ (Job.applyOp_terminal j op h)

/-- C21 as stated fails: a new job that is set to Completed at time 5 and to
Processing at time 6 has finishedAt set (to 5) while its status is not
terminal. -/
theorem C21_counterexample :
    ((Job.new 0 "/d/a.png".toList 10
        (Settings.mk [] false 1 "keep".toList "keep".toList)).applyOps
      [JobOp.setStatus JobStatus.Completed 5,
       JobOp.setStatus JobStatus.Processing 6]).m_endTime = some 5 ∧
    ((Job.new 0 "/d/a.png".toList 10
        (Settings.mk [] false 1 "keep".toList "keep".toList)).applyOps
      [JobOp.setStatus JobStatus.Completed 5,
       JobOp.setStatus JobStatus.Processing 6]).m_status = JobStatus.Processing ∧
    ¬ (((Job.new 0 "/d/a.png".toList 10
          (Settings.mk [] false 1 "keep".toList "keep".toList)).applyOps
        [JobOp.setStatus JobStatus.Completed 5,
         JobOp.setStatus JobStatus.Processing 6]).m_endTime.isSome = true ↔
      ((Job.new 0 "/d/a.png".toList 10
          (Settings.mk [] false 1 "keep".toList "keep".toList)).applyOps
        [JobOp.setStatus JobStatus.Completed 5,
         JobOp.setStatus JobStatus.Processing 6]).m_status.isTerminal = true) := by
  decide

/-- C21 (amended): after every sequence of writes (`setStatus` with any
status, `setProgress`, `setError`, `setOutputSize`) to a newly constructed
job, finishedAt is set if and only if one of the writes gave the job a
terminal status (a `setStatus` with Completed, Failed or Cancelled, or a
`setError`); in particular finishedAt is set whenever the current status is
terminal. -/
theorem C21_finishedAt (id : JobId) (path : QString) (size : Int) (settings : Settings)
    (ops : List JobOp) :
    (((Job.new id path size settings).applyOps ops).m_endTime.isSome = true ↔
      ∃ op ∈ ops, op.writesTerminal = true) ∧
    (((Job.new id path size settings).applyOps ops).m_status.isTerminal = true →
      ((Job.new id path size settings).applyOps ops).m_endTime.isSome = true) := by
  have hn := Job.new_times id path size settings
  have hs := Job.new_status id path size settings
  refine ⟨?_, ?_⟩
  · rw [Job.applyOps_endTime, hn.2.1]
    simp
  · refine Job.applyOps_terminal ops _ ?_
    intro ht
    rw [hs] at ht
    cases ht

theorem C21_finishedAt_witness :
    ((Job.new 0 "/d/a.png".toList 10
        (Settings.mk [] false 1 "keep".toList "keep".toList)).applyOps
      [JobOp.setStatus JobStatus.Processing 3, JobOp.setProgress 40,
       JobOp.setStatus JobStatus.Cancelled 8]).m_status = JobStatus.Cancelled ∧
    ((Job.new 0 "/d/a.png".toList 10
        (Settings.mk [] false 1 "keep".toList "keep".toList)).applyOps
      [JobOp.setStatus JobStatus.Processing 3, JobOp.setProgress 40,
       JobOp.setStatus JobStatus.Cancelled 8]).m_endTime.isSome = true :=
  ⟨by decide,
   (C21_finishedAt 0 "/d/a.png".toList 10 (Settings.mk [] false 1 "keep".toList "keep".toList)
      [JobOp.setStatus JobStatus.Processing 3, JobOp.setProgress 40,
       JobOp.setStatus JobStatus.Cancelled 8]).2 (by decide)⟩

theorem Job.applyOp_startTime_some (j : Job) (op : JobOp) (t : Int)
    (h : j.m_startTime = some t) : (j.applyOp op).m_startTime = some t := by
  cases op with
  | setStatus status now =>
    cases status <;> simp [Job.applyOp, Job.setStatus, h]
  | setProgress p => exact h
  | setError e now => exact h
  | setOutputSize s => exact h

theorem Job.applyOps_startTime_some (ops : List JobOp) :
    ∀ (j : Job) (t : Int), j.m_startTime = some t → (j.applyOps ops).m_startTime = some t := by
  induction ops with
  | nil => intro j t h; exact h
  | cons op ops ih =>
    intro j t h
    rw [Job.applyOps_cons]
    exact ih _ t (Job.applyOp_startTime_some j op t h)

theorem Job.applyOp_startTime_none (j : Job) (op : JobOp) (h : j.m_startTime = none)
    (hop : op.isBegin = false) : (j.applyOp op).m_startTime = none := by
  cases op with
  | setStatus status now =>
    cases status <;> first
      | (simp [JobOp.isBegin] at hop; done)
      | simp [Job.applyOp, Job.setStatus, h]
  | setProgress p => exact h
  | setError e now => exact h
  | setOutputSize s => exact h

theorem Job.applyOps_startTime_none (ops : List JobOp) :
    ∀ j : Job, j.m_startTime = none → (∀ op ∈ ops, op.isBegin = false) →
      (j.applyOps ops).m_startTime = none := by
  induction ops with
  | nil => intro j h _; exact h
  | cons op ops ih =>
    intro j h hall
    rw [Job.applyOps_cons]
    exact ih _ (Job.applyOp_startTime_none j op h (hall op (List.mem_cons_self _ _)))
      (fun o ho => hall o (List.mem_cons_of_mem _ ho))

/-- C23: a newly constructed job has no startedAt, and neither has it after
writes `ops1` among which there is no `setStatus(Processing)`; the first
`setStatus(Processing)`, at time `t`, stamps startedAt with `t`; and after
any later writes `ops2`, among them any number of `setStatus(Processing)` at
any times, startedAt is still `t`. -/
theorem C23_startedAt (id : JobId) (path : QString) (size : Int) (settings : Settings)
    (ops1 ops2 : List JobOp) (t : Int) (h : ∀ op ∈ ops1, op.isBegin = false) :
    ((Job.new id path size settings).applyOps ops1).m_startTime = none ∧
    ((Job.new id path size settings).applyOps
      (ops1 ++ [JobOp.setStatus JobStatus.Processing t])).m_startTime = some t ∧
    ((Job.new id path size settings).applyOps
      (ops1 ++ JobOp.setStatus JobStatus.Processing t :: ops2)).m_startTime = some t := by
  have h1 := Job.applyOps_startTime_none ops1 _ (Job.new_times id path size settings).1 h
  have h2 : (((Job.new id path size settings).applyOps ops1).applyOp
      (JobOp.setStatus JobStatus.Processing t)).m_startTime = some t := by
    simp [Job.applyOp, Job.setStatus, h1]
  refine ⟨h1, ?_, ?_⟩
  · rw [Job.applyOps_append]
    exact h2
  · rw [Job.applyOps_append, Job.applyOps_cons]
    exact Job.applyOps_startTime_some ops2 _ t h2

theorem C23_startedAt_witness :
    ((Job.new 0 "/d/a.png".toList 10
        (Settings.mk [] false 1 "keep".toList "keep".toList)).applyOps
      ([JobOp.setStatus JobStatus.Cancelled 2, JobOp.setProgress 30] ++
        [JobOp.setStatus JobStatus.Processing 4])).m_startTime = some 4 ∧
    ((Job.new 0 "/d/a.png".toList 10
        (Settings.mk [] false 1 "keep".toList "keep".toList)).applyOps
      ([JobOp.setStatus JobStatus.Cancelled 2, JobOp.setProgress 30] ++
        JobOp.setStatus JobStatus.Processing 4 ::
          [JobOp.setError "no codec".toList 6, JobOp.setStatus JobStatus.Processing 9,
           JobOp.setStatus JobStatus.Completed 12,
           JobOp.setStatus JobStatus.Processing 15])).m_startTime = some 4 :=
  (C23_startedAt 0 "/d/a.png".toList 10 (Settings.mk [] false 1 "keep".toList "keep".toList)
    [JobOp.setStatus JobStatus.Cancelled 2, JobOp.setProgress 30]
    [JobOp.setError "no codec".toList 6, JobOp.setStatus JobStatus.Processing 9,
     JobOp.setStatus JobStatus.Completed 12, JobOp.setStatus JobStatus.Processing 15] 4
    (by decide)).2

/-! ## Claims about the dispatch pass and the recording of completions -/

/-- C24: a dispatch pass on a queue that is Running and not Paused. When no
job is Pending and none is Processing it resets Running and emits
`allJobsCompleted` once, changing nothing else; when no job is Pending and
some job is Processing it leaves the whole queue as it is. When a job is
Pending, the first such job is handed to the pool (`jobStarted` is emitted)
and the queue stays Running. In every case the jobs are left as they are. -/
theorem C24_dispatch_pass (q : JobQueue) (hp : q.m_isPaused = false)
    (hr : q.m_isProcessing = true) :
    ((∀ j ∈ q.m_jobs, j.m_status ≠ JobStatus.Pending) →
      (∀ j ∈ q.m_jobs, j.m_status ≠ JobStatus.Processing) →
      q.processNextJob =
        { q with m_isProcessing := false,
                 emitted := q.emitted ++ [Signal.allJobsCompleted] }) ∧
    ((∀ j ∈ q.m_jobs, j.m_status ≠ JobStatus.Pending) →
      (∃ j ∈ q.m_jobs, j.m_status = JobStatus.Processing) →
      q.processNextJob = q) ∧
    q.processNextJob.m_jobs = q.m_jobs ∧
    (∀ (pre : List Job) (job : Job) (post : List Job), q.m_jobs = pre ++ job :: post →
      (∀ j ∈ pre, j.m_status ≠ JobStatus.Pending) → job.m_status = JobStatus.Pending →
      q.processNextJob =
        { q with emitted := q.emitted ++ [Signal.jobStarted job.m_id],
                 m_threadPool := q.m_threadPool.start job.m_id } ∧
      q.processNextJob.m_isProcessing = true ∧
      job.m_id ∈ (q.m_threadPool.start job.m_id).runners) := by
  have h := processNextJob_cases q hp hr
  refine ⟨h.2.1, h.2.2, processNextJob_jobs q, ?_⟩
  intro pre job post hjobs hpre hjob
  have he := h.1 pre job post hjobs hpre hjob
  refine ⟨he, ?_, ?_⟩
  · rw [he]
    exact hr
  · unfold QThreadPool.start QThreadPool.runners
    split_ifs <;> simp

theorem C24_dispatch_pass_witness :
    JobQueue.processNextJob
      { m_jobs := [{ m_id := 0, m_inputPath := [], m_status := JobStatus.Completed },
                   { m_id := 1, m_inputPath := [], m_status := JobStatus.Cancelled }],
        m_isProcessing := true } =
      { m_jobs := [{ m_id := 0, m_inputPath := [], m_status := JobStatus.Completed },
                   { m_id := 1, m_inputPath := [], m_status := JobStatus.Cancelled }],
        m_isProcessing := false,
        emitted := [Signal.allJobsCompleted] } ∧
    JobQueue.processNextJob
      { m_jobs := [{ m_id := 0, m_inputPath := [], m_status := JobStatus.Processing },
                   { m_id := 1, m_inputPath := [], m_status := JobStatus.Failed }],
        m_isProcessing := true } =
      { m_jobs := [{ m_id := 0, m_inputPath := [], m_status := JobStatus.Processing },
                   { m_id := 1, m_inputPath := [], m_status := JobStatus.Failed }],
        m_isProcessing := true } :=
  ⟨(C24_dispatch_pass
      { m_jobs := [{ m_id := 0, m_inputPath := [], m_status := JobStatus.Completed },
                   { m_id := 1, m_inputPath := [], m_status := JobStatus.Cancelled }],
        m_isProcessing := true } rfl rfl).1 (by decide) (by decide),
   (C24_dispatch_pass
      { m_jobs := [{ m_id := 0, m_inputPath := [], m_status := JobStatus.Processing },
                   { m_id := 1, m_inputPath := [], m_status := JobStatus.Failed }],
        m_isProcessing := true } rfl rfl).2.1 (by decide) (by decide)⟩

/-- C25: `onJobFinished(id, success, error)` is one dispatch pass on the
queue in which the first job carrying the identifier has been set to
Completed with progress 100 and the current time as finishedAt (on success)
or to Failed with the error text and the current time as finishedAt (on
failure), every other job and every other field of that job staying as they
are, and in which `jobCompleted` or `jobFailed` and `progressChanged` have
been emitted; when no job carries the identifier no job changes, and the
signals and the dispatch pass are the same. -/
theorem C25_onJobFinished (q : JobQueue) (jobId : JobId) (error : QString) (now : Int) :
    (∀ (pre : List Job) (job : Job) (post : List Job),
      q.m_jobs = pre ++ job :: post → (∀ j ∈ pre, j.m_id ≠ jobId) → job.m_id = jobId →
      q.onJobFinished jobId true error now =
        JobQueue.processNextJob
          { q with
            m_jobs := pre ++ { job with m_status := JobStatus.Completed,
                                        m_endTime := some now,
                                        m_progress := 100 } :: post,
            emitted := q.emitted ++
              [Signal.jobCompleted jobId,
               Signal.progressChanged (JobQueue.totalProgress
                 { q with
                   m_jobs := pre ++ { job with m_status := JobStatus.Completed,
                                               m_endTime := some now,
                                               m_progress := 100 } :: post })] } ∧
      q.onJobFinished jobId false error now =
        JobQueue.processNextJob
          { q with
            m_jobs := pre ++ { job with m_errorMessage := error,
                                        m_status := JobStatus.Failed,
                                        m_endTime := some now } :: post,
            emitted := q.emitted ++
              [Signal.jobFailed jobId error,
               Signal.progressChanged (JobQueue.totalProgress
                 { q with
                   m_jobs := pre ++ { job with m_errorMessage := error,
                                               m_status := JobStatus.Failed,
                                               m_endTime := some now } :: post })] }) ∧
    ((∀ j ∈ q.m_jobs, j.m_id ≠ jobId) →
      ∀ success : Bool,
      q.onJobFinished jobId success error now =
        JobQueue.processNextJob
          { q with
            emitted := q.emitted ++
              [if success = true then Signal.jobCompleted jobId
                 else Signal.jobFailed jobId error,
               Signal.progressChanged q.totalProgress] } ∧
      (q.onJobFinished jobId success error now).m_jobs = q.m_jobs) := by
  refine ⟨?_, ?_⟩
  · intro pre job post hjobs hpre hid
    have hupd : ∀ f : Job → Job,
        updateFirst (fun j => decide (j.m_id = jobId)) f q.m_jobs = pre ++ f job :: post := by
      intro f
      rw [hjobs]
      exact updateFirst_append _ _ _ _ _ (fun j hj => by simpa using hpre j hj)
        (by simpa using hid)
    constructor
    · unfold JobQueue.onJobFinished
      simp only [hupd, if_true, Job.setStatus, Job.setProgress, qBound, JobQueue.totalProgress,
        List.append_assoc, List.singleton_append]
      simp
    · unfold JobQueue.onJobFinished
      simp only [hupd, Bool.false_eq_true, if_false, Job.setError, JobQueue.totalProgress,
        List.append_assoc, List.singleton_append]
  · intro hno success
    have hupd : ∀ f : Job → Job,
        updateFirst (fun j => decide (j.m_id = jobId)) f q.m_jobs = q.m_jobs :=
      fun f => updateFirst_none _ _ _ (fun j hj => by simpa using hno j hj)
    constructor
    · unfold JobQueue.onJobFinished
      simp only [hupd, JobQueue.totalProgress, List.append_assoc, List.singleton_append]
    · unfold JobQueue.onJobFinished
      simp only [hupd]
      exact processNextJob_jobs _

theorem C25_onJobFinished_witness :
    (JobQueue.onJobFinished
      { m_jobs := [{ m_id := 0, m_inputPath := [], m_status := JobStatus.Processing },
                   { m_id := 1, m_inputPath := [] }],
        m_isProcessing := true } 0 true [] 9).m_jobs =
      [{ m_id := 0, m_inputPath := [], m_status := JobStatus.Completed, m_progress := 100,
         m_endTime := some 9 },
       { m_id := 1, m_inputPath := [] }] ∧
    (JobQueue.onJobFinished
      { m_jobs := [{ m_id := 0, m_inputPath := [], m_status := JobStatus.Processing },
                   { m_id := 1, m_inputPath := [] }],
        m_isProcessing := true } 0 false "no codec".toList 9).m_jobs =
      [{ m_id := 0, m_inputPath := [], m_status := JobStatus.Failed,
         m_errorMessage := "no codec".toList, m_endTime := some 9 },
       { m_id := 1, m_inputPath := [] }] ∧
    (JobQueue.onJobFinished
      { m_jobs := [{ m_id := 0, m_inputPath := [], m_status := JobStatus.Processing },
                   { m_id := 1, m_inputPath := [] }],
        m_isProcessing := true } 5 true [] 9).m_jobs =
      [{ m_id := 0, m_inputPath := [], m_status := JobStatus.Processing },
       { m_id := 1, m_inputPath := [] }] :=
  ⟨by
    rw [((C25_onJobFinished
      { m_jobs := [{ m_id := 0, m_inputPath := [], m_status := JobStatus.Processing },
                   { m_id := 1, m_inputPath := [] }],
        m_isProcessing := true } 0 [] 9).1 []
      { m_id := 0, m_inputPath := [], m_status := JobStatus.Processing }
      [{ m_id := 1, m_inputPath := [] }] rfl (by decide) rfl).1]
    decide,
   by decide,
   ((C25_onJobFinished
      { m_jobs := [{ m_id := 0, m_inputPath := [], m_status := JobStatus.Processing },
                   { m_id := 1, m_inputPath := [] }],
        m_isProcessing := true } 5 [] 9).2 (by decide) true).2⟩

/-! ## A job handed to the pool twice -/

/-- C26 fails on the code. In `requeuedRun` (pool of one thread) the second
job is in the pool's queue twice after two `pause`/`resume` pairs, its
status still Pending, and the worker runs it twice (`runLog`). In
`doubleDispatchRun` (pool of two threads) a `resume` right after `start`
hands the one job to the pool a second time, and two workers are inside
`run()` with that job at the same time. -/
theorem C26_job_admitted_twice :
    ((JobQueue.exec {} (requeuedRun.take 8)).m_threadPool.queue = [1, 1] ∧
      (JobQueue.exec {} (requeuedRun.take 8)).m_jobs.map Job.m_status =
        [JobStatus.Processing, JobStatus.Pending]) ∧
    (JobQueue.exec {} requeuedRun).runLog = [0, 1, 1] ∧
    (JobQueue.exec {} (doubleDispatchRun.take 3)).m_threadPool.starting = [0, 0] ∧
    (JobQueue.exec {}
      (doubleDispatchRun.take 3 ++
        [(3, Event.workerStart 0), (4, Event.workerStart 0)])).m_threadPool.running =
      [0, 0] := by
  decide

/-! ## The encoder of a WebM job -/

/-- C27 fails on the code. For the WebM job `webmJob` and the default
settings, whose codec is "av1", the command line passes `libx264` after
`-c:v`; and whatever the GPU flags and the other settings are, a configured
codec "av1" gives the encoder `libx264` for this job. -/
theorem C27_webm_av1_encoder :
    webmJob.m_outputPath = "/d/clip_converted.webm".toList ∧
    webmJob.m_type = JobType.Video ∧
    VideoProcessor.buildFFmpegArgs {} VideoSettings.defaults webmJob =
      ["-y", "-hide_banner", "-loglevel", "info", "-stats", "-i", "/d/clip.mp4",
       "-c:v", "libx264", "-crf", "18", "-preset", "medium", "-pix_fmt", "yuv420p",
       "-c:a", "libopus", "-b:a", "192k", "/d/clip_converted.webm"].map String.toList ∧
    ∀ (vp : VideoProcessor) (settings : VideoSettings),
      vp.chooseCodec { settings with videoCodec := "av1".toList } webmJob =
        ("av1".toList, false) ∧
      (VideoProcessor.videoArgs { settings with videoCodec := "av1".toList }
        "av1".toList false).take 2 = ["-c:v".toList, "libx264".toList] := by
  refine ⟨by decide, by decide, by decide, ?_⟩
  intro vp settings
  refine ⟨?_, rfl⟩
  have h : (QFileInfo.suffix webmJob.m_outputPath).toLower = "webm".toList := by decide
  unfold VideoProcessor.chooseCodec
  simp only [h, if_true]
  decide

/-! ## The destination never is the source -/

theorem Char.toUpper_slash (c : Char) (h : c.toUpper = '/') : c = '/' := by
  by_cases hr : c.toNat ≥ 97 ∧ c.toNat ≤ 122
  · obtain ⟨h1, h2⟩ := hr
    have hc : c = Char.ofNat c.toNat := (Char.ofNat_toNat c).symm
    generalize c.toNat = n at hc h1 h2
    subst hc
    revert h
    interval_cases n <;> decide
  · have : c.toUpper = c := by
      unfold Char.toUpper
      simp only [hr, if_false]
    rw [this] at h
    exact h

theorem Char.toLower_slash (c : Char) (h : c.toLower = '/') : c = '/' := by
  by_cases hr : c.toNat ≥ 65 ∧ c.toNat ≤ 90
  · obtain ⟨h1, h2⟩ := hr
    have hc : c = Char.ofNat c.toNat := (Char.ofNat_toNat c).symm
    generalize c.toNat = n at hc h1 h2
    subst hc
    revert h
    interval_cases n <;> decide
  · have : c.toLower = c := by
      unfold Char.toLower
      simp only [hr, if_false]
    rw [this] at h
    exact h

theorem QString.toUpper_no_slash (s : QString) (h : '/' ∉ s) : '/' ∉ s.toUpper := by
  intro hm
  unfold QString.toUpper at hm
  obtain ⟨c, hc, he⟩ := List.mem_map.mp hm
  exact h (Char.toUpper_slash c he ▸ hc)

theorem QString.toLower_no_slash (s : QString) (h : '/' ∉ s) : '/' ∉ s.toLower := by
  intro hm
  unfold QString.toLower at hm
  obtain ⟨c, hc, he⟩ := List.mem_map.mp hm
  exact h (Char.toLower_slash c he ▸ hc)

theorem splitLast_eq_none {sep : Char} {s : List Char} (h : sep ∉ s) :
    splitLast sep s = none := by
  cases hs : splitLast sep s with
  | none => rfl
  | some p =>
    obtain ⟨a, b⟩ := p
    have := (splitLast_some hs).1
    rw [this] at h
    simp at h

theorem splitLast_append {sep : Char} (a b : List Char) (h : sep ∉ b) :
    splitLast sep (a ++ sep :: b) = some (a, b) := by
  induction a with
  | nil =>
    simp only [List.nil_append]
    unfold splitLast
    rw [splitLast_eq_none h]
    simp
  | cons c a ih =>
    simp only [List.cons_append]
    unfold splitLast
    rw [ih]

theorem QFileInfo.fileName_no_slash (path : QString) : '/' ∉ QFileInfo.fileName path := by
  unfold QFileInfo.fileName
  cases hs : splitLast '/' path with
  | none => exact splitLast_none hs
  | some p =>
    obtain ⟨a, b⟩ := p
    exact (splitLast_some hs).2

/-- The file name is the base name, followed by a dot and the suffix when
the file name has a dot. -/
theorem QFileInfo.fileName_parts (path : QString) :
    QFileInfo.fileName path = QFileInfo.completeBaseName path ∨
    QFileInfo.fileName path =
      QFileInfo.completeBaseName path ++ '.' :: QFileInfo.suffix path := by
  unfold QFileInfo.completeBaseName QFileInfo.suffix
  cases hs : splitLast '.' (QFileInfo.fileName path) with
  | none => exact Or.inl rfl
  | some p =>
    obtain ⟨a, b⟩ := p
    exact Or.inr (splitLast_some hs).1

theorem QFileInfo.parts_no_slash (path : QString) :
    '/' ∉ QFileInfo.completeBaseName path ∧ '/' ∉ QFileInfo.suffix path := by
  have hn := QFileInfo.fileName_no_slash path
  have hsuf : QFileInfo.suffix path = [] ∨ QFileInfo.fileName path =
      QFileInfo.completeBaseName path ++ '.' :: QFileInfo.suffix path := by
    unfold QFileInfo.completeBaseName QFileInfo.suffix
    cases hs : splitLast '.' (QFileInfo.fileName path) with
    | none => exact Or.inl rfl
    | some p =>
      obtain ⟨a, b⟩ := p
      exact Or.inr (splitLast_some hs).1
  constructor
  · rcases QFileInfo.fileName_parts path with h | h
    · rw [← h]; exact hn
    · rw [h] at hn
      intro hm
      exact hn (List.mem_append_left _ hm)
  · rcases hsuf with h | h
    · rw [h]; simp
    · rw [h] at hn
      intro hm
      exact hn (List.mem_append_right _ (List.mem_cons_of_mem _ hm))

/-- The file name of a join with a name that holds no separator is that
name. -/
theorem QFileInfo.fileName_filePath (dir name : QString) (hs : '/' ∉ name)
    (hne : name ≠ []) : QFileInfo.fileName (QDir.filePath dir name) = name := by
  have hhead : name.head? ≠ some '/' := by
    intro hh
    cases name with
    | nil => cases hh
    | cons c cs =>
      simp only [List.head?_cons, Option.some.injEq] at hh
      exact hs (hh ▸ List.mem_cons_self _ _)
  have hplain : QFileInfo.fileName name = name := by
    unfold QFileInfo.fileName
    rw [splitLast_eq_none hs]
  have hjoin : ∀ d : QString, QFileInfo.fileName (d ++ '/' :: name) = name := by
    intro d
    unfold QFileInfo.fileName
    rw [splitLast_append d name hs]
  have hlast : ∀ d : QString, d.getLast? = some '/' →
      QFileInfo.fileName (d ++ name) = name := by
    intro d hd
    obtain ⟨d1, hd1⟩ : ∃ d1, d = d1 ++ ['/'] := by
      rcases List.eq_nil_or_concat d with h | ⟨l, b, h⟩
      · rw [h] at hd; cases hd
      · rw [h, List.concat_eq_append, List.getLast?_concat] at hd
        simp only [Option.some.injEq] at hd
        exact ⟨l, by rw [h, hd, List.concat_eq_append]⟩
    rw [hd1, List.append_assoc]
    exact hjoin d1
  unfold QDir.filePath
  simp only [hhead, hne, if_false]
  split_ifs with h1 h2 h3
  · rcases h2 with h | h
    · rw [h]; exact hplain
    · exact hlast _ h
  · exact hjoin _
  · rcases h3 with h | h
    · rw [h]; exact hplain
    · exact hlast _ h
  · exact hjoin _
/-- C28 as stated fails: with output folder `/d` and the image format token
"x/a.png", the source `/d/a_converted.x/a.png` has the destination
`/d/a_converted.x/a.png`, its own path, although overwrite-original is
off. The token is read from the settings store as it stands; the settings
dialog itself writes none with a `/`. -/
theorem C28_counterexample :
    ¬ ((Settings.mk "/d".toList false 1 "x/a.png".toList "keep".toList).overwriteOriginal = true ∧
      (Job.new 0 "/d/a_converted.x/a.png".toList 10
        (Settings.mk "/d".toList false 1 "x/a.png".toList "keep".toList)).m_outputFormat =
      (Job.new 0 "/d/a_converted.x/a.png".toList 10
        (Settings.mk "/d".toList false 1 "x/a.png".toList "keep".toList)).m_inputFormat) ∧
    (Job.new 0 "/d/a_converted.x/a.png".toList 10
      (Settings.mk "/d".toList false 1 "x/a.png".toList "keep".toList)).m_outputPath =
      "/d/a_converted.x/a.png".toList ∧
    QFileInfo.fileName (Job.new 0 "/d/a_converted.x/a.png".toList 10
      (Settings.mk "/d".toList false 1 "x/a.png".toList "keep".toList)).m_outputPath =
      QFileInfo.fileName "/d/a_converted.x/a.png".toList := by
  decide

/-- C28 (amended): for every source path with an ASCII extension and every
configuration whose image and video format tokens are ASCII text without
`/`, unless the in-place exception applies, the file name of the
destination path is `<base>_converted.<ext>` with an ASCII `<ext>`, it
differs from the source file name, and the destination path differs from
the source path, whatever the output folder is. Every token the settings
dialog stores (avif, webp, png, keep, mp4, mkv, webm, keep) is ASCII text
without `/`. -/
theorem C28_destination_differs (id : JobId) (path : QString) (size : Int)
    (settings : Settings)
    (h : ¬ (settings.overwriteOriginal = true ∧
        (Job.new id path size settings).m_outputFormat =
          (Job.new id path size settings).m_inputFormat))
    (hsuf : (QFileInfo.suffix path).isAscii = true)
    (himg : settings.imageOutputFormat.isAscii = true ∧ '/' ∉ settings.imageOutputFormat)
    (hvid : settings.videoOutputFormat.isAscii = true ∧ '/' ∉ settings.videoOutputFormat) :
    QFileInfo.fileName (Job.new id path size settings).m_outputPath =
      QFileInfo.completeBaseName path ++ "_converted.".toList ++
        Job.extensionOf (Job.new id path size settings).m_outputFormat ∧
    QFileInfo.fileName (Job.new id path size settings).m_outputPath ≠
      QFileInfo.fileName path ∧
    (Job.new id path size settings).m_outputPath ≠ path ∧
    (Job.extensionOf (Job.new id path size settings).m_outputFormat).isAscii = true ∧
    (∀ token ∈ SettingsDialog.imageFormats ++ SettingsDialog.videoFormats,
      token.isAscii = true ∧ '/' ∉ token) := by
  have hparts := QFileInfo.parts_no_slash path
  have hfmt : '/' ∉ (Job.new id path size settings).m_outputFormat := by
    rw [Job.new_outputFormat]
    split_ifs
    · exact QString.toUpper_no_slash _ hparts.2
    · exact QString.toUpper_no_slash _ himg.2
    · exact QString.toUpper_no_slash _ hparts.2
    · exact QString.toUpper_no_slash _ hvid.2
    · simp
  have hext : '/' ∉ Job.extensionOf (Job.new id path size settings).m_outputFormat := by
    unfold Job.extensionOf
    simp only
    split_ifs
    · decide
    · exact QString.toLower_no_slash _ hfmt
  have hname : '/' ∉ QFileInfo.completeBaseName path ++ "_converted.".toList ++
      Job.extensionOf (Job.new id path size settings).m_outputFormat := by
    intro hm
    rcases List.mem_append.mp hm with hm | hm
    · rcases List.mem_append.mp hm with hm | hm
      · exact hparts.1 hm
      · revert hm; decide
    · exact hext hm
  have hne : QFileInfo.completeBaseName path ++ "_converted.".toList ++
      Job.extensionOf (Job.new id path size settings).m_outputFormat ≠ [] := by
    intro he
    have hl := congrArg List.length he
    simp only [List.length_append, List.length_nil] at hl
    have : "_converted.".toList.length = 11 := by decide
    omega
  have hfile : QFileInfo.fileName (Job.new id path size settings).m_outputPath =
      QFileInfo.completeBaseName path ++ "_converted.".toList ++
        Job.extensionOf (Job.new id path size settings).m_outputFormat := by
    rw [Job.new_inputFormat] at h
    rw [Job.new_outputPath, if_neg h]
    exact QFileInfo.fileName_filePath _ _ hname hne
  have hdiff : QFileInfo.fileName (Job.new id path size settings).m_outputPath ≠
      QFileInfo.fileName path := by
    rw [hfile]
    intro he
    rcases QFileInfo.fileName_parts path with hp | hp
    · rw [hp] at he
      have hl := congrArg List.length he
      simp only [List.length_append] at hl
      have : "_converted.".toList.length = 11 := by decide
      omega
    · rw [hp, List.append_assoc] at he
      have h2 := List.append_cancel_left he
      have h3 : ("_converted.".toList ++
          Job.extensionOf (Job.new id path size settings).m_outputFormat).head? = some '_' := rfl
      rw [h2] at h3
      simp only [List.head?_cons, Option.some.injEq] at h3
      revert h3
      decide
  refine ⟨hfile, hdiff, ?_, (Job.new_ascii id path size settings hsuf himg.1 hvid.1).2.2, ?_⟩
  · intro he
    exact hdiff (congrArg QFileInfo.fileName he)
  · decide

/-- C28, witness: `/d/a.png` with overwrite-original set, the image token
"webp" and the video token "keep", both stored by the settings dialog: the
destination file name is `a_converted.webp` and the destination path is not
the source path. -/
theorem C28_destination_differs_witness :
    (QFileInfo.suffix "/d/a.png".toList).isAscii = true ∧
    "webp".toList ∈ SettingsDialog.imageFormats ∧
    "keep".toList ∈ SettingsDialog.videoFormats ∧
    QFileInfo.fileName (Job.new 0 "/d/a.png".toList 10
      (Settings.mk [] true 1 "webp".toList "keep".toList)).m_outputPath =
      "a_converted.webp".toList ∧
    (Job.new 0 "/d/a.png".toList 10
      (Settings.mk [] true 1 "webp".toList "keep".toList)).m_outputPath ≠ "/d/a.png".toList :=
  ⟨by decide, by decide, by decide, by decide,
   (C28_destination_differs 0 "/d/a.png".toList 10
      (Settings.mk [] true 1 "webp".toList "keep".toList) (by decide) (by decide)
      (by decide) (by decide)).2.2.1⟩

/-! ## Runs without `resume` and `stopAll` -/

theorem inFlight_eq (q : JobQueue) :
    q.inFlight = q.m_threadPool.load + q.postedFinishedIds.length := rfl

theorem QThreadPool.start_load (p : QThreadPool) (r : JobId) :
    (p.start r).load = p.load + 1 := by
  unfold QThreadPool.start QThreadPool.load
  split_ifs <;> simp only [List.length_append, List.length_singleton] <;> omega

theorem QThreadPool.setMaxThreadCount_load (p : QThreadPool) (K : Nat) :
    (p.setMaxThreadCount K).load = p.load := by
  unfold QThreadPool.setMaxThreadCount QThreadPool.load
  simp only [List.length_append, List.length_take, List.length_drop]
  omega

theorem QThreadPool.beginRun_load (p : QThreadPool) (i : Nat) (r : JobId) (p2 : QThreadPool)
    (h : p.beginRun i = some (r, p2)) : p2.load = p.load := by
  unfold QThreadPool.beginRun at h
  cases hg : p.starting.get? i with
  | none => rw [hg] at h; cases h
  | some x =>
    rw [hg] at h
    simp only [Option.some.injEq, Prod.mk.injEq] at h
    obtain ⟨rfl, rfl⟩ := h
    have hi : i < p.starting.length := by
      by_contra hc
      rw [List.get?_eq_none.mpr (by omega)] at hg
      cases hg
    unfold QThreadPool.load
    simp only [List.length_append, List.length_singleton, List.length_eraseIdx, hi, if_true]
    omega

theorem QThreadPool.endRun_load (p : QThreadPool) (i : Nat) (r : JobId) (p2 : QThreadPool)
    (h : p.endRun i = some (r, p2)) : p2.load + 1 = p.load := by
  unfold QThreadPool.endRun at h
  cases hg : p.running.get? i with
  | none => rw [hg] at h; cases h
  | some x =>
    rw [hg] at h
    have hi : i < p.running.length := by
      by_contra hc
      rw [List.get?_eq_none.mpr (by omega)] at hg
      cases hg
    have he : (p.running.eraseIdx i).length + 1 = p.running.length := by
      rw [List.length_eraseIdx, if_pos hi]
      omega
    simp only at h
    cases hq : p.queue with
    | nil =>
      rw [hq] at h
      simp only [Option.some.injEq, Prod.mk.injEq] at h
      obtain ⟨rfl, rfl⟩ := h
      unfold QThreadPool.load
      rw [hq]
      simp only [List.length_nil]
      omega
    | cons next rest =>
      rw [hq] at h
      simp only at h
      split_ifs at h with hlt
      · simp only [Option.some.injEq, Prod.mk.injEq] at h
        obtain ⟨rfl, rfl⟩ := h
        unfold QThreadPool.load
        rw [hq]
        simp only [List.length_cons, List.length_append, List.length_singleton, List.length_nil]
        omega
      · simp only [Option.some.injEq, Prod.mk.injEq] at h
        obtain ⟨rfl, rfl⟩ := h
        unfold QThreadPool.load
        rw [hq]
        simp only [List.length_cons]
        omega

/-- A dispatch pass on a queue with nothing in flight puts at most one job
in flight, and only if the queue is Running. -/
theorem flight_dispatch (q : JobQueue) (h0 : q.inFlight = 0) :
    q.processNextJob.inFlight ≤ 1 ∧
    (q.processNextJob.inFlight = 1 → q.processNextJob.m_isProcessing = true) := by
  unfold JobQueue.processNextJob
  split_ifs with hg
  · exact ⟨by omega, fun h => by omega⟩
  · cases q.m_jobs.find? (fun job => decide (job.m_status = JobStatus.Pending)) with
    | none =>
      simp only
      split_ifs
      · refine ⟨?_, ?_⟩
        · show q.inFlight ≤ 1
          omega
        · intro h
          have h1 : q.inFlight = 1 := h
          omega
      · exact ⟨by omega, fun h => by omega⟩
    | some j =>
      simp only
      have hproc : q.m_isProcessing = true := by
        by_contra hc
        exact hg (Or.inr hc)
      refine ⟨?_, fun _ => hproc⟩
      rw [inFlight_eq] at h0 ⊢
      show (q.m_threadPool.start j.m_id).load + q.postedFinishedIds.length ≤ 1
      rw [QThreadPool.start_load]
      omega
theorem LoneInv.idle_empty {q : JobQueue} (h : LoneInv q) (hi : q.m_isProcessing = false) :
    q.inFlight = 0 ∧ q.m_threadPool.queue = [] ∧ q.m_threadPool.starting = [] ∧
    q.m_threadPool.running = [] := by
  have h0 : q.inFlight = 0 := by
    have h1 := h.single
    by_contra hc
    have h2 : q.inFlight = 1 := by omega
    rw [h.busy h2] at hi
    cases hi
  refine ⟨h0, ?_, ?_, ?_⟩ <;>
    (unfold JobQueue.inFlight at h0
     exact List.length_eq_zero.mp (by omega))

/-- The parts of the state the in-flight count and the flags are read from
are the same in both states. -/
theorem LoneInv.of_frame {q q2 : JobQueue} (h : LoneInv q) (hq : ∃ K, QueueInv K q2)
    (hfl : q2.inFlight ≤ q.inFlight) (hproc : q2.m_isProcessing = q.m_isProcessing) :
    LoneInv q2 := by
  refine ⟨hq, le_trans hfl h.single, ?_⟩
  intro h1
  rw [hproc]
  have := h.single
  exact h.busy (by omega)

theorem LoneInv.lone_addJob {q : JobQueue} (h : LoneInv q) (filePath : QString)
    (inputSize : Int) (settings : Settings) :
    LoneInv (q.addJob filePath inputSize settings) := by
  obtain ⟨K, hK⟩ := h.queue
  exact h.of_frame ⟨K, hK.inv_addJob _ _ _⟩ (le_of_eq rfl) rfl

theorem LoneInv.lone_cancel {q : JobQueue} (h : LoneInv q) (jobId : JobId) (now : Int) :
    LoneInv (q.cancel jobId now) := by
  obtain ⟨K, hK⟩ := h.queue
  exact h.of_frame ⟨K, hK.inv_cancel _ _⟩ (le_of_eq rfl) rfl

theorem LoneInv.lone_pause {q : JobQueue} (h : LoneInv q) : LoneInv q.pause := by
  obtain ⟨K, hK⟩ := h.queue
  exact h.of_frame ⟨K, hK.inv_pause⟩ (le_of_eq rfl) rfl

theorem LoneInv.lone_start {q : JobQueue} (h : LoneInv q) (K : Nat) :
    LoneInv (q.start K) := by
  by_cases hp : q.m_isProcessing = true
  · have : q.start K = q := by
      unfold JobQueue.start
      rw [if_pos hp]
    rw [this]
    exact h
  · have hidle : q.m_isProcessing = false := by simpa using hp
    obtain ⟨h0, hq1, hq2, hq3⟩ := h.idle_empty hidle
    obtain ⟨K0, hK0⟩ := h.queue
    have hK : QueueInv K q := ⟨Or.inr ⟨hidle, hq1, hq2, hq3⟩, hK0.nodup, hK0.fresh,
      hK0.processing⟩
    have hsb : (q.start K).inFlight ≤ 1 ∧
        ((q.start K).inFlight = 1 → (q.start K).m_isProcessing = true) := by
      unfold JobQueue.start
      rw [if_neg hp]
      split_ifs
      · exact ⟨h.single, h.busy⟩
      · simp only
        apply flight_dispatch
        rw [inFlight_eq] at h0 ⊢
        show (q.m_threadPool.setMaxThreadCount K).load + q.postedFinishedIds.length = 0
        rw [QThreadPool.setMaxThreadCount_load]
        exact h0
    exact ⟨⟨K, hK.inv_start⟩, hsb.1, hsb.2⟩

theorem workerStart_inFlight (q : JobQueue) (i : Nat) (now : Int) :
    (q.workerStart i now).inFlight = q.inFlight := by
  unfold JobQueue.workerStart
  cases hb : q.m_threadPool.beginRun i with
  | none => rfl
  | some rp =>
    obtain ⟨r, pool⟩ := rp
    rw [inFlight_eq, inFlight_eq]
    show pool.load + q.postedFinishedIds.length = _
    rw [QThreadPool.beginRun_load _ _ _ _ hb]

theorem workerFinish_inFlight (q : JobQueue) (i : Nat) (result : StrategyResult) :
    (q.workerFinish i result).inFlight ≤ q.inFlight := by
  unfold JobQueue.workerFinish
  cases hb : q.m_threadPool.endRun i with
  | none => exact le_of_eq rfl
  | some rp =>
    obtain ⟨r, pool⟩ := rp
    have hl := QThreadPool.endRun_load _ _ _ _ hb
    simp only
    cases q.m_jobs.find? (fun job => decide (job.m_id = r)) with
    | none =>
      rw [inFlight_eq, inFlight_eq]
      show pool.load + q.postedFinishedIds.length ≤ _
      omega
    | some job =>
      rw [inFlight_eq, inFlight_eq]
      show pool.load + (List.filterMap QueuedCall.finishedId
        (q.posted ++ [QueuedCall.finished r (JobRunner.process job result).2.1
          (JobRunner.process job result).2.2])).length ≤ _
      rw [fin_append_finished, List.length_append, List.length_singleton]
      unfold JobQueue.postedFinishedIds
      omega

theorem LoneInv.lone_workerStart {q : JobQueue} (h : LoneInv q) (i : Nat) (now : Int) :
    LoneInv (q.workerStart i now) := by
  obtain ⟨K, hK⟩ := h.queue
  exact h.of_frame ⟨K, hK.inv_workerStart _ _⟩ (le_of_eq (workerStart_inFlight q i now))
    (workerStart_flags q i now).1

theorem LoneInv.lone_workerFinish {q : JobQueue} (h : LoneInv q) (i : Nat)
    (result : StrategyResult) : LoneInv (q.workerFinish i result) := by
  obtain ⟨K, hK⟩ := h.queue
  exact h.of_frame ⟨K, hK.inv_workerFinish _ _⟩ (workerFinish_inFlight q i result)
    (workerFinish_flags q i result).1

theorem LoneInv.lone_workerProgress {q : JobQueue} (h : LoneInv q) (i : Nat) (p : Int) :
    LoneInv (q.workerProgress i p) := by
  obtain ⟨K, hK⟩ := h.queue
  refine h.of_frame ⟨K, hK.inv_workerProgress _ _⟩ ?_ ?_
  · unfold JobQueue.workerProgress
    cases q.m_threadPool.running.get? i with
    | none => exact le_of_eq rfl
    | some r =>
      rw [inFlight_eq, inFlight_eq]
      show q.m_threadPool.load + (List.filterMap QueuedCall.finishedId
        (q.posted ++ [QueuedCall.progress r p])).length ≤ _
      rw [fin_append_progress]
      exact le_of_eq rfl
  · unfold JobQueue.workerProgress
    cases q.m_threadPool.running.get? i with
    | none => rfl
    | some r => rfl

theorem LoneInv.lone_deliver {q : JobQueue} (h : LoneInv q) (now : Int) :
    LoneInv (q.deliver now) := by
  obtain ⟨K, hK⟩ := h.queue
  have hqueue : ∃ K, QueueInv K (q.deliver now) := ⟨K, hK.inv_deliver _⟩
  cases hpo : q.posted with
  | nil =>
    have : q.deliver now = q := by
      unfold JobQueue.deliver
      rw [hpo]
    rw [this]
    exact h
  | cons c rest =>
    cases c with
    | progress r p =>
      refine h.of_frame hqueue ?_ ?_
      · have hpool : (q.deliver now).m_threadPool = q.m_threadPool := by
          unfold JobQueue.deliver
          rw [hpo]
        have hpost : (q.deliver now).posted = rest := by
          unfold JobQueue.deliver
          rw [hpo]
        rw [inFlight_eq, inFlight_eq, hpool]
        unfold JobQueue.postedFinishedIds
        rw [hpost, hpo]
        simp [QueuedCall.finishedId]
      · unfold JobQueue.deliver
        rw [hpo]
    | finished r success error =>
      have hd : ∃ q3 : JobQueue, q.deliver now = q3.processNextJob ∧
          q3.m_threadPool = q.m_threadPool ∧ q3.posted = rest := by
        unfold JobQueue.deliver
        rw [hpo]
        exact ⟨_, rfl, rfl, rfl⟩
      obtain ⟨q3, hdq, hp3, hpost3⟩ := hd
      have h3 : q3.inFlight = 0 := by
        have hs := h.single
        rw [inFlight_eq] at hs ⊢
        unfold JobQueue.postedFinishedIds at hs ⊢
        rw [hpo] at hs
        rw [hp3, hpost3]
        simp only [List.filterMap_cons, QueuedCall.finishedId, List.length_cons] at hs
        omega
      have hsb := flight_dispatch q3 h3
      rw [← hdq] at hsb
      exact ⟨hqueue, hsb.1, hsb.2⟩

/-- One step that is neither `resume` nor `stopAll` keeps at most one job in
flight. -/
theorem LoneInv.lone_step {q : JobQueue} (h : LoneInv q) (now : Int) (e : Event)
    (he : e.isOrderly = true) : LoneInv (q.step now e) := by
  cases e with
  | addJob path size settings => exact h.lone_addJob path size settings
  | start K => exact h.lone_start K
  | pause => exact h.lone_pause
  | resume => cases he
  | stopAll results => cases he
  | cancel id => exact h.lone_cancel id now
  | workerStart i => exact h.lone_workerStart i now
  | workerProgress i p => exact h.lone_workerProgress i p
  | workerFinish i result => exact h.lone_workerFinish i result
  | deliver => exact h.lone_deliver now

theorem LoneInv.lone_exec (trace : List (Int × Event)) :
    ∀ q : JobQueue, LoneInv q → (∀ te ∈ trace, te.2.isOrderly = true) →
      LoneInv (JobQueue.exec q trace) := by
  induction trace with
  | nil => intro q h _; exact h
  | cons te rest ih =>
    intro q h hall
    exact ih _ (h.lone_step te.1 te.2 (hall te (List.mem_cons_self _ _)))
      (fun x hx => hall x (List.mem_cons_of_mem _ hx))

theorem LoneInv.lone_init : LoneInv ({} : JobQueue) :=
  ⟨⟨0, QueueInv.inv_init 0⟩, by decide, by decide⟩

theorem LoneInv.lone_processing {q : JobQueue} (h : LoneInv q) : q.processingCount ≤ 1 := by
  obtain ⟨K, hK⟩ := h.queue
  have h1 := hK.processing_le
  have h2 := h.single
  rw [postedCompletions_eq] at h1
  unfold JobQueue.inFlight at h2
  omega

/-- C29: in every execution from the new queue made of `addJob`, `start`
(with any thread count), `pause`, `cancel`, worker and delivery events, with
no `resume` and no `stopAll`, at most one job has been handed to the pool
without its completion being recorded yet, and at most one job has status
Processing. -/
theorem C29_single_flight (trace : List (Int × Event))
    (h : ∀ te ∈ trace, te.2.isOrderly = true) :
    (JobQueue.exec {} trace).inFlight ≤ 1 ∧ (JobQueue.exec {} trace).processingCount ≤ 1 := by
  have hi := LoneInv.lone_exec trace {} LoneInv.lone_init h
  exact ⟨hi.single, hi.lone_processing⟩

theorem C29_single_flight_witness :
    ((JobQueue.exec {} orderlyRun).m_threadPool.maxThreadCount = 4 ∧
      (JobQueue.exec {} orderlyRun).m_jobs.map Job.m_status =
        [JobStatus.Processing, JobStatus.Cancelled] ∧
      (JobQueue.exec {} orderlyRun).postedFinishedIds = [0]) ∧
    (JobQueue.exec {} orderlyRun).inFlight ≤ 1 ∧
    (JobQueue.exec {} orderlyRun).processingCount ≤ 1 :=
  ⟨by decide, C29_single_flight orderlyRun (by decide)⟩

/-! ## The error text -/

theorem Job.setStatus_error (j : Job) (status : JobStatus) (now : Int) :
    (j.setStatus status now).m_errorMessage = j.m_errorMessage := by
  unfold Job.setStatus
  simp only
  split_ifs <;> rfl

theorem JobRunner.process_error (j : Job) (result : StrategyResult) :
    (JobRunner.process j result).1.m_errorMessage = j.m_errorMessage := by
  unfold JobRunner.process
  split_ifs <;> cases result <;> rfl

theorem inFlightIds_length (q : JobQueue) : q.inFlightIds.length = q.inFlight := by
  unfold JobQueue.inFlightIds QThreadPool.runners JobQueue.inFlight
  simp only [List.length_append]

/-- Every job of `q2` comes from a job of `q` with the same identifier and
error text, and keeps its status when that job has an error text; nothing
new is in flight. -/
theorem ErrInv.of_jobs {q q2 : JobQueue} (h : ErrInv q)
    (hfl : ∀ a ∈ q2.inFlightIds, a ∈ q.inFlightIds)
    (hj : ∀ j2 ∈ q2.m_jobs, ∃ j ∈ q.m_jobs, j2.m_id = j.m_id ∧
      j2.m_errorMessage = j.m_errorMessage ∧
      (j.m_errorMessage ≠ [] → j.m_id ∉ q.inFlightIds → j2.m_status = j.m_status)) :
    ErrInv q2 := by
  refine ⟨?_, ?_⟩
  · intro j2 hj2 hin
    obtain ⟨j, hjm, hid, herr, _⟩ := hj j2 hj2
    rw [herr]
    exact h.clean j hjm (by rw [← hid]; exact hfl _ hin)
  · intro j2 hj2 hne
    obtain ⟨j, hjm, hid, herr, hst⟩ := hj j2 hj2
    rw [herr] at hne
    have hnf : j.m_id ∉ q.inFlightIds := fun hin => hne (h.clean j hjm hin)
    rw [hst hne hnf]
    exact h.failed j hjm hne

theorem ErrInv.err_of_same {q q2 : JobQueue} (h : ErrInv q) (hjobs : q2.m_jobs = q.m_jobs)
    (hfl : ∀ a ∈ q2.inFlightIds, a ∈ q.inFlightIds) : ErrInv q2 := by
  refine h.of_jobs hfl ?_
  intro j2 hj2
  rw [hjobs] at hj2
  exact ⟨j2, hj2, rfl, rfl, fun _ _ => rfl⟩

/-- The jobs of `q2` are those of `q` with the first job that carries `r`
rewritten by `f`, which keeps the identifier and the error text, and keeps
the status of a job that is not in flight. -/
theorem ErrInv.err_of_update {q q2 : JobQueue} (h : ErrInv q) (r : JobId) (f : Job → Job)
    (hjobs : q2.m_jobs = updateFirst (fun job => decide (job.m_id = r)) f q.m_jobs)
    (hfl : ∀ a ∈ q2.inFlightIds, a ∈ q.inFlightIds)
    (hid : ∀ j, (f j).m_id = j.m_id)
    (herr : ∀ j, (f j).m_errorMessage = j.m_errorMessage)
    (hst : ∀ j ∈ q.m_jobs, j.m_id = r → j.m_errorMessage ≠ [] → j.m_id ∉ q.inFlightIds →
      (f j).m_status = j.m_status) : ErrInv q2 := by
  refine h.of_jobs hfl ?_
  intro j2 hj2
  rw [hjobs] at hj2
  rcases updateFirst_mem _ _ _ _ hj2 with hm | ⟨j, hjm, hp, he⟩
  · exact ⟨j2, hm, rfl, rfl, fun _ _ => rfl⟩
  · rw [he]
    exact ⟨j, hjm, hid j, herr j, hst j hjm (by simpa using hp)⟩

theorem ErrInv.err_dispatch {q : JobQueue} (h : ErrInv q)
    (hnd : (q.m_jobs.map Job.m_id).Nodup) : ErrInv q.processNextJob := by
  unfold JobQueue.processNextJob
  split_ifs
  · exact h
  · cases hf : q.m_jobs.find? (fun job => decide (job.m_status = JobStatus.Pending)) with
    | none =>
      simp only
      split_ifs
      · exact h.err_of_same rfl (fun a ha => ha)
      · exact h
    | some j =>
      simp only
      have hj : j ∈ q.m_jobs := List.mem_of_find?_eq_some hf
      have hp : j.m_status = JobStatus.Pending := by simpa using List.find?_some hf
      have hjerr : j.m_errorMessage = [] := by
        by_contra hc
        have := h.failed j hj hc
        rw [hp] at this
        cases this
      refine ⟨?_, h.failed⟩
      intro j2 hj2 hin
      rw [mem_inFlightIds] at hin
      have hcases : j2.m_id = j.m_id ∨ j2.m_id ∈ q.inFlightIds := by
        rcases hin with hin | hin
        · rcases QThreadPool.start_runners _ _ _ hin with h1 | h1
          · exact Or.inl h1
          · exact Or.inr ((mem_inFlightIds q _).mpr (Or.inl h1))
        · exact Or.inr ((mem_inFlightIds q _).mpr (Or.inr hin))
      rcases hcases with h1 | h1
      · have hf2 := find_of_mem q.m_jobs hnd j2 hj2
        have hf1 := find_of_mem q.m_jobs hnd j hj
        rw [h1, hf1] at hf2
        simp only [Option.some.injEq] at hf2
        rw [← hf2]
        exact hjerr
      · exact h.clean j2 hj2 h1

theorem ErrInv.err_addJob {q : JobQueue} (h : ErrInv q) (filePath : QString)
    (inputSize : Int) (settings : Settings) :
    ErrInv (q.addJob filePath inputSize settings) := by
  refine ⟨?_, ?_⟩
  · intro j hj hin
    unfold JobQueue.addJob at hj
    simp only [List.mem_append, List.mem_singleton] at hj
    rcases hj with hj | hj
    · exact h.clean j hj hin
    · rw [hj]; exact (Job.new_times _ _ _ _).2.2
  · intro j hj hne
    unfold JobQueue.addJob at hj
    simp only [List.mem_append, List.mem_singleton] at hj
    rcases hj with hj | hj
    · exact h.failed j hj hne
    · rw [hj] at hne
      exact absurd (Job.new_times _ _ _ _).2.2 hne

theorem ErrInv.err_start {q : JobQueue} (h : ErrInv q)
    (hnd : (q.m_jobs.map Job.m_id).Nodup) (K : Nat) : ErrInv (q.start K) := by
  unfold JobQueue.start
  split_ifs
  · exact h
  · exact h
  · refine ErrInv.err_dispatch (h.err_of_same rfl ?_) hnd
    intro a ha
    rw [mem_inFlightIds] at ha ⊢
    rcases ha with ha | ha
    · exact Or.inl (QThreadPool.setMaxThreadCount_runners _ _ _ ha)
    · exact Or.inr ha

theorem ErrInv.err_cancel {q : JobQueue} (h : ErrInv q) (jobId : JobId) (now : Int) :
    ErrInv (q.cancel jobId now) := by
  refine h.err_of_update jobId _ rfl (fun a ha => ha) ?_ ?_ ?_
  · intro j
    split_ifs
    · exact (Job.setStatus_fields _ _ _).1
    · rfl
  · intro j
    split_ifs
    · exact Job.setStatus_error _ _ _
    · rfl
  · intro j hj _ hne _
    have hf := h.failed j hj hne
    rw [if_neg (by rw [hf]; decide)]

theorem ErrInv.err_workerStart {q : JobQueue} (h : ErrInv q) (i : Nat) (now : Int) :
    ErrInv (q.workerStart i now) := by
  unfold JobQueue.workerStart
  cases hb : q.m_threadPool.beginRun i with
  | none => exact h
  | some rp =>
    obtain ⟨r, pool⟩ := rp
    have hm := QThreadPool.beginRun_runners _ _ _ _ hb
    refine h.err_of_update r _ rfl ?_ (fun j => (Job.setStatus_fields _ _ _).1)
      (fun j => Job.setStatus_error _ _ _) ?_
    · intro a ha
      rw [mem_inFlightIds] at ha ⊢
      rcases ha with ha | ha
      · exact Or.inl (hm.2 a ha)
      · exact Or.inr ha
    · intro j _ hjr _ hnf
      exact absurd ((mem_inFlightIds q _).mpr (Or.inl (hjr ▸ hm.1))) hnf

theorem ErrInv.err_workerProgress {q : JobQueue} (h : ErrInv q) (i : Nat) (p : Int) :
    ErrInv (q.workerProgress i p) := by
  unfold JobQueue.workerProgress
  cases q.m_threadPool.running.get? i with
  | none => exact h
  | some r =>
    refine h.err_of_same rfl ?_
    intro a ha
    rw [mem_inFlightIds] at ha ⊢
    rcases ha with ha | ha
    · exact Or.inl ha
    · unfold JobQueue.postedFinishedIds at ha ⊢
      rw [fin_append_progress] at ha
      exact Or.inr ha

theorem ErrInv.err_workerFinish {q : JobQueue} (h : ErrInv q) (i : Nat)
    (result : StrategyResult) : ErrInv (q.workerFinish i result) := by
  unfold JobQueue.workerFinish
  cases hb : q.m_threadPool.endRun i with
  | none => exact h
  | some rp =>
    obtain ⟨r, pool⟩ := rp
    have hm := QThreadPool.endRun_runners _ _ _ _ hb
    simp only
    cases q.m_jobs.find? (fun job => decide (job.m_id = r)) with
    | none =>
      refine h.err_of_same rfl ?_
      intro a ha
      rw [mem_inFlightIds] at ha ⊢
      rcases ha with ha | ha
      · exact Or.inl (hm.2 a ha)
      · exact Or.inr ha
    | some job =>
      refine h.err_of_update r _ rfl ?_ (fun j => (JobRunner.process_fields j result).1)
        (fun j => JobRunner.process_error j result)
        (fun j _ _ _ _ => (JobRunner.process_fields j result).2.2.1)
      intro a ha
      rw [mem_inFlightIds] at ha ⊢
      rcases ha with ha | ha
      · exact Or.inl (hm.2 a ha)
      · unfold JobQueue.postedFinishedIds at ha ⊢
        rw [fin_append_finished, List.mem_append, List.mem_singleton] at ha
        rcases ha with ha | ha
        · exact Or.inr ha
        · exact Or.inl (ha ▸ hm.1)

theorem ErrInv.err_deliver {q : JobQueue} (h : ErrInv q) (hl : LoneInv q) (now : Int) :
    ErrInv (q.deliver now) := by
  obtain ⟨K, hK⟩ := hl.queue
  cases hpo : q.posted with
  | nil =>
    have : q.deliver now = q := by
      unfold JobQueue.deliver
      rw [hpo]
    rw [this]
    exact h
  | cons c rest =>
    cases c with
    | progress r p =>
      have hjobs : (q.deliver now).m_jobs = q.m_jobs := by
        unfold JobQueue.deliver
        rw [hpo]
      have hpool : (q.deliver now).m_threadPool = q.m_threadPool := by
        unfold JobQueue.deliver
        rw [hpo]
      have hpost : (q.deliver now).posted = rest := by
        unfold JobQueue.deliver
        rw [hpo]
      refine h.err_of_same hjobs ?_
      intro a ha
      rw [mem_inFlightIds] at ha ⊢
      rcases ha with ha | ha
      · exact Or.inl (hpool ▸ ha)
      · unfold JobQueue.postedFinishedIds at ha ⊢
        rw [hpost] at ha
        rw [hpo]
        simp only [List.filterMap_cons, QueuedCall.finishedId]
        exact Or.inr ha
    | finished r success error =>
      have hid : ∀ j : Job, (if success = true then
          (j.setStatus JobStatus.Completed now).setProgress 100
          else j.setError error now).m_id = j.m_id :=
        fun j => (onJobFinished_job j success error now).1
      have hd : ∃ q3 : JobQueue, q.deliver now = q3.processNextJob ∧
          q3.m_jobs = updateFirst (fun job => decide (job.m_id = r))
            (fun job => if success = true then
              (job.setStatus JobStatus.Completed now).setProgress 100
              else job.setError error now) q.m_jobs ∧
          q3.m_threadPool = q.m_threadPool ∧ q3.posted = rest := by
        unfold JobQueue.deliver
        rw [hpo]
        exact ⟨_, rfl, rfl, rfl, rfl⟩
      obtain ⟨q3, hdq, hj3, hp3, hpost3⟩ := hd
      have hrin : r ∈ q.inFlightIds := by
        rw [mem_inFlightIds]
        refine Or.inr ?_
        unfold JobQueue.postedFinishedIds
        rw [hpo]
        simp [QueuedCall.finishedId]
      have h3 : q3.inFlightIds = [] := by
        apply List.length_eq_zero.mp
        rw [inFlightIds_length]
        have hs := hl.single
        rw [inFlight_eq] at hs ⊢
        unfold JobQueue.postedFinishedIds at hs ⊢
        rw [hpo] at hs
        rw [hp3, hpost3]
        simp only [List.filterMap_cons, QueuedCall.finishedId, List.length_cons] at hs
        omega
      have he3 : ErrInv q3 := by
        refine ⟨?_, ?_⟩
        · intro j _ hin
          rw [h3] at hin
          cases hin
        · intro j2 hj2 hne
          rw [hj3] at hj2
          rcases updateFirst_mem _ _ _ _ hj2 with hm | ⟨j, hjm, hp, he⟩
          · exact h.failed j2 hm hne
          · have hjr : j.m_id = r := by simpa using hp
            have hclean : j.m_errorMessage = [] := h.clean j hjm (hjr ▸ hrin)
            rw [he] at hne ⊢
            cases success with
            | true =>
              simp only [if_true] at hne
              exact absurd (by
                unfold Job.setProgress
                simp only
                rw [Job.setStatus_error]
                exact hclean) hne
            | false => rfl
      have hnd3 : (q3.m_jobs.map Job.m_id).Nodup := by
        rw [hj3, updateFirst_ids _ _ hid]
        exact hK.nodup
      rw [hdq]
      exact he3.err_dispatch hnd3

theorem ErrInv.err_step {q : JobQueue} (h : ErrInv q) (hl : LoneInv q) (now : Int)
    (e : Event) (he : e.isOrderly = true) : ErrInv (q.step now e) := by
  obtain ⟨K, hK⟩ := hl.queue
  cases e with
  | addJob path size settings => exact h.err_addJob path size settings
  | start K2 => exact h.err_start hK.nodup K2
  | pause => exact h.err_of_same rfl (fun a ha => ha)
  | resume => cases he
  | stopAll results => cases he
  | cancel id => exact h.err_cancel id now
  | workerStart i => exact h.err_workerStart i now
  | workerProgress i p => exact h.err_workerProgress i p
  | workerFinish i result => exact h.err_workerFinish i result
  | deliver => exact h.err_deliver hl now

theorem ErrInv.err_exec (trace : List (Int × Event)) :
    ∀ q : JobQueue, ErrInv q → LoneInv q → (∀ te ∈ trace, te.2.isOrderly = true) →
      ErrInv (JobQueue.exec q trace) := by
  induction trace with
  | nil => intro q h _ _; exact h
  | cons te rest ih =>
    intro q h hl hall
    have he := hall te (List.mem_cons_self _ _)
    exact ih _ (h.err_step hl te.1 te.2 he) (hl.lone_step te.1 te.2 he)
      (fun x hx => hall x (List.mem_cons_of_mem _ hx))
theorem Job.applyOp_error (j : Job) (op : JobOp)
    (h : (j.applyOp op).m_errorMessage ≠ []) :
    j.m_errorMessage ≠ [] ∨ op.isSetError = true := by
  cases op with
  | setStatus status now =>
    left
    simp only [Job.applyOp, Job.setStatus_error] at h
    exact h
  | setProgress p => exact Or.inl h
  | setError e now => exact Or.inr rfl
  | setOutputSize s => exact Or.inl h

theorem Job.applyOps_error (ops : List JobOp) :
    ∀ j : Job, (j.applyOps ops).m_errorMessage ≠ [] →
      j.m_errorMessage ≠ [] ∨ ∃ op ∈ ops, op.isSetError = true := by
  induction ops with
  | nil => intro j h; exact Or.inl h
  | cons op ops ih =>
    intro j h
    rw [Job.applyOps_cons] at h
    rcases ih _ h with h1 | ⟨o, ho, hs⟩
    · rcases Job.applyOp_error j op h1 with h2 | h2
      · exact Or.inl h2
      · exact Or.inr ⟨op, List.mem_cons_self _ _, h2⟩
    · exact Or.inr ⟨o, List.mem_cons_of_mem _ ho, hs⟩

/-- C22 as stated fails. A new job that receives `setError` and then
`setStatus(Completed)` keeps the error text with status Completed; and in
the execution `doubleDispatchRun` the failure of the first worker is
recorded and the second worker then begins the same job, which has the
error text with status Processing. -/
theorem C22_counterexample :
    (((Job.new 0 "/d/a.png".toList 10
        (Settings.mk [] false 1 "keep".toList "keep".toList)).applyOps
      [JobOp.setError "no codec".toList 1,
       JobOp.setStatus JobStatus.Completed 2]).m_errorMessage = "no codec".toList ∧
      ((Job.new 0 "/d/a.png".toList 10
        (Settings.mk [] false 1 "keep".toList "keep".toList)).applyOps
      [JobOp.setError "no codec".toList 1,
       JobOp.setStatus JobStatus.Completed 2]).m_status = JobStatus.Completed) ∧
    (JobQueue.exec {} doubleDispatchRun).m_jobs.map
      (fun j => (j.m_status, j.m_errorMessage)) =
      [(JobStatus.Processing, "no codec".toList)] := by
  decide

/-- C22 (amended): `setError` stores the text, sets the status to Failed and
stamps finishedAt, changing nothing else. After any sequence of writes to a
newly constructed job, a non-empty error text implies that one of the writes
was a `setError` and that finishedAt is set. In every execution from the new
queue without `resume` and `stopAll`, every job with a non-empty error text
has status Failed. -/
theorem C22_error_detail :
    (∀ (j : Job) (error : QString) (now : Int),
      j.setError error now =
        { j with m_errorMessage := error, m_status := JobStatus.Failed,
                 m_endTime := some now }) ∧
    (∀ (id : JobId) (path : QString) (size : Int) (settings : Settings) (ops : List JobOp),
      ((Job.new id path size settings).applyOps ops).m_errorMessage ≠ [] →
      (∃ op ∈ ops, op.isSetError = true) ∧
      ((Job.new id path size settings).applyOps ops).m_endTime.isSome = true) ∧
    (∀ trace : List (Int × Event), (∀ te ∈ trace, te.2.isOrderly = true) →
      ∀ j ∈ (JobQueue.exec {} trace).m_jobs,
        j.m_errorMessage ≠ [] → j.m_status = JobStatus.Failed) := by
  refine ⟨fun j error now => rfl, ?_, ?_⟩
  · intro id path size settings ops hne
    have hn := Job.new_times id path size settings
    rcases Job.applyOps_error ops _ hne with h1 | h1
    · exact absurd hn.2.2 h1
    · refine ⟨h1, ?_⟩
      rw [Job.applyOps_endTime]
      obtain ⟨op, hop, hs⟩ := h1
      refine Or.inr ⟨op, hop, ?_⟩
      cases op <;> first | rfl | cases hs
  · intro trace hall
    have h0 : ErrInv ({} : JobQueue) := by
      refine ⟨?_, ?_⟩
      · intro j hj
        cases hj
      · intro j hj
        cases hj
    exact (ErrInv.err_exec trace {} h0 LoneInv.lone_init hall).failed

theorem C22_error_detail_witness :
    (JobQueue.exec {} failingRun).m_jobs.map (fun j => (j.m_status, j.m_errorMessage)) =
      [(JobStatus.Failed, "no codec".toList), (JobStatus.Completed, [])] ∧
    ∀ j ∈ (JobQueue.exec {} failingRun).m_jobs,
      j.m_errorMessage ≠ [] → j.m_status = JobStatus.Failed :=
  ⟨by decide, C22_error_detail.2.2 failingRun (by decide)⟩

/-! ## The stored progress -/

/-- Every job of `q2` comes from a job of `q` with the same identifier and
progress, and no signal is lost. -/
theorem ProgressInv.of_origin {q q2 : JobQueue} (h : ProgressInv q)
    (hem : ∀ s ∈ q.emitted, s ∈ q2.emitted)
    (hj : ∀ j2 ∈ q2.m_jobs, ∃ j ∈ q.m_jobs, j2.m_id = j.m_id ∧ j2.m_progress = j.m_progress) :
    ProgressInv q2 := by
  refine ⟨?_, ?_⟩
  · intro j2 hj2
    obtain ⟨j, hjm, _, hp⟩ := hj j2 hj2
    rw [hp]
    exact h.values j hjm
  · intro j2 hj2 h100
    obtain ⟨j, hjm, hid, hp⟩ := hj j2 hj2
    rw [hid]
    exact hem _ (h.recorded j hjm (hp ▸ h100))

theorem ProgressInv.of_frame_jobs {q q2 : JobQueue} (h : ProgressInv q)
    (hjobs : q2.m_jobs = q.m_jobs) (hem : ∀ s ∈ q.emitted, s ∈ q2.emitted) :
    ProgressInv q2 := by
  refine h.of_origin hem ?_
  intro j2 hj2
  rw [hjobs] at hj2
  exact ⟨j2, hj2, rfl, rfl⟩

theorem ProgressInv.of_rewrite {q q2 : JobQueue} (h : ProgressInv q) (r : JobId)
    (f : Job → Job)
    (hjobs : q2.m_jobs = updateFirst (fun job => decide (job.m_id = r)) f q.m_jobs)
    (hem : ∀ s ∈ q.emitted, s ∈ q2.emitted)
    (hid : ∀ j, (f j).m_id = j.m_id) (hp : ∀ j, (f j).m_progress = j.m_progress) :
    ProgressInv q2 := by
  refine h.of_origin hem ?_
  intro j2 hj2
  rw [hjobs] at hj2
  rcases updateFirst_mem _ _ _ _ hj2 with hm | ⟨j, hjm, _, he⟩
  · exact ⟨j2, hm, rfl, rfl⟩
  · rw [he]
    exact ⟨j, hjm, hid j, hp j⟩

theorem processNextJob_emitted (q : JobQueue) :
    ∀ s ∈ q.emitted, s ∈ q.processNextJob.emitted := by
  intro s hs
  unfold JobQueue.processNextJob
  split_ifs
  · exact hs
  · cases q.m_jobs.find? (fun job => decide (job.m_status = JobStatus.Pending)) with
    | none =>
      simp only
      split_ifs
      · exact List.mem_append_left _ hs
      · exact hs
    | some j => exact List.mem_append_left _ hs

theorem ProgressInv.progress_dispatch {q : JobQueue} (h : ProgressInv q) :
    ProgressInv q.processNextJob :=
  h.of_frame_jobs (processNextJob_jobs q) (processNextJob_emitted q)

theorem ProgressInv.progress_addJob {q : JobQueue} (h : ProgressInv q) (filePath : QString)
    (inputSize : Int) (settings : Settings) :
    ProgressInv (q.addJob filePath inputSize settings) := by
  refine ⟨?_, ?_⟩
  · intro j hj
    unfold JobQueue.addJob at hj
    simp only [List.mem_append, List.mem_singleton] at hj
    rcases hj with hj | hj
    · exact h.values j hj
    · rw [hj]; exact Or.inl (Job.new_progress _ _ _ _)
  · intro j hj h100
    unfold JobQueue.addJob at hj
    simp only [List.mem_append, List.mem_singleton] at hj
    rcases hj with hj | hj
    · exact List.mem_append_left _ (h.recorded j hj h100)
    · rw [hj, Job.new_progress] at h100
      cases h100

theorem ProgressInv.progress_cancel {q : JobQueue} (h : ProgressInv q) (jobId : JobId)
    (now : Int) : ProgressInv (q.cancel jobId now) := by
  refine h.of_rewrite jobId _ rfl (fun s hs => hs) ?_ ?_
  · intro j
    split_ifs
    · exact (Job.setStatus_fields _ _ _).1
    · rfl
  · intro j
    split_ifs
    · exact (Job.setStatus_fields _ _ _).2.2.2
    · rfl

theorem ProgressInv.progress_workerStart {q : JobQueue} (h : ProgressInv q) (i : Nat)
    (now : Int) : ProgressInv (q.workerStart i now) := by
  unfold JobQueue.workerStart
  cases q.m_threadPool.beginRun i with
  | none => exact h
  | some rp =>
    exact h.of_rewrite rp.1 _ rfl (fun s hs => hs) (fun j => (Job.setStatus_fields _ _ _).1)
      (fun j => (Job.setStatus_fields _ _ _).2.2.2)

theorem ProgressInv.progress_workerFinish {q : JobQueue} (h : ProgressInv q) (i : Nat)
    (result : StrategyResult) : ProgressInv (q.workerFinish i result) := by
  unfold JobQueue.workerFinish
  cases q.m_threadPool.endRun i with
  | none => exact h
  | some rp =>
    simp only
    cases q.m_jobs.find? (fun job => decide (job.m_id = rp.1)) with
    | none => exact h.of_frame_jobs rfl (fun s hs => hs)
    | some job =>
      exact h.of_rewrite rp.1 _ rfl (fun s hs => hs)
        (fun j => (JobRunner.process_fields j result).1)
        (fun j => (JobRunner.process_fields j result).2.2.2)

theorem ProgressInv.progress_onJobFinished {q : JobQueue} (h : ProgressInv q) (jobId : JobId)
    (success : Bool) (error : QString) (now : Int) :
    ProgressInv (q.onJobFinished jobId success error now) := by
  unfold JobQueue.onJobFinished
  refine ProgressInv.progress_dispatch ?_
  refine ⟨?_, ?_⟩
  · intro j2 hj2
    rcases updateFirst_mem _ _ _ _ hj2 with hm | ⟨j, hjm, _, he⟩
    · exact h.values j2 hm
    · rw [he]
      cases success with
      | true => right; rfl
      | false => exact h.values j hjm
  · intro j2 hj2 h100
    simp only [List.append_assoc, List.mem_append, List.mem_singleton, List.mem_cons]
    rcases updateFirst_mem _ _ _ _ hj2 with hm | ⟨j, hjm, hp, he⟩
    · exact Or.inl (h.recorded j2 hm h100)
    · have hjr : j.m_id = jobId := by simpa using hp
      have hid := (onJobFinished_job j success error now).1
      rw [he] at h100 ⊢
      rw [hid]
      cases success with
      | true => simp [hjr]
      | false => exact Or.inl (h.recorded j hjm h100)

theorem ProgressInv.progress_deliver {q : JobQueue} (h : ProgressInv q) (now : Int) :
    ProgressInv (q.deliver now) := by
  unfold JobQueue.deliver
  cases q.posted with
  | nil => exact h
  | cons c rest =>
    cases c with
    | progress r p => exact h.of_frame_jobs rfl (fun s hs => List.mem_append_left _ hs)
    | finished r success error =>
      have h1 : ProgressInv { q with posted := rest } := h.of_frame_jobs rfl (fun s hs => hs)
      exact h1.progress_onJobFinished r success error now

theorem ProgressInv.progress_stopAll {q : JobQueue} (h : ProgressInv q)
    (results : List StrategyResult) (now : Int) : ProgressInv (q.stopAll results now) := by
  have h1 : ProgressInv { q with m_isProcessing := false, m_isPaused := false,
                                 m_threadPool := q.m_threadPool.clear } :=
    h.of_frame_jobs rfl (fun s hs => hs)
  have h2 := drain_induct ProgressInv now (fun q hq => hq.progress_workerStart 0 now)
    (fun q result hq => hq.progress_workerFinish 0 result)
    (2 * q.m_threadPool.clear.activeThreadCount) results _ h1
  refine h2.of_origin (fun s hs => hs) ?_
  intro j2 hj2
  unfold JobQueue.stopAll at hj2
  simp only [List.mem_map] at hj2
  obtain ⟨j, hjm, he⟩ := hj2
  refine ⟨j, hjm, ?_, ?_⟩
  · rw [← he]
    split_ifs
    · exact (Job.setStatus_fields _ _ _).1
    · rfl
  · rw [← he]
    split_ifs
    · exact (Job.setStatus_fields _ _ _).2.2.2
    · rfl

theorem ProgressInv.progress_step {q : JobQueue} (h : ProgressInv q) (now : Int)
    (e : Event) : ProgressInv (q.step now e) := by
  cases e with
  | addJob path size settings => exact h.progress_addJob path size settings
  | start K =>
    show ProgressInv (q.start K)
    unfold JobQueue.start
    split_ifs
    · exact h
    · exact h
    · exact ProgressInv.progress_dispatch (h.of_frame_jobs rfl (fun s hs => hs))
  | pause => exact h.of_frame_jobs rfl (fun s hs => hs)
  | resume => exact ProgressInv.progress_dispatch (h.of_frame_jobs rfl (fun s hs => hs))
  | stopAll results => exact h.progress_stopAll results now
  | cancel id => exact h.progress_cancel id now
  | workerStart i => exact h.progress_workerStart i now
  | workerProgress i p =>
    show ProgressInv (q.workerProgress i p)
    unfold JobQueue.workerProgress
    cases q.m_threadPool.running.get? i with
    | none => exact h
    | some r => exact h.of_frame_jobs rfl (fun s hs => hs)
  | workerFinish i result => exact h.progress_workerFinish i result
  | deliver => exact h.progress_deliver now

theorem ProgressInv.progress_exec (trace : List (Int × Event)) :
    ∀ q : JobQueue, ProgressInv q → ProgressInv (JobQueue.exec q trace) := by
  induction trace with
  | nil => intro q h; exact h
  | cons te rest ih => intro q h; exact ih _ (h.progress_step te.1 te.2)

theorem totalProgress_congr (q q2 : JobQueue) (h : q2.m_jobs = q.m_jobs) :
    q2.totalProgress = q.totalProgress := by
  unfold JobQueue.totalProgress
  rw [h]

/-- C30: in every state a new queue reaches by any events, the stored
progress of every job is 0 or 100, and it is 100 only if `jobCompleted` has
been emitted for that job, which `onJobFinished` does when it records a
success. A progress value reported by a strategy is posted to the queue's
thread and, when delivered, emitted as `jobProgress` and `progressChanged`:
neither step writes to a job, and `totalProgress()` is the same before and
after. -/
theorem C30_stored_progress :
    (∀ trace : List (Int × Event), ∀ j ∈ (JobQueue.exec {} trace).m_jobs,
      (j.m_progress = 0 ∨ j.m_progress = 100) ∧
      (j.m_progress = 100 → Signal.jobCompleted j.m_id ∈ (JobQueue.exec {} trace).emitted)) ∧
    (∀ (q : JobQueue) (i : Nat) (p : Int),
      (q.workerProgress i p).m_jobs = q.m_jobs ∧
      (q.workerProgress i p).emitted = q.emitted ∧
      (q.workerProgress i p).totalProgress = q.totalProgress) ∧
    (∀ (q : JobQueue) (now : Int) (jobId : JobId) (p : Int) (rest : List QueuedCall),
      q.posted = QueuedCall.progress jobId p :: rest →
      (q.deliver now).m_jobs = q.m_jobs ∧
      (q.deliver now).emitted =
        q.emitted ++ [Signal.jobProgress jobId p, Signal.progressChanged q.totalProgress] ∧
      (q.deliver now).totalProgress = q.totalProgress) := by
  refine ⟨?_, ?_, ?_⟩
  · intro trace j hj
    have h0 : ProgressInv ({} : JobQueue) := by
      refine ⟨?_, ?_⟩
      · intro j hj
        cases hj
      · intro j hj
        cases hj
    have h := ProgressInv.progress_exec trace {} h0
    exact ⟨h.values j hj, h.recorded j hj⟩
  · intro q i p
    have hjobs : (q.workerProgress i p).m_jobs = q.m_jobs := by
      unfold JobQueue.workerProgress
      cases q.m_threadPool.running.get? i <;> rfl
    refine ⟨hjobs, ?_, totalProgress_congr _ _ hjobs⟩
    unfold JobQueue.workerProgress
    cases q.m_threadPool.running.get? i <;> rfl
  · intro q now jobId p rest hpo
    have hjobs : (q.deliver now).m_jobs = q.m_jobs := by
      unfold JobQueue.deliver
      rw [hpo]
    refine ⟨hjobs, ?_, totalProgress_congr _ _ hjobs⟩
    unfold JobQueue.deliver
    rw [hpo]
    rfl

theorem C30_stored_progress_witness :
    (JobQueue.exec {} (completedRun ++ followUpRun)).m_jobs.map Job.m_progress = [100, 0] ∧
    (∀ j ∈ (JobQueue.exec {} (completedRun ++ followUpRun)).m_jobs,
      (j.m_progress = 0 ∨ j.m_progress = 100) ∧
      (j.m_progress = 100 →
        Signal.jobCompleted j.m_id ∈
          (JobQueue.exec {} (completedRun ++ followUpRun)).emitted)) ∧
    (JobQueue.deliver
      { m_jobs := [{ m_id := 0, m_inputPath := [], m_status := JobStatus.Processing }],
        posted := [QueuedCall.progress 0 40] } 3).m_jobs =
      [{ m_id := 0, m_inputPath := [], m_status := JobStatus.Processing }] :=
  ⟨by decide, C30_stored_progress.1 (completedRun ++ followUpRun),
   (C30_stored_progress.2.2
      { m_jobs := [{ m_id := 0, m_inputPath := [], m_status := JobStatus.Processing }],
        posted := [QueuedCall.progress 0 40] } 3 0 40 [] rfl).1⟩

end DFCompressor
